import Mathlib

/-!
# Verification of the zelda64.js core against its specification

This file gives a shallow embedding, in Lean 4, of the core subsystems of the
zelda64.js repository (a toolkit transforming Nintendo 64 "Zelda64" ROM
images): the buffer reader/writer, the ROM/DMA model, the Yaz0 codec, the ZPF
patcher's XOR keystream, the N64 header CRC, and the deflater loop.  Each
definition is translated from the TypeScript source (`src/util.ts`,
`src/rom.ts`, `src/decompressor.ts`, `src/patcher.ts`, `src/crc.ts`, the
Yaz0 compressor in `src/yaz0.ts`, and the compression worker); theorems then
settle the specification's claims about those functions.

Modelling conventions, used throughout:

* A JS `ArrayBuffer` is a `Buffer`: a size together with a total byte
  function `Nat → Nat`; meaningful buffers hold values `< 256`.
* JS numbers in the embedded code paths are naturals (`Nat`), with `% 2^32`
  (the source's `u32`/masking) written where the source wraps.  Where the
  source relies on IEEE-754 double arithmetic beyond 2^53 (the CRC 6106
  finalization) the double rounding is modelled explicitly (`jsRound`).
* `DataView` accessors are big-endian (as in the source) and fail with
  `JsErr.boundsError` out of range, like the RangeError they throw in JS.
* `TypedArray` element access is platform-endian; the deployment platforms
  of this package (x86/ARM Node and browsers) are little-endian, and the
  source's magic constant `0x60100000` (the byte-swapped `0x00001060`) only
  matches DMA tables under little-endian loads, so `Uint32Array` reads are
  embedded little-endian.  Out-of-range typed-array reads yield JS
  `undefined` and are modelled as `none`; out-of-range typed-array writes
  are silently dropped, and are modelled as no-ops.
* Loops whose JS form is `while`/`for` are embedded with an explicit fuel
  (structural recursion), with the fuel chosen so that it never runs out on
  the executions the theorems speak about.
-/

namespace Zelda64

/-! ## Arithmetic helpers for the JS bitwise idioms -/

/-- OR of disjoint bit ranges is addition: `(a <<< k) ||| b = a * 2^k + b`
when `b < 2^k`.  The sources build multi-byte values this way. -/
theorem shiftLeft_or_eq_add (a b k : Nat) (h : b < 2^k) :
    (a <<< k) ||| b = a * 2^k + b := by
  apply Nat.eq_of_testBit_eq
  intro i
  rw [Nat.testBit_or, Nat.testBit_shiftLeft, mul_comm a (2^k),
    Nat.testBit_mul_pow_two_add a h i]
  rcases Nat.lt_or_ge i k with hi | hi
  · simp [Nat.not_le.mpr hi, hi]
  · simp only [ge_iff_le, hi, if_neg (Nat.not_lt.mpr hi)]
    have hb : b.testBit i = false :=
      Nat.testBit_lt_two_pow (lt_of_lt_of_le h (Nat.pow_le_pow_right (by norm_num) hi))
    simp [hb]

/-- Pointwise update of a byte function (one `array[i] = v` store). -/
def updF (f : Nat → Nat) (i v : Nat) : Nat → Nat :=
  fun j => if j = i then v else f j

theorem updF_same (f : Nat → Nat) (i v : Nat) : updF f i v i = v := by
  simp [updF]

theorem updF_other (f : Nat → Nat) (i v j : Nat) (h : j ≠ i) : updF f i v j = f j := by
  simp [updF, h]

/-! ## Buffers and the reader/writer (src/util.ts)

`SeekableBuffer` wraps an `ArrayBuffer` with a `DataView`; reads and writes
at explicit offsets do not involve the cursor, and every embedded call site
below passes explicit offsets, so the embedding works with offsets directly.
-/

/-- Error taxonomy of the embedded code: each constructor stands for one
`throw` site (or thrown `RangeError`) of the source. -/
inductive JsErr where
  /-- `DataView`/`ArrayBuffer` out-of-range access (JS RangeError). -/
  | boundsError
  /-- `"Not a valid ROM."` in `Rom.validateRom`. -/
  | notValidRom
  /-- `"no DMA table found"` in `_findDmaTableOffset`. -/
  | dmaMissing
  /-- `"DMA record index is out of bounds"` in `Rom.readDmaRecord`. -/
  | indexError
  /-- `"Overlapping DMA data records!"` in `Rom.verifyDmaData`. -/
  | dmaOverlap
  /-- `"could not calculate CIC"` in `N64Crc._cic`. -/
  | cicUnknown
  /-- `"invalid operation"` in `CompressionWorker.run` (unreachable for
  operation tables built by the constructor). -/
  | invalidOperation
  deriving DecidableEq, Repr

/-- A JS `ArrayBuffer`: a byte size and the byte at each offset.  Offsets at
and beyond `size` are not meaningful (accessors guard them). -/
structure Buffer where
  size : Nat
  data : Nat → Nat

deriving instance DecidableEq for Except

/-- `DataView.getUint8` at an absolute offset (`Reader.readUint8(offset)`).
The offset is an `Int` because callers can produce negative cursors
(`Rom.readDmaRecord` with a negative index). -/
def readU8 (b : Buffer) (i : Int) : Except JsErr Nat :=
  if 0 ≤ i ∧ i + 1 ≤ (b.size : Int) then .ok (b.data i.toNat) else .error .boundsError

/-- `DataView.getUint32` big-endian at an absolute offset
(`Reader.readUint32(offset)` — big-endian is the `DataView` default and no
embedded call site passes `littleEndian`). -/
def readU32 (b : Buffer) (i : Int) : Except JsErr Nat :=
  if 0 ≤ i ∧ i + 4 ≤ (b.size : Int) then
    .ok ((b.data i.toNat <<< 24) ||| (b.data (i.toNat + 1) <<< 16) |||
         (b.data (i.toNat + 2) <<< 8) ||| b.data (i.toNat + 3))
  else .error .boundsError

/-- `DataView.setUint32` big-endian at an absolute offset
(`Writer.writeUint32(value, offset)`): stores the four big-endian bytes of
`v % 2^32`. -/
def writeU32 (b : Buffer) (i : Int) (v : Nat) : Except JsErr Buffer :=
  if 0 ≤ i ∧ i + 4 ≤ (b.size : Int) then
    let d1 := updF b.data i.toNat (v / 2^24 % 256)
    let d2 := updF d1 (i.toNat + 1) (v / 2^16 % 256)
    let d3 := updF d2 (i.toNat + 2) (v / 2^8 % 256)
    let d4 := updF d3 (i.toNat + 3) (v % 256)
    .ok { b with data := d4 }
  else .error .boundsError

/-- `Writer.writeBytes(data, offset, size?)`: copies `len` bytes from `src`
(the `Uint8Array` over the argument buffer: byte `k` is `src k`) to
`start`, each store a `setUint8` (values truncated mod 256).  The JS loop
throws at the first out-of-range store; the embedding checks the range up
front, which agrees with the source whenever the write either fully fits or
starts out of range, and no theorem below exercises a partially-fitting
write. -/
def writeBytes (b : Buffer) (src : Nat → Nat) (len : Nat) (start : Nat) :
    Except JsErr Buffer :=
  if start + len ≤ b.size then
    .ok { b with data := fun j =>
      if start ≤ j ∧ j < start + len then src (j - start) % 256 else b.data j }
  else .error .boundsError

/-- `Writer.fill(value, size, offset)` from `src/util.ts`.  The source
allocates `const buffer = new ArrayBuffer(size)` (zero-initialised), builds
a *separate* scratch `const array = new Uint8Array(value)` — an array of
length `value`, not a view of `buffer` — fills that scratch array with
`value`, discards it, and writes the untouched zeroed `buffer` through
`writeBytes`.  The scratch array never reaches the output, so the bytes
written are the zero buffer's. -/
def Writer.fill (b : Buffer) (value size offset : Nat) : Except JsErr Buffer :=
  -- `new Uint8Array(value)` filled with `value` and dropped: no effect on `b`.
  writeBytes b (fun _ => 0) size offset

/-- The scratch array `Writer.fill` builds and discards: `new
Uint8Array(value)` then `array[i] = value` for `i < size` (stores past the
array's length `value` are dropped, as typed-array OOB stores are). -/
def Writer.fillScratch (value size : Nat) : Nat → Nat :=
  fun i => if i < size ∧ i < value then value % 256 else 0

/-- C10: `Writer.fill(value, size, offset)` writes `size` zero bytes at
`offset` whatever `value` is: the filled scratch array is separate from the
zero-initialised buffer that gets written out.  Every in-repository caller
passes `value = 0`, for which the zero-fill is the intended behaviour. -/
theorem fill_writes_zeros :
    (∀ b value size offset, Writer.fill b value size offset = Writer.fill b 0 size offset) ∧
    (∀ b value size offset, offset + size ≤ b.size →
      ∃ b', Writer.fill b value size offset = .ok b' ∧
        b'.size = b.size ∧
        (∀ j, offset ≤ j → j < offset + size → b'.data j = 0) ∧
        (∀ j, j < offset ∨ offset + size ≤ j → b'.data j = b.data j)) ∧
    (∀ b value size offset, b.size < offset + size →
      Writer.fill b value size offset = .error .boundsError) := by
  refine ⟨fun b value size offset => rfl, fun b value size offset h => ?_, ?_⟩
  · refine ⟨{ b with data := fun j =>
        if offset ≤ j ∧ j < offset + size then 0 else b.data j }, ?_, rfl, ?_, ?_⟩
    · simp [Writer.fill, writeBytes, h]
    · intro j h1 h2
      simp [h1, h2]
    · intro j hj
      have hj' : ¬(offset ≤ j ∧ j < offset + size) := by omega
      simp [hj']
  · intro b value size offset h
    simp [Writer.fill, writeBytes, Nat.not_le.mpr h]

/-! ## DMA table discovery (src/rom.ts `_findDmaTableOffset`, duplicated in
src/decompressor.ts)

```
const array = new Uint32Array(this._buffer);
for (let i = 1048; i + 4 < 0x01000000; i += 4) {
    if (array[i] === 0 && array[i + 1] === 0x60100000) return i * 4;
}
throw new Error("no DMA table found");
```

`i` is a `Uint32Array` *word* index: the scan starts at word 1048 (byte
0x1060), steps `i += 4` — four words, 16 bytes — per probe, and stops when
`i + 4` reaches the word index 0x01000000.  `Uint32Array` loads are
platform-endian (little-endian on the supported hosts), so the probe
matches the byte pattern `00 00 00 00 00 00 10 60` — the big-endian record
`(vStart = 0, vEnd = 0x1060)` — and `0x60100000` is that byte-swapped
`0x00001060`.  Out-of-range loads give `undefined`, which never equals the
probed constants. -/

/-- Little-endian 32-bit load `array[i]` of `new Uint32Array(buffer)`;
`none` models the `undefined` of an out-of-range index. -/
def wordAtLE (b : Buffer) (i : Nat) : Option Nat :=
  if 4*i + 4 ≤ b.size then
    some (b.data (4*i) ||| (b.data (4*i+1) <<< 8) |||
          (b.data (4*i+2) <<< 16) ||| (b.data (4*i+3) <<< 24))
  else none

/-- Whether the probe at word index `i` matches: `array[i] === 0 &&
array[i+1] === 0x60100000`. -/
def dmaProbe (b : Buffer) (i : Nat) : Prop :=
  wordAtLE b i = some 0 ∧ wordAtLE b (i+1) = some 0x60100000

instance (b : Buffer) (i : Nat) : Decidable (dmaProbe b i) := by
  unfold dmaProbe; infer_instance

/-- The scan loop.  One fuel unit per loop entry; `0x500000` units cover
every iteration the bound `i + 4 < 0x01000000` permits from `i = 1048`
(4 194 042 entries). -/
def scanGo (b : Buffer) (i : Nat) : Nat → Option Nat
  | 0 => none
  | fuel+1 =>
    if i + 4 < 0x01000000 then
      if dmaProbe b i then some (i * 4) else scanGo b (i + 4) fuel
    else none

/-- `Rom._findDmaTableOffset` / `Decompressor._findDmaTableOffset`;
`none` stands for the thrown `"no DMA table found"` (`JsErr.dmaMissing`). -/
def findDmaTableOffset (b : Buffer) : Option Nat :=
  scanGo b 1048 0x500000

/-- Modelled from the spec's words, for comparison with the code: "a linear
scan of u32 words starting at word index 1048 up to byte offset
`0x01000000`, stepping one word at a time, matching `(0x00000000,
0x60100000)`" — words read big-endian as everywhere else in the spec's data
model, one-word steps, byte bound 0x01000000. -/
def specWordAtBE (b : Buffer) (i : Nat) : Option Nat :=
  if 4*i + 4 ≤ b.size then
    some ((b.data (4*i) <<< 24) ||| (b.data (4*i+1) <<< 16) |||
          (b.data (4*i+2) <<< 8) ||| b.data (4*i+3))
  else none

/-- Modelled from the spec: the one-word-step big-endian scan of
`specWordAtBE`, up to byte offset 0x01000000. -/
def specScanGo (b : Buffer) (i : Nat) : Nat → Option Nat
  | 0 => none
  | fuel+1 =>
    if 4 * i < 0x01000000 then
      if specWordAtBE b i = some 0 ∧ specWordAtBE b (i+1) = some 0x60100000 then
        some (i * 4)
      else specScanGo b (i + 1) fuel
    else none

/-- Modelled from the spec: `findDmaTableOffset` as §4.3 describes it. -/
def specFindDmaTableOffset (b : Buffer) : Option Nat :=
  specScanGo b 1048 0x400000

/-- The S3 buffer of the spec: zero everywhere except u32 big-endian
`0x60100000` at byte offset 0x1064 (bytes `60 10 00 00`); the big-endian
`0x00000000` at 0x1060 is zeroes anyway.  Sized 0x1080 (a multiple of 4, as
`new Uint32Array(buffer)` requires). -/
def s3Buffer : Buffer where
  size := 0x1080
  data := fun j => if j = 0x1064 then 0x60 else if j = 0x1065 then 0x10 else 0

/-- The little-endian variant of the S3 buffer that the code does find:
bytes `00 00 10 60` at 0x1064, i.e. the little-endian word `0x60100000`. -/
def s3BufferLE : Buffer where
  size := 0x1080
  data := fun j => if j = 0x1066 then 0x10 else if j = 0x1067 then 0x60 else 0

/-- `scanGo` finds nothing when no probed word index matches, provided the
fuel covers the loop bound. -/
theorem scanGo_eq_none (b : Buffer) :
    ∀ fuel i, 0x01000000 ≤ i + 4 * fuel →
      (∀ k, ¬ dmaProbe b (i + 4 * k)) → scanGo b i fuel = none := by
  intro fuel
  induction fuel with
  | zero => intro i _ _; rfl
  | succ n ih =>
    intro i hfuel hk
    unfold scanGo
    split
    · have h0 := hk 0
      simp only [Nat.mul_zero, Nat.add_zero] at h0
      rw [if_neg h0]
      apply ih
      · omega
      · intro k
        have := hk (k + 1)
        simpa [Nat.mul_add, Nat.add_comm, Nat.add_assoc, Nat.add_left_comm] using this
    · rfl

/-- A successful `scanGo` returns the byte offset of a probed, matching word
index of the form `i + 4k`, with every earlier probe failing. -/
theorem scanGo_eq_some (b : Buffer) :
    ∀ fuel i off, scanGo b i fuel = some off →
      ∃ k, off = (i + 4 * k) * 4 ∧ (i + 4 * k) + 4 < 0x01000000 ∧
        dmaProbe b (i + 4 * k) ∧ ∀ k' < k, ¬ dmaProbe b (i + 4 * k') := by
  intro fuel
  induction fuel with
  | zero => intro i off h; exact absurd h (by simp [scanGo])
  | succ n ih =>
    intro i off h
    unfold scanGo at h
    split at h
    · rename_i hbound
      by_cases hp : dmaProbe b i
      · rw [if_pos hp] at h
        refine ⟨0, ?_, ?_, ?_, ?_⟩
        · simpa using h.symm
        · simpa using hbound
        · simpa using hp
        · intro k' hk'; omega
      · rw [if_neg hp] at h
        obtain ⟨k, hoff, hb2, hmatch, hprev⟩ := ih (i + 4) off h
        refine ⟨k + 1, by omega, ?_, ?_, ?_⟩
        · omega
        · have : i + 4 + 4 * k = i + 4 * (k + 1) := by omega
          rwa [this] at hmatch
        · intro k' hk'
          rcases Nat.eq_zero_or_pos k' with rfl | hpos
          · simpa using hp
          · have := hprev (k' - 1) (by omega)
            have heq : i + 4 + 4 * (k' - 1) = i + 4 * k' := by omega
            rwa [heq] at this
    · exact absurd h (by simp)

/-- No word of the S3 buffer reads as little-endian `0x60100000`, so no
probe can match. -/
theorem s3Buffer_no_probe : ∀ k, ¬ dmaProbe s3Buffer (1048 + 4 * k) := by
  intro k ⟨_, h2⟩
  generalize hw : 1048 + 4 * k + 1 = w at h2
  unfold wordAtLE at h2
  split at h2
  · rename_i hsz
    simp only [s3Buffer] at h2 hsz
    -- the only nonzero bytes are 0x60 at 0x1064 and 0x10 at 0x1065; the word
    -- containing them is word 0x419, whose little-endian value is 0x1060.
    by_cases hw419 : w = 0x419
    · subst hw419
      exact absurd h2 (by decide)
    · have h0 : ∀ m, 4 * w ≤ m → m ≤ 4 * w + 3 →
          (if m = 0x1064 then 0x60 else if m = 0x1065 then 0x10 else 0) = 0 := by
        intro m hm1 hm2
        have : m ≠ 0x1064 ∧ m ≠ 0x1065 := by omega
        simp [this.1, this.2]
      rw [h0 (4*w) (by omega) (by omega), h0 (4*w+1) (by omega) (by omega),
        h0 (4*w+2) (by omega) (by omega), h0 (4*w+3) (by omega) (by omega)] at h2
      exact absurd h2 (by decide)
  · exact Option.noConfusion h2

/-- C3 counterexample: on the spec's S3 buffer (big-endian `0x60100000` at
byte 0x1064) the claim's scan — one-word steps, big-endian words — returns
0x1060, but the code's `_findDmaTableOffset` finds nothing and fails with
dma-missing: its `Uint32Array` loads are little-endian (the matching byte
pattern is `00 00 10 60`, not `60 10 00 00`), its probes step four words at
a time, and its bound is a word index. -/
theorem findDmaTableOffset_s3_counterexample :
    specFindDmaTableOffset s3Buffer = some 0x1060 ∧
    findDmaTableOffset s3Buffer = none := by
  constructor
  · decide
  · exact scanGo_eq_none s3Buffer 0x500000 1048 (by norm_num) s3Buffer_no_probe

/-- C3 amended: the discovery is a linear scan of little-endian u32 words
starting at word index 1048 (byte 0x1060) stepping *four words (16 bytes)*
per probe while `i + 4 < 0x01000000` as a *word* index, matching the
little-endian pair `(0x00000000, 0x60100000)`, i.e. the eight bytes
`00 00 00 00 00 00 10 60`; on the S3 buffer re-encoded little-endian it
returns 0x1060, a success is always the first matching probe (an offset
`0x1060 + 16k`), and it fails with dma-missing when no probe matches. -/
theorem findDmaTableOffset_amended :
    findDmaTableOffset s3BufferLE = some 0x1060 ∧
    (∀ b off, findDmaTableOffset b = some off →
      ∃ k, off = 0x1060 + 16 * k ∧ dmaProbe b (1048 + 4 * k) ∧
        ∀ k' < k, ¬ dmaProbe b (1048 + 4 * k')) ∧
    (∀ b, (∀ k, ¬ dmaProbe b (1048 + 4 * k)) → findDmaTableOffset b = none) := by
  refine ⟨by decide, ?_, ?_⟩
  · intro b off h
    obtain ⟨k, hoff, _, hmatch, hprev⟩ := scanGo_eq_some b 0x500000 1048 off h
    exact ⟨k, by omega, hmatch, hprev⟩
  · intro b hb
    exact scanGo_eq_none b 0x500000 1048 (by norm_num) hb

/-! ## The Rom class (src/rom.ts) -/

/-- A DMA record: four big-endian u32 fields. -/
structure DmaRecord where
  virtualStart : Nat
  virtualEnd : Nat
  physicalStart : Nat
  physicalEnd : Nat
  deriving DecidableEq, Repr

/-- The ROM type `validateRom` classifies into. -/
inductive RomType where
  | COMPRESSED
  | BIG_ENDIAN_COMPRESSED
  | DECOMPRESSED
  deriving DecidableEq, Repr

/-- `crc.compressed` of src/rom.ts. -/
def sigCompressed : List Nat := [0xEC, 0x70, 0x11, 0xB7, 0x76, 0x16, 0xD7, 0x2B]

/-- `crc.bigEndianCompressed` of src/rom.ts. -/
def sigBigEndianCompressed : List Nat := [0x70, 0xEC, 0xB7, 0x11, 0x16, 0x76, 0x2B, 0xD7]

/-- `crc.decompressed` of src/rom.ts. -/
def sigDecompressed : List Nat := [0x93, 0x52, 0x2E, 0x7B, 0xE5, 0x06, 0xD4, 0x27]

/-- The eight bytes `new Uint8Array(this._buffer, CRC_OFFSET, 8)` views,
CRC_OFFSET = 0x10. -/
def checksumBytes (b : Buffer) : List Nat :=
  List.ofFn fun i : Fin 8 => b.data (0x10 + i)

/-- `Rom.validateRom`: compares the eight bytes at 0x10..0x17 against the
three known signatures (`Array.every` of elementwise equality, which for
the 8-element signature lists is list equality) and throws `"Not a valid
ROM."` otherwise.  The `Uint8Array(buffer, 0x10, 8)` view construction
itself throws a RangeError on a buffer shorter than 0x18 bytes. -/
def validateRom (b : Buffer) : Except JsErr RomType :=
  if 0x18 ≤ b.size then
    if checksumBytes b = sigCompressed then .ok .COMPRESSED
    else if checksumBytes b = sigBigEndianCompressed then .ok .BIG_ENDIAN_COMPRESSED
    else if checksumBytes b = sigDecompressed then .ok .DECOMPRESSED
    else .error .notValidRom
  else .error .boundsError

/-- The embedded Rom instance: the fields the constructor computes.
`dmaSize` is an `Int` because the source computes `vEnd - vStart` on JS
numbers; `_dmaCount = dmaSize / 16` is JS (real) division, so every
`index >= dmaCount` comparison on an integer `index` is embedded as
`16 * index ≥ dmaSize`. -/
structure Rom where
  buf : Buffer
  type : RomType
  dmaOffset : Nat
  dmaSize : Int

/-- The raw 16-byte record read `readDmaRecord` performs after its index
check: `seek(dmaOffset, "begin"); seek(index * 16)` and four cursor
`readUint32` calls, i.e. four big-endian u32 reads at
`dmaOffset + 16*index + {0, 4, 8, 12}`. -/
def readRecordRaw (b : Buffer) (dmaOffset : Nat) (index : Int) :
    Except JsErr DmaRecord :=
  (readU32 b ((dmaOffset : Int) + 16 * index)).bind fun v1 =>
  (readU32 b ((dmaOffset : Int) + 16 * index + 4)).bind fun v2 =>
  (readU32 b ((dmaOffset : Int) + 16 * index + 8)).bind fun v3 =>
  (readU32 b ((dmaOffset : Int) + 16 * index + 12)).map fun v4 =>
  ⟨v1, v2, v3, v4⟩

/-- `readU32` either succeeds or fails with the DataView bounds error. -/
theorem readU32_cases (b : Buffer) (i : Int) :
    (∃ v, readU32 b i = .ok v) ∨ readU32 b i = .error .boundsError := by
  unfold readU32; split
  · exact Or.inl ⟨_, rfl⟩
  · exact Or.inr rfl

/-- `readRecordRaw` either succeeds or fails with the bounds error — it
never raises the index error. -/
theorem readRecordRaw_cases (b : Buffer) (o : Nat) (i : Int) :
    (∃ r, readRecordRaw b o i = .ok r) ∨ readRecordRaw b o i = .error .boundsError := by
  unfold readRecordRaw
  rcases readU32_cases b ((o : Int) + 16 * i) with ⟨v1, h1⟩ | h1 <;>
    simp only [h1, Except.bind] <;> [skip; exact Or.inr trivial]
  rcases readU32_cases b ((o : Int) + 16 * i + 4) with ⟨v2, h2⟩ | h2 <;>
    simp only [h2, Except.bind] <;> [skip; exact Or.inr trivial]
  rcases readU32_cases b ((o : Int) + 16 * i + 8) with ⟨v3, h3⟩ | h3 <;>
    simp only [h3, Except.bind] <;> [skip; exact Or.inr trivial]
  rcases readU32_cases b ((o : Int) + 16 * i + 12) with ⟨v4, h4⟩ | h4 <;>
    simp only [h4, Except.map]
  · exact Or.inl ⟨_, rfl⟩
  · exact Or.inr trivial

/-- `Rom.readDmaRecord(index)`: throws index-error when
`index >= this._dmaCount` and otherwise reads the record; a negative index
passes the check (the source has no lower bound) and reads the bytes
*before* the table (or trips the DataView bounds check when the cursor goes
negative). -/
def Rom.readDmaRecord (rom : Rom) (index : Int) : Except JsErr DmaRecord :=
  if 16 * index ≥ rom.dmaSize then .error .indexError
  else readRecordRaw rom.buf rom.dmaOffset index

/-- The Rom constructor: `validateRom` (the `fixEndianness` branch is off —
no embedded caller passes the flag), `_findDmaTableOffset`, then the DMA
info record at index 2.  At that point `_dmaCount` is still `undefined` and
`readDmaRecord`'s `2 >= undefined` check is false, so the index-2 read is
unchecked (`readRecordRaw`). -/
def Rom.make (b : Buffer) : Except JsErr Rom := do
  let t ← validateRom b
  match findDmaTableOffset b with
  | none => .error .dmaMissing
  | some dmaOffset => do
    let info ← readRecordRaw b dmaOffset 2
    return { buf := b, type := t, dmaOffset := dmaOffset,
             dmaSize := (info.virtualEnd : Int) - (info.virtualStart : Int) }

/-- A ROM buffer accepted by `validateRom` (compressed signature at 0x10)
whose DMA table sits at 0x1060 with `dmaCount = 3`: record 0 is the
discovery pattern `(0, 0x1060, 0, 0)` and record 2 (the info record) spans
`0x1060..0x1090`. -/
def c9Buffer : Buffer where
  size := 0x1090
  data := fun j =>
    -- the 8 signature bytes at 0x10..0x17
    if j = 0x10 then 0xEC else if j = 0x11 then 0x70 else
    if j = 0x12 then 0x11 else if j = 0x13 then 0xB7 else
    if j = 0x14 then 0x76 else if j = 0x15 then 0x16 else
    if j = 0x16 then 0xD7 else if j = 0x17 then 0x2B else
    -- record 0: vEnd = 0x00001060 (bytes 00 00 10 60 at 0x1064)
    if j = 0x1066 then 0x10 else if j = 0x1067 then 0x60 else
    -- record 2 at 0x1080: vStart = 0x1060, vEnd = 0x1090
    if j = 0x1082 then 0x10 else if j = 0x1083 then 0x60 else
    if j = 0x1086 then 0x10 else if j = 0x1087 then 0x90 else
    0

/-- C9 counterexample: on a valid ROM model with `dmaCount = 3`, the
negative out-of-range index `-1` does *not* fail with index-error: the
source only checks `index >= dmaCount`, so `readDmaRecord(-1)` reads the 16
bytes before the table and returns them as a record. -/
theorem readDmaRecord_neg_counterexample :
    ((Rom.make c9Buffer).bind fun rom => rom.readDmaRecord (-1)).toOption =
      some ⟨0, 0, 0, 0⟩ := by
  decide

/-- C9 amended: `readDmaRecord i` fails with index-error exactly when
`i ≥ dmaCount` (i.e. `16 i ≥ dmaSize`); an in-range index reads the four
big-endian words at `dmaOffset + 16 i`; a *negative* index is not detected
— the read proceeds at the cursor before the table, returning data when
that cursor is in bounds and a bounds error (not an index error) when it is
not. -/
theorem readDmaRecord_amended :
    (∀ (rom : Rom) (i : Int),
      rom.readDmaRecord i = .error .indexError ↔ 16 * i ≥ rom.dmaSize) ∧
    (∀ (rom : Rom) (i : Int), 16 * i < rom.dmaSize →
      rom.readDmaRecord i = readRecordRaw rom.buf rom.dmaOffset i) ∧
    (∀ (rom : Rom) (i : Int), 16 * i < rom.dmaSize →
      0 ≤ (rom.dmaOffset : Int) + 16 * i →
      (rom.dmaOffset : Int) + 16 * i + 16 ≤ (rom.buf.size : Int) →
      ∃ r, rom.readDmaRecord i = .ok r) := by
  refine ⟨fun rom i => ?_, fun rom i h => ?_, fun rom i h h0 h1 => ?_⟩
  · constructor
    · intro h
      by_contra hlt
      rw [Rom.readDmaRecord, if_neg hlt] at h
      rcases readRecordRaw_cases rom.buf rom.dmaOffset i with ⟨r, hr⟩ | hr <;>
        rw [hr] at h <;> simp at h
    · intro h
      rw [Rom.readDmaRecord, if_pos h]
  · rw [Rom.readDmaRecord, if_neg (by omega)]
  · rw [Rom.readDmaRecord, if_neg (by omega)]
    unfold readRecordRaw readU32
    rw [if_pos ⟨by omega, by omega⟩, if_pos ⟨by omega, by omega⟩,
      if_pos ⟨by omega, by omega⟩, if_pos ⟨by omega, by omega⟩]
    exact ⟨_, rfl⟩

/-- C4 counterexample: two ROM buffers that differ only in byte 0x10 (one of
the eight signature bytes): the first is accepted by the Rom model, the
second is rejected outright with `"Not a valid ROM."` — construction does
not succeed or fail identically. -/
theorem validateRom_signature_counterexample :
    (Rom.make c9Buffer).isOk = true ∧
    (Rom.make { c9Buffer with data := updF c9Buffer.data 0x10 0 }).isOk = false ∧
    (validateRom { c9Buffer with data := updF c9Buffer.data 0x10 0 } =
      .error .notValidRom) := by
  refine ⟨by decide, ?_, ?_⟩ <;>
    · show _
      decide

/-- C4 amended: the core *does* consult the signature bytes at 0x10..0x17:
`Rom.validateRom` (run by the Rom constructor, hence by the deflater and
the patcher) classifies the ROM by comparing exactly those eight bytes
against three fixed signatures and rejects every other value, so two ROMs
differing only in those bytes can construct differently. -/
theorem validateRom_amended :
    (∀ b, 0x18 ≤ b.size →
      ((validateRom b).isOk ↔
        checksumBytes b = sigCompressed ∨ checksumBytes b = sigBigEndianCompressed ∨
        checksumBytes b = sigDecompressed)) ∧
    (∀ b b', b.size = b'.size → checksumBytes b = checksumBytes b' →
      validateRom b = validateRom b') ∧
    (∀ b, 0x18 ≤ b.size →
      checksumBytes b ≠ sigCompressed → checksumBytes b ≠ sigBigEndianCompressed →
      checksumBytes b ≠ sigDecompressed → validateRom b = .error .notValidRom) := by
  refine ⟨fun b hb => ?_, fun b b' hsz hcs => ?_, fun b hb h1 h2 h3 => ?_⟩
  · unfold validateRom
    rw [if_pos hb]
    constructor
    · intro h
      by_contra hall
      push_neg at hall
      rw [if_neg hall.1, if_neg hall.2.1, if_neg hall.2.2] at h
      exact Bool.noConfusion h
    · rintro (h | h | h) <;> rw [h] <;> decide
  · unfold validateRom
    rw [hsz, hcs]
  · unfold validateRom
    rw [if_pos hb, if_neg h1, if_neg h2, if_neg h3]

/-! ## DMA overlap verification (src/rom.ts `verifyDmaData`) -/

/-- The collection loop of `verifyDmaData`: `for (i = 0; i < dmaCount; i++)`
reading records until the `(0, 0)` terminator.  One fuel unit per loop
entry; `dmaSize.toNat + 1` units cover every iteration the bound permits. -/
def collectGo (rom : Rom) : Nat → Nat → Except JsErr (List DmaRecord)
  | 0, _ => .ok []
  | fuel+1, i =>
    if 16 * (i : Int) < rom.dmaSize then
      (rom.readDmaRecord i).bind fun r =>
        if r.virtualStart = 0 ∧ r.virtualEnd = 0 then .ok []
        else (collectGo rom fuel (i+1)).map fun rest => r :: rest
    else .ok []

/-- The `dmaData` list `verifyDmaData` collects. -/
def collectDma (rom : Rom) : Except JsErr (List DmaRecord) :=
  collectGo rom (rom.dmaSize.toNat + 1) 0

/-- `dmaData.sort(...)` with the comparator on `virtualStart`: JS
`Array.prototype.sort` is stable, and a stable sort by a total preorder is
unique, so the embedding uses insertion sort (also stable: elements are
inserted from the right, and an element is placed before the equal keys to
its right). -/
def sortByVStart (l : List DmaRecord) : List DmaRecord :=
  l.insertionSort (fun a b => a.virtualStart ≤ b.virtualStart)

/-- The adjacent-pair check of `verifyDmaData`: true iff some adjacent pair
of the (sorted) list has `current.virtualEnd > next.virtualStart`. -/
def adjacentOverlap : List DmaRecord → Bool
  | a :: b :: rest => decide (b.virtualStart < a.virtualEnd) || adjacentOverlap (b :: rest)
  | _ => false

/-- `Rom.verifyDmaData`: collect, sort by `virtualStart`, fail with
`"Overlapping DMA data records!"` when some adjacent sorted pair overlaps. -/
def Rom.verifyDmaData (rom : Rom) : Except JsErr Unit :=
  (collectDma rom).bind fun l =>
    if adjacentOverlap (sortByVStart l) then .error .dmaOverlap else .ok ()

/-- Disjointness of the virtual intervals of two records. -/
def DmaDisj (a b : DmaRecord) : Prop :=
  a.virtualEnd ≤ b.virtualStart ∨ b.virtualEnd ≤ a.virtualStart

/-- `adjacentOverlap` holds exactly when some adjacent pair overlaps. -/
theorem adjacentOverlap_iff (s : List DmaRecord) :
    adjacentOverlap s = true ↔
      ∃ i a b, s[i]? = some a ∧ s[i+1]? = some b ∧ b.virtualStart < a.virtualEnd := by
  induction s with
  | nil => simp [adjacentOverlap]
  | cons a tail ih =>
    cases tail with
    | nil =>
      simp only [adjacentOverlap]
      constructor
      · intro h; exact Bool.noConfusion h
      · rintro ⟨i, x, y, hx, hy, _⟩
        rcases i with _ | i <;> simp at hx hy
    | cons b rest =>
      simp only [adjacentOverlap, Bool.or_eq_true, decide_eq_true_eq]
      rw [ih]
      constructor
      · rintro (h | ⟨i, x, y, hx, hy, hlt⟩)
        · exact ⟨0, a, b, rfl, by simp, h⟩
        · exact ⟨i + 1, x, y, by simpa using hx, by simpa using hy, hlt⟩
      · rintro ⟨i, x, y, hx, hy, hlt⟩
        rcases i with _ | i
        · simp only [List.getElem?_cons_zero, Option.some.injEq] at hx
          simp only [List.getElem?_cons_succ, List.getElem?_cons_zero,
            Option.some.injEq] at hy
          exact Or.inl (hx ▸ hy ▸ hlt)
        · exact Or.inr ⟨i, x, y, by simpa using hx, by simpa using hy, hlt⟩

/-- On a sorted list of live, pairwise-disjoint records no adjacent pair
overlaps. -/
theorem adjacentOverlap_eq_false (s : List DmaRecord)
    (hs : s.Pairwise (fun a b => a.virtualStart ≤ b.virtualStart))
    (hlive : ∀ r ∈ s, r.virtualStart < r.virtualEnd)
    (hdisj : s.Pairwise DmaDisj) : adjacentOverlap s = false := by
  induction s with
  | nil => rfl
  | cons a tail ih =>
    cases tail with
    | nil => rfl
    | cons b rest =>
      simp only [adjacentOverlap, Bool.or_eq_false_iff, decide_eq_false_iff_not, Nat.not_lt]
      constructor
      · have hd : DmaDisj a b := (List.pairwise_cons.mp hdisj).1 b (by simp)
        have hsort : a.virtualStart ≤ b.virtualStart :=
          (List.pairwise_cons.mp hs).1 b (by simp)
        have hbl : b.virtualStart < b.virtualEnd := hlive b (by simp)
        rcases hd with h | h
        · exact h
        · omega
      · exact ih (List.pairwise_cons.mp hs).2 (fun r hr => hlive r (by simp [hr]))
          (List.pairwise_cons.mp hdisj).2

/-- The two records of scenario S6. -/
def s6Records : List DmaRecord := [⟨0, 0x100, 0, 0⟩, ⟨0x80, 0x200, 0, 0⟩]

/-- A ROM buffer like `c9Buffer` but whose record 1 is `(0x80, 0x200, 0, 0)`,
overlapping record 0's `(0, 0x1060)` span. -/
def c7Buffer : Buffer where
  size := 0x1090
  data := fun j =>
    if j = 0x1073 then 0x80 else
    if j = 0x1074 then 0 else if j = 0x1075 then 0 else
    if j = 0x1076 then 0x02 else c9Buffer.data j

/-- C7: `verifyNonOverlapping` collects records up to the `(0,0)`
terminator, sorts them stably by `virtualStart`, and fails with dma-overlap
exactly when some adjacent sorted pair has `a.virtualEnd > b.virtualStart`;
the S6 pair `(0, 0x100)`/`(0x80, 0x200)` trips the check (and a full ROM
whose table holds an overlapping pair fails end-to-end), while any table of
live pairwise-disjoint records passes. -/
theorem verifyDmaData_spec :
    adjacentOverlap (sortByVStart s6Records) = true ∧
    ((Rom.make c7Buffer).bind Rom.verifyDmaData = .error .dmaOverlap) ∧
    (∀ rom l, collectDma rom = .ok l →
      (rom.verifyDmaData = .error .dmaOverlap ↔
        ∃ i a b, (sortByVStart l)[i]? = some a ∧ (sortByVStart l)[i+1]? = some b ∧
          b.virtualStart < a.virtualEnd)) ∧
    (∀ rom l, collectDma rom = .ok l →
      (∀ r ∈ l, r.virtualStart < r.virtualEnd) → l.Pairwise DmaDisj →
      rom.verifyDmaData = .ok ()) := by
  refine ⟨by decide, by decide, fun rom l hl => ?_, fun rom l hl hlive hdisj => ?_⟩
  · rw [← adjacentOverlap_iff]
    unfold Rom.verifyDmaData
    rw [hl]
    constructor
    · intro h
      by_contra hb
      rw [Bool.not_eq_true] at hb
      simp only [Except.bind, hb, Bool.false_eq_true, if_neg] at h
      exact Except.noConfusion h
    · intro h
      simp [Except.bind, h]
  · unfold Rom.verifyDmaData
    rw [hl]
    have hperm : (sortByVStart l).Perm l := l.perm_insertionSort _
    have hsorted : (sortByVStart l).Pairwise fun a b => a.virtualStart ≤ b.virtualStart := by
      haveI : IsTotal DmaRecord (fun a b => a.virtualStart ≤ b.virtualStart) :=
        ⟨fun a b => Nat.le_total _ _⟩
      haveI : IsTrans DmaRecord (fun a b => a.virtualStart ≤ b.virtualStart) :=
        ⟨fun _ _ _ => Nat.le_trans⟩
      exact l.sorted_insertionSort _
    have hdisj' : (sortByVStart l).Pairwise DmaDisj := by
      refine (List.Perm.pairwise_iff ?_ hperm).mpr hdisj
      intro a b h
      exact h.symm
    have hlive' : ∀ r ∈ sortByVStart l, r.virtualStart < r.virtualEnd := by
      intro r hr
      exact hlive r (hperm.mem_iff.mp hr)
    show (Except.ok l).bind _ = _
    simp only [Except.bind]
    rw [adjacentOverlap_eq_false _ hsorted hlive' hdisj']
    rfl

/-! ## The ZPF XOR keystream and block decoding (src/patcher.ts)

```
private _getNextXorKey(rom: Rom, address: number, addressRange: number[]) {
    let key = 0;
    while (key === 0) {
        address += 1;
        if (address > addressRange[1]) address = addressRange[0];
        key = rom.readUint8(address);
    }
    return {key, address};
}
```
and the per-block decode loop of `_writeDataBlocks`:
```
for (let i = 0; i < blockSize; i++) {
    if (src[i] === 0) data[i] = 0;
    else { const xor = this._getNextXorKey(rom, xorAddress, this._conf.xorRange);
           xorAddress = xor.address; data[i] = src[i] ^ xor.key; }
}
```
The keystream reads the *input* ROM.  One fuel unit per `while` entry; the
fuel arguments below always cover the executions the theorems mention (an
all-zero key window loops forever in JS, which surfaces as `none`). -/

/-- `Patcher._getNextXorKey`: `lo, hi = addressRange`. -/
def getNextXorKey (rom : Buffer) (lo hi : Nat) : Nat → Nat → Option (Nat × Nat)
  | 0, _ => none
  | fuel+1, address =>
    let address := address + 1
    let address := if address > hi then lo else address
    if address + 1 ≤ rom.size then
      let key := rom.data address
      if key = 0 then getNextXorKey rom lo hi fuel address else some (key, address)
    else none

/-- The block-decode loop of `Patcher._writeDataBlocks`: returns the decoded
bytes and the final `xorAddress`. -/
def decodeBlock (rom : Buffer) (lo hi fuel : Nat) :
    Nat → List Nat → Option (List Nat × Nat)
  | address, [] => some ([], address)
  | address, s :: rest =>
    if s = 0 then
      (decodeBlock rom lo hi fuel address rest).map fun p => (0 :: p.1, p.2)
    else
      match getNextXorKey rom lo hi fuel address with
      | none => none
      | some (key, address') =>
        (decodeBlock rom lo hi fuel address' rest).map fun p =>
          ((s ^^^ key) % 256 :: p.1, p.2)

/-- The ROM bytes of scenario S5: `0x22` at 0x100, `0x11` at 0x101, `0x00`
at 0x102. -/
def s5Buffer : Buffer where
  size := 0x104
  data := fun j => if j = 0x100 then 0x22 else if j = 0x101 then 0x11 else 0

/-- C6: the XOR keystream cycles inside `[lo, hi]` — each request increments
the address, wraps to `lo` past `hi`, and reads ROM bytes until a non-zero
one, so it never yields zero and always returns the ROM byte at the final
address; block decoding emits a zero source byte as zero without consuming
a key, and any other source byte XORed with the next key; the S5
configuration decodes `[0x05, 0x00, 0x06]` to `[0x14, 0x00, 0x24]` with
keys `0x11, 0x22` (skipping the zero at 0x102, wrapping to 0x100). -/
theorem xorKeystream_spec :
    (∀ rom lo hi fuel a key a',
      getNextXorKey rom lo hi fuel a = some (key, a') →
      key ≠ 0 ∧ key = rom.data a' ∧
        (lo ≤ hi → lo ≤ a + 1 → a + 1 ≤ hi + 1 → lo ≤ a' ∧ a' ≤ hi)) ∧
    (∀ rom lo hi fuel address rest,
      decodeBlock rom lo hi fuel address (0 :: rest) =
        (decodeBlock rom lo hi fuel address rest).map fun p => (0 :: p.1, p.2)) ∧
    (getNextXorKey s5Buffer 0x100 0x102 4 0x100 = some (0x11, 0x101) ∧
     getNextXorKey s5Buffer 0x100 0x102 4 0x101 = some (0x22, 0x100)) ∧
    decodeBlock s5Buffer 0x100 0x102 4 0x100 [0x05, 0x00, 0x06] =
      some ([0x14, 0x00, 0x24], 0x100) := by
  refine ⟨?_, ?_, by decide, by decide⟩
  · intro rom lo hi fuel
    induction fuel with
    | zero => intro a key a' h; exact Option.noConfusion h
    | succ n ih =>
      intro a key a' h
      unfold getNextXorKey at h
      dsimp only at h
      generalize haddr : (if a + 1 > hi then lo else a + 1) = addr at h
      have hcase : (a + 1 > hi ∧ addr = lo) ∨ (a + 1 ≤ hi ∧ addr = a + 1) := by
        split at haddr
        · exact Or.inl ⟨by omega, haddr.symm⟩
        · exact Or.inr ⟨by omega, haddr.symm⟩
      split at h
      · split at h
        · obtain ⟨h1, h2, h3⟩ := ih addr key a' h
          refine ⟨h1, h2, fun hlohi hlo ha => h3 hlohi (by omega) (by omega)⟩
        · rename_i hk
          injection h with h'
          have h1 : key = rom.data addr := (Prod.mk.injEq .. ▸ h').1.symm
          have h2 : a' = addr := (Prod.mk.injEq .. ▸ h').2.symm
          refine ⟨by rw [h1]; exact hk, by rw [h1, h2], fun hlohi hlo ha => by omega⟩
      · exact Option.noConfusion h
  · intro rom lo hi fuel address rest
    rfl

/-! ## The Yaz0 decompressor (src/decompressor.ts `_decompress`)

```
private static _decompress(src: Uint8Array, dst: Uint8Array, size: number) {
    let srcPos = 0, dstPos = 0, cb = 0, bitCount = 0;
    while (dstPos < size) {
        if (bitCount === 0) { cb = src[srcPos++]; bitCount = 8; }
        if (cb & 0x80) { dst[dstPos++] = src[srcPos++]; }
        else {
            let b1 = src[srcPos++]; let b2 = src[srcPos++];
            const distance = ((b1 & 0xF) << 8) | b2;
            let copyPos = dstPos - (distance + 1);
            let length = b1 >>> 4;
            if (length === 0) length = src[srcPos++] + 0x12; else length += 2;
            for (let i = 0; i < length; i++) dst[dstPos++] = dst[copyPos++];
        }
        cb = cb << 1;
        bitCount--;
    }
}
```

There is no bounds check anywhere: reads past the end of `src` give
`undefined` (after which the JS run never again satisfies a numeric
comparison and never terminates normally — modelled as `none`), and `dst`
writes past `size` proceed into whatever follows the destination region.
`copyPos` can go negative, where `dst[copyPos]` is `undefined` and the
stored coercion yields 0.  One fuel unit per `while` entry. -/

/-- The decompressor's loop state. -/
structure DecState where
  srcPos : Nat
  dstPos : Nat
  cb : Nat
  bitCount : Nat
  dst : Nat → Nat

/-- The back-reference copy `for (let i = 0; i < length; i++)
dst[dstPos++] = dst[copyPos++]` — byte-by-byte, self-referential. -/
def copyRun (dst : Nat → Nat) (dstPos : Nat) (copyPos : Int) : Nat → ((Nat → Nat) × Nat)
  | 0 => (dst, dstPos)
  | n+1 =>
    let v := if copyPos < 0 then 0 else dst copyPos.toNat
    copyRun (updF dst dstPos (v % 256)) (dstPos + 1) (copyPos + 1) n

/-- `Decompressor._decompress`: `src i` is the source byte at index `i`
(`none` past the end of the view), `size` the uncompressed size; the
result is the final state, or `none` when a source over-read (or fuel
exhaustion) prevents normal termination. -/
def decLoop (src : Nat → Option Nat) (size : Nat) : Nat → DecState → Option DecState
  | 0, st => if st.dstPos < size then none else some st
  | fuel+1, st =>
    if st.dstPos < size then
      match (if st.bitCount = 0 then (src st.srcPos).map fun c => (c, 8, st.srcPos + 1)
             else some (st.cb, st.bitCount, st.srcPos) : Option (Nat × Nat × Nat)) with
      | none => none
      | some (cb, bitCount, sp) =>
        if cb &&& 0x80 ≠ 0 then
          match src sp with
          | none => none
          | some v =>
            decLoop src size fuel
              ⟨sp + 1, st.dstPos + 1, cb <<< 1, bitCount - 1, updF st.dst st.dstPos (v % 256)⟩
        else
          match src sp, src (sp + 1) with
          | some b1, some b2 =>
            let distance := ((b1 &&& 0xF) <<< 8) ||| b2
            let copyPos : Int := (st.dstPos : Int) - ((distance : Int) + 1)
            match (if b1 >>> 4 = 0 then (src (sp + 2)).map fun b3 => (b3 + 0x12, sp + 3)
                   else some (b1 >>> 4 + 2, sp + 2) : Option (Nat × Nat)) with
            | none => none
            | some (length, sp') =>
              let r := copyRun st.dst st.dstPos copyPos length
              decLoop src size fuel ⟨sp', r.2, cb <<< 1, bitCount - 1, r.1⟩
          | _, _ => none
    else some st

/-- The initial decompressor state. -/
def decInit : DecState := ⟨0, 0, 0, 0, fun _ => 0⟩

/-- The copy loop advances the destination position by its length. -/
theorem copyRun_snd (n : Nat) : ∀ dst dstPos copyPos,
    (copyRun dst dstPos copyPos n).2 = dstPos + n := by
  induction n with
  | zero => intro dst dstPos copyPos; rfl
  | succ m ih =>
    intro dst dstPos copyPos
    unfold copyRun
    rw [ih]
    omega

/-- Source bytes for the C5 counterexample: one literal `0x41` then the
back-reference `(distance 0, length 3)` taking the run past the two-byte
destination. -/
def c5Src : Nat → Option Nat := fun i => [0x80, 0x41, 0x10, 0x00][i]?

/-- C5 counterexample: with destination size 2, the stream
`80 41 10 00` (a literal and a distance-0 length-3 back-reference)
*completes* with `dstPos = 4`, having written the two bytes past the end
of the destination region — it does not fail with any yaz0-malformed
error (no such check exists in `_decompress`). -/
theorem decompress_overrun_counterexample :
    ((decLoop c5Src 2 2 decInit).map
        fun st => (st.dstPos, st.dst 0, st.dst 1, st.dst 2, st.dst 3)) =
      some (4, 0x41, 0x41, 0x41, 0x41) := by
  decide

/-- C5 amended: the decompressor stops exactly when the destination
position reaches *or exceeds* the uncompressed size — a state already at
or past `size` returns at once, and any normally-terminating run ends with
`size ≤ dstPos ≤ size + 0x110` (a final back-reference may overshoot the
destination region by up to 0x110 bytes, silently writing past it); there
is no yaz0-malformed error: source over-reads leave the loop without
normal termination instead of raising anything. -/
theorem decompress_amended :
    (∀ src size fuel st, size ≤ st.dstPos → decLoop src size fuel st = some st) ∧
    (∀ src size fuel st st', decLoop src size fuel st = some st' →
      size ≤ st'.dstPos ∧ st.dstPos ≤ st'.dstPos) ∧
    (∀ src size fuel st st', (∀ i v, src i = some v → v < 256) →
      st.dstPos ≤ size → decLoop src size fuel st = some st' →
      st'.dstPos ≤ size + 0x110) := by
  have hstop : ∀ src size fuel st, size ≤ st.dstPos →
      decLoop src size fuel st = some st := by
    intro src size fuel st h
    cases fuel <;> · unfold decLoop; rw [if_neg (by omega)]
  refine ⟨hstop, ?_, ?_⟩
  · intro src size fuel
    induction fuel with
    | zero =>
      intro st st' h
      unfold decLoop at h
      split at h
      · exact Option.noConfusion h
      · injection h with h; subst h; omega
    | succ n ih =>
      intro st st' h
      unfold decLoop at h
      split at h
      · rcases hread : (if st.bitCount = 0 then (src st.srcPos).map fun c => (c, 8, st.srcPos + 1)
            else some (st.cb, st.bitCount, st.srcPos) : Option (Nat × Nat × Nat)) with _ | ⟨cb, bitCount, sp⟩ <;>
          simp only [hread] at h
        · exact Option.noConfusion h
        · split at h
          · rcases hv : src sp with _ | v <;> simp only [hv] at h
            · exact Option.noConfusion h
            · have h2 := ih _ _ h
              dsimp only at h2
              exact ⟨h2.1, by omega⟩
          · rcases hb1 : src sp with _ | b1 <;> simp only [hb1] at h
            · exact Option.noConfusion h
            · rcases hb2 : src (sp + 1) with _ | b2 <;> simp only [hb2] at h
              · exact Option.noConfusion h
              · rcases hlen : (if b1 >>> 4 = 0 then (src (sp + 2)).map fun b3 => (b3 + 0x12, sp + 3)
                    else some (b1 >>> 4 + 2, sp + 2) : Option (Nat × Nat)) with _ | ⟨length, sp'⟩ <;>
                  simp only [hlen] at h
                · exact Option.noConfusion h
                · have := ih _ _ h
                  simp only [copyRun_snd] at this
                  exact ⟨this.1, by omega⟩
      · injection h with h; subst h; omega
  · intro src size fuel
    induction fuel with
    | zero =>
      intro st st' hbytes hle h
      unfold decLoop at h
      split at h
      · exact Option.noConfusion h
      · injection h with h; subst h; omega
    | succ n ih =>
      intro st st' hbytes hle h
      unfold decLoop at h
      split at h
      · rename_i hlt
        rcases hread : (if st.bitCount = 0 then (src st.srcPos).map fun c => (c, 8, st.srcPos + 1)
            else some (st.cb, st.bitCount, st.srcPos) : Option (Nat × Nat × Nat)) with _ | ⟨cb, bitCount, sp⟩ <;>
          simp only [hread] at h
        · exact Option.noConfusion h
        · split at h
          · rcases hv : src sp with _ | v <;> simp only [hv] at h
            · exact Option.noConfusion h
            · exact ih _ _ hbytes (show st.dstPos + 1 ≤ size by omega) h
          · rcases hb1 : src sp with _ | b1 <;> simp only [hb1] at h
            · exact Option.noConfusion h
            · rcases hb2 : src (sp + 1) with _ | b2 <;> simp only [hb2] at h
              · exact Option.noConfusion h
              · rcases hlen : (if b1 >>> 4 = 0 then (src (sp + 2)).map fun b3 => (b3 + 0x12, sp + 3)
                    else some (b1 >>> 4 + 2, sp + 2) : Option (Nat × Nat)) with _ | ⟨length, sp'⟩ <;>
                  simp only [hlen] at h
                · exact Option.noConfusion h
                · -- the emitted length is at most 0x111
                  have hlen_le : length ≤ 0x111 := by
                    split at hlen
                    · rcases hb3 : src (sp + 2) with _ | b3 <;> rw [hb3] at hlen
                      · exact Option.noConfusion hlen
                      · have hb3lt := hbytes _ _ hb3
                        injection hlen with hlen
                        have : length = b3 + 0x12 := (Prod.mk.injEq .. ▸ hlen).1.symm
                        omega
                    · injection hlen with hlen
                      have hlb : length = b1 >>> 4 + 2 := (Prod.mk.injEq .. ▸ hlen).1.symm
                      have : b1 < 256 := hbytes _ _ hb1
                      have : b1 >>> 4 < 16 := by
                        rw [Nat.shiftRight_eq_div_pow]; omega
                      omega
                  rcases Nat.lt_or_ge (st.dstPos + length) size with hcont | hdone
                  · exact ih _ _ hbytes (by simp [copyRun_snd]; omega) h
                  · rw [hstop _ _ _ _ (by simp [copyRun_snd]; omega)] at h
                    injection h with h; subst h
                    simp only [copyRun_snd]
                    omega
      · injection h with h; subst h; omega

/-! ## The Yaz0 compressor (src/yaz0.ts `Yaz0Compressor`)

The compressor encodes `src` into a transient buffer of
`srcSize + 0x250` bytes (16-byte header + encoding stream view `dst`),
with a lazy-match LZ77 search (`_rabinKarp` — a rolling 24-bit hash filter
over the 0x1000-byte window — and `_findBest`, which may defer to a
longer match found at the next position).  `dst` stores drop silently when
`dstPos` runs past the view (typed-array OOB store), and the final
`new Uint8Array(dstBuffer, 0, outSize)` throws a RangeError (`none` here)
when `outSize = (dstPos + 31) & -16` exceeds the transient buffer. -/

/-- `parse32(src, offset)`: the big-endian 32-bit pattern of four source
bytes.  In JS the `|`-combination is a *signed* 32-bit value, but its only
use is `parse32(...) >>> 8`, which reads the unsigned pattern back, so the
embedding keeps the unsigned pattern; bytes past the end of `src` read as
`undefined` and coerce to 0 in the shifts (`getD ... 0`). -/
def parse32 (src : List Nat) (offset : Nat) : Nat :=
  (src.getD offset 0 <<< 24) ||| (src.getD (offset+1) 0 <<< 16) |||
    (src.getD (offset+2) 0 <<< 8) ||| src.getD (offset+3) 0

/-- The inner comparison loop of `_rabinKarp`:
`for (currentSize = 3; currentSize < smp; currentSize++)` stopping at the
first mismatch (`!==` on two `Uint8Array` reads, `undefined` included —
hence `Option` equality).  One fuel unit per entry; called with `smp`
units, which covers `cs` from 3 to `smp`. -/
def cmpLen (src : List Nat) (i pos smp : Nat) : Nat → Nat → Nat
  | 0, cs => cs
  | steps+1, cs =>
    if cs < smp then
      if src[i + cs]? = src[pos + cs]? then cmpLen src i pos smp steps (cs + 1) else cs
    else cs

/-- The window loop of `_rabinKarp` over `i` from `startPosition` to
`srcPos - 1`, carrying the rolling hash `ch` and the best `(size, pos)`;
the `break` once a full 0x111 match is recorded returns early.  Called
with fuel `srcPos - startPosition`, exactly the iterations the bound
allows. -/
def rkLoop (src : List Nat) (pos smp hash : Nat) :
    Nat → Nat → Nat → Nat → Nat → Nat × Nat
  | 0, _, _, bs, bp => (bs, bp)
  | steps+1, i, ch, bs, bp =>
    if i < pos then
      let roll := ((ch <<< 8) ||| src.getD (i+3) 0) &&& 0xFFFFFF
      if ch = hash then
        let cs := cmpLen src i pos smp smp 3
        if cs > bs then
          if cs = 0x111 then (cs, i)
          else rkLoop src pos smp hash steps (i+1) roll cs i
        else rkLoop src pos smp hash steps (i+1) roll bs bp
      else rkLoop src pos smp hash steps (i+1) roll bs bp
    else (bs, bp)

/-- `Yaz0Compressor._rabinKarp(srcPos)`: returns the best match size and —
unless the `smp < 3` early return is taken, which skips the
`_match`/`_matchPosition` assignment — the best position (`some`). -/
def rabinKarp (src : List Nat) (srcPos : Nat) : Nat × Option Nat :=
  let smp0 := src.length - srcPos
  if smp0 < 3 then (0, none)
  else
    let smp := if smp0 > 0x111 then 0x111 else smp0
    let startPosition := srcPos - 0x1000
    let hash := parse32 src srcPos >>> 8
    let ch := parse32 src startPosition >>> 8
    let r := rkLoop src srcPos smp hash (srcPos - startPosition) startPosition ch 0 0
    (r.1, some r.2)

/-- The compressor's lazy-match state: `_srcPos`, `_matchPosition`,
`_match` (`mtch`: `match` is reserved in Lean), `_size`, `_flag`. -/
structure LazyState where
  srcPos : Nat
  matchPosition : Nat
  mtch : Nat
  size : Nat
  flag : Nat
  deriving DecidableEq, Repr

/-- `Yaz0Compressor._findBest(srcPos)`: consume a deferred match if one is
flagged; otherwise search at `srcPos`, and when a match of length ≥ 3 is
found, look ahead at `srcPos + 1` — if that match is better by ≥ 2, emit a
single literal now (`return 1`) and stash the look-ahead for the next
call. -/
def findBest (src : List Nat) (ls : LazyState) : Nat × LazyState :=
  if ls.flag = 1 then (ls.size, { ls with flag := 0 })
  else
    let ls1 := { ls with flag := 0 }
    let r1 := rabinKarp src ls1.srcPos
    let ls2 := match r1.2 with
      | some p => { ls1 with matchPosition := p }
      | none => ls1
    if r1.1 ≥ 3 then
      let r2 := rabinKarp src (ls2.srcPos + 1)
      let ls3 := { ls2 with size := r2.1 }
      let ls4 := match r2.2 with
        | some p => { ls3 with mtch := p }
        | none => ls3
      if ls4.size ≥ r1.1 + 2 then (1, { ls4 with flag := 1, matchPosition := ls4.mtch })
      else (r1.1, ls4)
    else (r1.1, ls2)

/-- The full encoder state: the lazy-match state plus the stream cursor
(`dstPos`), the pending code-byte slot (`cbPos`), the group bit mask and
code byte, and the `dst` view contents. -/
structure EncState extends LazyState where
  dstPos : Nat
  cbPos : Nat
  bitmask : Nat
  cb : Nat
  dst : Nat → Nat

/-- A `dst[i] = v` store into the encoder's transient view: silently
dropped past the view length (typed-array OOB store). -/
def writeDst (viewLen : Nat) (dst : Nat → Nat) (i v : Nat) : Nat → Nat :=
  if i < viewLen then updF dst i (v % 256) else dst

/-- One `while` iteration's token emission and group-flush, then the loop
continues; fuel = one unit per iteration (`src.length` units suffice:
every iteration advances `srcPos` by at least one). -/
def encLoop (src : List Nat) (viewLen : Nat) : Nat → EncState → EncState
  | 0, st => st
  | fuel+1, st =>
    if st.srcPos < src.length then
      let r := findBest src st.toLazyState
      let len := r.1
      let ls := r.2
      let st1 :=
        if len < 3 then
          { st with toLazyState := { ls with srcPos := ls.srcPos + 1 },
                    dst := writeDst viewLen st.dst st.dstPos (src.getD ls.srcPos 0),
                    dstPos := st.dstPos + 1,
                    cb := st.cb ||| st.bitmask }
        else if len > 0x11 then
          let dist := ls.srcPos - ls.matchPosition - 1
          let len' := if len > 0x111 then 0x111 else len
          let d1 := writeDst viewLen st.dst st.dstPos (dist >>> 8)
          let d2 := writeDst viewLen d1 (st.dstPos + 1) (dist &&& 0xFF)
          let d3 := writeDst viewLen d2 (st.dstPos + 2) ((len' - 0x12) &&& 0xFF)
          { st with toLazyState := { ls with srcPos := ls.srcPos + len' },
                    dst := d3, dstPos := st.dstPos + 3 }
        else
          let dist := ls.srcPos - ls.matchPosition - 1
          let d1 := writeDst viewLen st.dst st.dstPos (((len - 2) <<< 4) ||| (dist >>> 8))
          let d2 := writeDst viewLen d1 (st.dstPos + 1) (dist &&& 0xFF)
          { st with toLazyState := { ls with srcPos := ls.srcPos + len },
                    dst := d2, dstPos := st.dstPos + 2 }
      let st2 :=
        if st1.bitmask >>> 1 = 0 then
          { st1 with dst := writeDst viewLen st1.dst st1.cbPos st1.cb,
                     cbPos := st1.dstPos,
                     dstPos := if st1.srcPos < src.length then st1.dstPos + 1 else st1.dstPos,
                     cb := 0, bitmask := 0x80 }
        else { st1 with bitmask := st1.bitmask >>> 1 }
      encLoop src viewLen fuel st2
    else st

/-- The encoder's initial state (`cbPos = 0`, `dstPos = 1`,
`bitmask = 0x80`). -/
def encInit : EncState :=
  { srcPos := 0, matchPosition := 0, mtch := 0, size := 0, flag := 0,
    dstPos := 1, cbPos := 0, bitmask := 0x80, cb := 0, dst := fun _ => 0 }

/-- The loop followed by the final `if (bitmask !== 0) dst[cbPos] = cb`. -/
def encRun (src : List Nat) : EncState :=
  let viewLen := src.length + 0x250 - 16
  let fin := encLoop src viewLen src.length encInit
  if fin.bitmask ≠ 0 then { fin with dst := writeDst viewLen fin.dst fin.cbPos fin.cb }
  else fin

/-- `Yaz0Compressor._encode` end-to-end: header (`"Yaz0"`, big-endian
size, 8 zero bytes) plus the encoded stream, delivered as the first
`outSize = (dstPos + 31) & -16` bytes of the transient buffer; `none` is
the RangeError thrown by `new Uint8Array(dstBuffer, 0, outSize)` when
`outSize` exceeds the buffer's `srcSize + 0x250` bytes. -/
def yaz0Encode (src : List Nat) : Option (List Nat) :=
  let fin := encRun src
  let outSize := (fin.dstPos + 31) / 16 * 16
  if outSize ≤ src.length + 0x250 then
    some (List.ofFn fun i : Fin outSize =>
      if (i : Nat) < 4 then [0x59, 0x61, 0x7A, 0x30].getD i 0
      else if (i : Nat) < 8 then src.length % 2^32 / 2^(8 * (7 - (i : Nat))) % 256
      else if (i : Nat) < 16 then 0
      else fin.dst ((i : Nat) - 16))
  else none

/-- Sanity check: the compressor turns the empty slice into the bare
32-byte frame (header, one zero code byte, padding). -/
theorem yaz0Encode_nil_length : (yaz0Encode []).map List.length = some 32 := by
  decide

/-! ## The deflater loop (workers/compression.ts `CompressionWorker.run`,
duplicated as `Compressor.deflate` in src/compressor.ts)

Per-record operations are `Uint16Array` values COPY = 0, COMPRESS = 1,
NULL = 2; `new Uint16Array(dmaCount).fill(COMPRESS, 3)` defaults indices
≥ 3 to COMPRESS, then `_checkExclusions` applies the exclusion list. -/

/-- `new Uint16Array(dmaCount).fill(Operation.COMPRESS, 3)`. -/
def mkOpsBase (dmaCount : Nat) : Nat → Nat :=
  fun i => if 3 ≤ i ∧ i < dmaCount then 1 else 0

/-- `CompressionWorker._checkExclusions`: entries beyond
`size = dmaCount - 1` in absolute value are skipped (with a console
warning); a negative entry `file` sets `ops[~file + 1] = NULL` (two's
complement: index `-file`), a non-negative one sets `ops[file] = COPY`. -/
def applyExclusions (dmaCount : Nat) : (Nat → Nat) → List Int → (Nat → Nat)
  | ops, [] => ops
  | ops, file :: rest =>
    let size : Int := (dmaCount : Int) - 1
    if file > size ∨ file < -size then applyExclusions dmaCount ops rest
    else if file < 0 then applyExclusions dmaCount (updF ops (-file).toNat 2) rest
    else applyExclusions dmaCount (updF ops file.toNat 0) rest

/-- `new Uint8Array(this._buffer, record.virtualStart, length)` with
`length = virtualEnd - virtualStart`: the file's bytes, or the RangeError
for a negative length or a view past the end of the buffer. -/
def srcView (b : Buffer) (vStart vEnd : Nat) : Except JsErr (List Nat) :=
  if vStart ≤ vEnd ∧ vEnd ≤ b.size then
    .ok (List.ofFn fun k : Fin (vEnd - vStart) => b.data (vStart + k))
  else .error .boundsError

/-- `_writeDmaRecord(out, index, record)`: four big-endian u32 stores at
`dmaOffset + 16 * index`. -/
def writeDmaRecordOut (out : Buffer) (dmaOffset i : Nat) (r : DmaRecord) :
    Except JsErr Buffer :=
  (writeU32 out ((dmaOffset : Int) + 16 * i) r.virtualStart).bind fun o1 =>
  (writeU32 o1 ((dmaOffset : Int) + 16 * i + 4) r.virtualEnd).bind fun o2 =>
  (writeU32 o2 ((dmaOffset : Int) + 16 * i + 8) r.physicalStart).bind fun o3 =>
  writeU32 o3 ((dmaOffset : Int) + 16 * i + 12) r.physicalEnd

/-- The `switch (this._ops[i])` of the loop body: the chosen operation,
its payload bytes and their size (COMPRESS runs the Yaz0 encoder; its
RangeError propagates, as nothing catches it there). -/
def runOp (ops : Nat → Nat) (i : Nat) (src : List Nat) :
    Except JsErr (Nat × List Nat × Nat) :=
  match ops i with
  | 0 => .ok (0, src, src.length)
  | 1 => (match yaz0Encode src with
          | some data => .ok (1, data, data.length)
          | none => .error .boundsError)
  | 2 => .ok (2, ([] : List Nat), 0)
  | _ => .error .invalidOperation

/-- The per-record loop of `CompressionWorker.run`, from index `i` with
output buffer `out` and physical cursor `prev`.  A record is read, its
source view taken, the operation run (COMPRESS invokes the Yaz0 encoder;
its RangeError propagates, as nothing catches it), and — only when
`virtualStart != virtualEnd` — the record is re-pointed and the payload
and record are written under the `try`/`catch` whose `break` ends the loop
with the output as written so far; `prev += res.size` runs on every
iteration, empty slots included.  One fuel unit per iteration. -/
def deflateLoop (rom : Rom) (ops : Nat → Nat) : Nat → Nat → Buffer → Nat →
    Except JsErr Buffer
  | 0, _, out, _ => .ok out
  | fuel+1, i, out, prev =>
    if 16 * (i : Int) < rom.dmaSize then
      (rom.readDmaRecord i).bind fun record =>
      (srcView rom.buf record.virtualStart record.virtualEnd).bind fun src =>
      (runOp ops i src).bind fun res =>
        let opn := res.1
        let data := res.2.1
        let size := res.2.2
        if record.virtualStart ≠ record.virtualEnd then
          let r1 := { record with physicalStart := prev }
          let r2 :=
            if opn = 1 then { r1 with physicalEnd := r1.physicalStart + size }
            else if opn = 2 then { r1 with physicalStart := 0xFFFFFFFF, physicalEnd := 0xFFFFFFFF }
            else r1
          match (if r2.physicalStart ≠ 0xFFFFFFFF then
                   writeBytes out (fun k => data.getD k 0) data.length r2.physicalStart
                 else .ok out).bind fun out1 =>
                writeDmaRecordOut out1 rom.dmaOffset i r2 with
          | .ok out2 => deflateLoop rom ops fuel (i+1) out2 (prev + size)
          | .error _ => .ok out
        else deflateLoop rom ops fuel (i+1) out (prev + size)
    else .ok out

/-- C8's concrete input ROM: valid signature, DMA table at 0x1060 with
`dmaCount = 5`; record 3 is the empty slot `(0x10B0, 0x10B0, 0, 0)` and
record 4 is `(0x10B0, 0x10B4, 0, 0)` whose payload is the four bytes
`01 02 03 04` at 0x10B0. -/
def c8Buffer : Buffer where
  size := 0x10C0
  data := fun j =>
    if j = 0x10 then 0xEC else if j = 0x11 then 0x70 else
    if j = 0x12 then 0x11 else if j = 0x13 then 0xB7 else
    if j = 0x14 then 0x76 else if j = 0x15 then 0x16 else
    if j = 0x16 then 0xD7 else if j = 0x17 then 0x2B else
    if j = 0x1066 then 0x10 else if j = 0x1067 then 0x60 else
    if j = 0x1082 then 0x10 else if j = 0x1083 then 0x60 else
    if j = 0x1086 then 0x10 else if j = 0x1087 then 0xB0 else
    if j = 0x1092 then 0x10 else if j = 0x1093 then 0xB0 else
    if j = 0x1096 then 0x10 else if j = 0x1097 then 0xB0 else
    if j = 0x10A2 then 0x10 else if j = 0x10A3 then 0xB0 else
    if j = 0x10A6 then 0x10 else if j = 0x10A7 then 0xB4 else
    if j = 0x10B0 then 1 else if j = 0x10B1 then 2 else
    if j = 0x10B2 then 3 else if j = 0x10B3 then 4 else
    0

/-- The operation table of the C8 run: defaults plus `exclusions = [4]`
(record 4 is copied, the empty record 3 keeps the COMPRESS default). -/
def c8Ops : Nat → Nat := applyExclusions 5 (mkOpsBase 5) [4]

/-- The 32 MiB output buffer holding the copied prefix
`[0, dmaOffset + dmaSize) = [0, 0x10B0)` of the input. -/
def c8Out0 : Buffer where
  size := 0x02000000
  data := fun j => if j < 0x10B0 then c8Buffer.data j else 0

/-- C8 counterexample: running the deflater loop from record 3 with
`prev = dmaOffset + dmaSize = 0x10B0`, the *empty* record 3 (COMPRESS by
default) advances `prev` by the 32 bytes of the Yaz0 frame of the empty
slice — `prev += res.size` runs outside the skip test — so the next
non-empty record 4 is assigned `physicalStart = 0x10D0`, not the 0x10B0
the claim predicts. -/
theorem deflate_empty_slot_counterexample :
    ((Rom.make c8Buffer).bind fun rom =>
      (deflateLoop rom c8Ops 3 3 c8Out0 0x10B0).bind fun out =>
        readU32 out 0x10A8) = .ok 0x10D0 ∧
    (0x10D0 : Nat) ≠ 0x10B0 := by
  constructor
  · decide
  · decide

/-- C8 amended: an empty DMA slot (`virtualStart = virtualEnd`) writes no
payload bytes and leaves its output DMA record bytes as copied from the
input, but does *not* leave the physical cursor unchanged: the operation
still runs on the empty slice and `prev` advances by its result size — 32
bytes (the Yaz0 frame of the empty input) under the default COMPRESS, 0
under COPY or NULL — shifting the `physicalStart` assigned to the next
non-empty record accordingly. -/
theorem deflate_empty_slot_amended :
    (∀ rom (ops : Nat → Nat) (fuel i : Nat) out (prev : Nat) r,
      16 * (i : Int) < rom.dmaSize →
      rom.readDmaRecord (i : Int) = .ok r →
      r.virtualStart = r.virtualEnd →
      r.virtualEnd ≤ rom.buf.size →
      ops i ≤ 2 →
      deflateLoop rom ops (fuel+1) i out prev =
        deflateLoop rom ops fuel (i+1) out (prev + if ops i = 1 then 32 else 0)) ∧
    (yaz0Encode []).map List.length = some 32 := by
  constructor
  · intro rom ops fuel i out prev r hbound hrec hempty hsz hop
    have hview : srcView rom.buf r.virtualStart r.virtualEnd = .ok [] := by
      unfold srcView
      rw [if_pos ⟨by omega, hsz⟩]
      congr 1
      rw [hempty]
      simp
    have hne : ¬ r.virtualStart ≠ r.virtualEnd := by simpa using hempty
    conv_lhs => unfold deflateLoop
    rw [if_pos hbound, hrec]
    simp only [Except.bind, hview, if_neg hne]
    interval_cases hops : ops i
    · simp [runOp, hops, Except.bind]
    · have henc : yaz0Encode [] = some ([0x59, 0x61, 0x7A, 0x30] ++ List.replicate 28 0) := by
        decide
      simp [runOp, hops, henc, Except.bind]
    · simp [runOp, hops, Except.bind]
  · decide

/-! ## C2 — N64 CRC recalculation (src/crc.ts)

`N64Crc._calculate` iterates over the `0x100000`-byte region at offset
`0x1000`, maintaining six accumulators `t1..t6`.  Every arithmetic step of
the loop is wrapped through `u32` (`(value & 0xFFFFFFFF) >>> 0`, i.e.
`% 2^32` for the nonnegative values arising here), so the JavaScript
doubles are exact inside the loop.  The finalization is NOT wrapped: for
CIC 6103 it returns `(t6 ^ t4) + t3` (a sum below `2^33`, still an exact
double), but for CIC 6106 it returns `(t6 * t4) + t3` — a double product
reaching `2^64`, which IEEE-754 binary64 arithmetic rounds to 53
significant bits.  `jsRound` models that rounding. -/

/-- Bit length computed with explicit fuel: `bitLenGo f m` is the number of
binary digits of `m` whenever `m < 2^f` (see `bitLenGo_correct`). -/
def bitLenGo : Nat → Nat → Nat
  | 0, _ => 0
  | f+1, m => if m = 0 then 0 else bitLenGo f (m / 2) + 1

/-- Bit length, exact for every `m < 2^70`; every JavaScript number arising
in the embedded `N64Crc` code is below `2^65`. -/
def bitLen (m : Nat) : Nat := bitLenGo 70 m

/-- `bitLenGo f m` is exact on `m < 2^f`: `2^(len-1) ≤ m < 2^len`. -/
theorem bitLenGo_correct : ∀ (f m : Nat), m < 2^f → 0 < m →
    2^(bitLenGo f m - 1) ≤ m ∧ m < 2^(bitLenGo f m) := by
  intro f
  induction f with
  | zero => intro m hf hm; simp at hf; omega
  | succ f ih =>
    intro m hf hm
    rw [bitLenGo, if_neg (by omega)]
    by_cases h1 : m / 2 = 0
    · have hm1 : m = 1 := by omega
      subst hm1
      have h12 : (1 : Nat) / 2 = 0 := rfl
      have hz : bitLenGo f 0 = 0 := by cases f <;> rfl
      rw [h12, hz]
      norm_num
    · have hpos : 0 < m / 2 := Nat.pos_of_ne_zero h1
      have hlt : m / 2 < 2^f := by
        rw [pow_succ] at hf; omega
      obtain ⟨hl, hr⟩ := ih (m / 2) hlt hpos
      have hb : bitLenGo f (m / 2) ≠ 0 := by
        intro hc; rw [hc, pow_zero] at hr; omega
      constructor
      · rw [Nat.add_sub_cancel]
        have hb' : bitLenGo f (m / 2) - 1 + 1 = bitLenGo f (m / 2) := by omega
        rw [← hb', pow_succ]
        omega
      · rw [pow_succ]
        omega

/-- IEEE-754 round-to-nearest, ties-to-even, of the natural number `n` to a
binary64 value (53-bit significand), as a natural number: the result a
JavaScript `+` or `*` delivers on exactly representable nonnegative integer
operands is `jsRound` of the exact result.  Exact for `n < 2^70`. -/
def jsRound (n : Nat) : Nat :=
  if n < 2^53 then n
  else
    let k := bitLen n - 53
    let q := n / 2^k
    let r := n % 2^k
    let half := 2^(k-1)
    if half < r ∨ (r = half ∧ q % 2 = 1) then (q + 1) * 2^k else q * 2^k

/-- JavaScript `a * b` on exactly representable nonnegative integers. -/
def jsMul (a b : Nat) : Nat := jsRound (a * b)

/-- JavaScript `a + b` on exactly representable nonnegative integers. -/
def jsAdd (a b : Nat) : Nat := jsRound (a + b)

/-- `u32(rol(a, b))` of src/crc.ts for `a < 2^32` and `0 ≤ b ≤ 31` (the
call site passes `b = d & 0x1F`): the unsigned 32-bit value of
`((a << b) | (a >>> (32 - b)))`.  JavaScript shift counts are taken mod 32,
so `b = 0` gives `a >>> 0 = a`. -/
def rol32 (a b : Nat) : Nat := ((a <<< b) % 2^32) ||| (a >>> ((32 - b) % 32))

/-- The six accumulators of `N64Crc._calculate`. -/
structure CrcState where
  t1 : Nat
  t2 : Nat
  t3 : Nat
  t4 : Nat
  t5 : Nat
  t6 : Nat
  deriving DecidableEq

/-- One iteration of the checksum loop of `N64Crc._calculate` at byte
offset `i`, reading big-endian words through `read`.  `u32` wrapping is
`% 2^32`; every intermediate value stays far below `2^53`, so the doubles
are exact here.  `t4` is incremented without wrapping (the seeds keep it
below `2^32` anyway); the 6105 branch reads the extra word at
`0x40 + 0x710 + (i & 0xFF)`. -/
def crcStep (bootCode : Nat) (read : Nat → Nat) (i : Nat) (s : CrcState) :
    CrcState :=
  let d := read i
  let t4 := if (s.t6 + d) % 2^32 < s.t6 then s.t4 + 1 else s.t4
  let t6 := (s.t6 + d) % 2^32
  let t3 := (s.t3 ^^^ d) % 2^32
  let r := rol32 d (d &&& 0x1F)
  let t5 := (s.t5 + r) % 2^32
  let t2 := if d < s.t2 then (s.t2 ^^^ r) % 2^32
            else (s.t2 ^^^ t6 ^^^ d) % 2^32
  let t1 := if bootCode = 6105 then
      (s.t1 + (read (0x40 + 0x710 + (i &&& 0xFF)) ^^^ d)) % 2^32
    else (s.t1 + (t5 ^^^ d)) % 2^32
  ⟨t1, t2, t3, t4, t5, t6⟩

/-- The checksum loop: `words` iterations starting at byte offset `i`,
stepping 4 bytes per word (`for (i = 0x1000; i < 0x101000; i += 4)` is
`0x40000` words from `0x1000`). -/
def crcLoop (bootCode : Nat) (read : Nat → Nat) :
    Nat → Nat → CrcState → CrcState
  | 0, _, s => s
  | words+1, i, s => crcLoop bootCode read words (i + 4) (crcStep bootCode read i s)

/-- `N64Crc._seed` (6101 and 6102 share the 6102 seed; `_cic` only ever
produces the five listed boot codes). -/
def n64CrcSeed (bootCode : Nat) : Nat :=
  if bootCode = 6103 then 0xA3886759
  else if bootCode = 6105 then 0xDF26F436
  else if bootCode = 6106 then 0x1FEA617A
  else 0xF8CA4DDC

/-- The pair `_calculate` returns after the loop, as JavaScript computes
it.  In the 6103 and default branches every operand is below `2^32` and the
sum below `2^33`, so the doubles are exact; the `^` results are kept as
nonnegative bit patterns, which agree with the JavaScript values modulo
`2^32` (all consumers shift through `>>>`, which reduces modulo `2^32`
first).  In the 6106 branch the products `t6 * t4` and `t5 * t2` reach
`2^64`, and the JavaScript multiplication and addition round
(`jsMul`/`jsAdd`). -/
def crcFinalize (bootCode : Nat) (s : CrcState) : Nat × Nat :=
  if bootCode = 6103 then ((s.t6 ^^^ s.t4) + s.t3, (s.t5 ^^^ s.t2) + s.t1)
  else if bootCode = 6106 then
    (jsAdd (jsMul s.t6 s.t4) s.t3, jsAdd (jsMul s.t5 s.t2) s.t1)
  else (s.t6 ^^^ s.t4 ^^^ s.t3, s.t5 ^^^ s.t2 ^^^ s.t1)

/-- The four bytes `recalculate` extracts from a crc value:
`(crc >>> (24 - 8 * i)) & 0xFF` for `i = 0..3`; JavaScript `>>>` reduces
its left operand modulo `2^32` first. -/
def crcBytes (c : Nat) : List Nat :=
  [((c % 2^32) >>> 24) &&& 0xFF, ((c % 2^32) >>> 16) &&& 0xFF,
   ((c % 2^32) >>> 8) &&& 0xFF, (c % 2^32) &&& 0xFF]

/-- One round of `_generateTable`'s inner loop. -/
def crc32Round (c : Nat) : Nat :=
  if c % 2 = 1 then (c >>> 1) ^^^ 0xEDB88320 else c >>> 1

/-- `N64Crc._table[i]`: the inner loop stores into `_table[i]` on every
round, so the surviving value is the eighth round applied to `i`. -/
def crc32Table (i : Nat) : Nat :=
  crc32Round (crc32Round (crc32Round (crc32Round
    (crc32Round (crc32Round (crc32Round (crc32Round i)))))))

/-- `N64Crc._crc32` over a byte list: `crc` starts at `~0` (bit pattern
`0xFFFFFFFF`), each byte indexes the table through the low 8 bits, and the
final `(~crc) >>> 0` is xor with `0xFFFFFFFF` (the accumulator pattern
stays below `2^32` throughout). -/
def crc32Go (crc : Nat) : List Nat → Nat
  | [] => crc ^^^ 0xFFFFFFFF
  | b :: rest => crc32Go ((crc >>> 8) ^^^ crc32Table ((crc ^^^ b) &&& 0xFF)) rest

/-- `N64Crc._crc32(data)`. -/
def crc32 (data : List Nat) : Nat := crc32Go 0xFFFFFFFF data

/-- `N64Crc._cic`: CRC-32 of the `0xFC0` boot-code bytes at offset `0x40`
(`new Uint8Array(buffer, 0x40, 0xFC0)` throws a RangeError when the buffer
is shorter than `0x1000`). -/
def n64Cic (b : Buffer) : Except JsErr Nat :=
  if b.size < 0x1000 then .error .boundsError
  else
    let c := crc32 ((List.range 0xFC0).map fun j => b.data (0x40 + j) % 256)
    if c = 0x6170A4A1 then .ok 6101
    else if c = 0x90BB6CB5 then .ok 6102
    else if c = 0x0B050EE0 then .ok 6103
    else if c = 0x98BC2C86 then .ok 6105
    else if c = 0xACC8580A then .ok 6106
    else .error .cicUnknown

/-- The big-endian word `readUint32(i)` reads from a buffer when the read
is in bounds (the `.ok` payload of `readU32`). -/
def bufReadU32 (b : Buffer) (i : Nat) : Nat :=
  (b.data i <<< 24) ||| (b.data (i + 1) <<< 16) |||
    (b.data (i + 2) <<< 8) ||| b.data (i + 3)

/-- `N64Crc._calculate`.  The loop (and the 6105 branch) only reads inside
`[0x1000, 0x101000)` and `[0x750, 0x854)`, so for a buffer of size at least
`0x101000` every `readUint32` succeeds; for a shorter buffer some read
throws mid-loop and the partial state is discarded, which the embedding
reports as the same `boundsError` up front. -/
def n64CrcCalculate (b : Buffer) : Except JsErr (Nat × Nat) :=
  match n64Cic b with
  | .error e => .error e
  | .ok bootCode =>
    if b.size < 0x101000 then .error .boundsError
    else
      let seed := n64CrcSeed bootCode
      .ok (crcFinalize bootCode
        (crcLoop bootCode (bufReadU32 b) 0x40000 0x1000
          ⟨seed, seed, seed, seed, seed, seed⟩))

/-- The stores `recalculate` performs: `this._data.set(crc1, 0x10)` then
`this._data.set(crc2, 0x14)`, each `crcX` the four bytes of `crcBytes`
(already below 256).  In-bounds for every buffer `_calculate` accepts. -/
def recalcWrite (b : Buffer) (crc : Nat × Nat) : Buffer :=
  let c1 := crcBytes crc.1
  let c2 := crcBytes crc.2
  let d1 := updF b.data 0x10 (c1.getD 0 0)
  let d2 := updF d1 0x11 (c1.getD 1 0)
  let d3 := updF d2 0x12 (c1.getD 2 0)
  let d4 := updF d3 0x13 (c1.getD 3 0)
  let d5 := updF d4 0x14 (c2.getD 0 0)
  let d6 := updF d5 0x15 (c2.getD 1 0)
  let d7 := updF d6 0x16 (c2.getD 2 0)
  let d8 := updF d7 0x17 (c2.getD 3 0)
  { b with data := d8 }

/-- `N64Crc.recalculate`. -/
def n64CrcRecalculate (b : Buffer) : Except JsErr Buffer :=
  match n64CrcCalculate b with
  | .error e => .error e
  | .ok crc => .ok (recalcWrite b crc)

/-- Modelled from the spec's words, not from the source: "CIC 6106:
`crc1 = t6 * t4 + t3`" with "All arithmetic is unsigned 32-bit with
explicit wraparound" — the exact unsigned 32-bit finalization. -/
def specCrc1_6106 (s : CrcState) : Nat := (s.t6 * s.t4 + s.t3) % 2^32

/-- Unfolding lemma for `specCrc1_6106` (stated over an abstract state so
the kernel never evaluates a concrete loop result while checking it). -/
theorem specCrc1_6106_eq (s : CrcState) :
    specCrc1_6106 s = (s.t6 * s.t4 + s.t3) % 2^32 := rfl

/-- A step on a zero word keeps `t3`, `t4` and `t6` (given the `< 2^32`
invariant `u32` maintains). -/
theorem crcStep_zero (bc : Nat) (read : Nat → Nat) (i : Nat) (s : CrcState)
    (hd : read i = 0) (h3 : s.t3 < 2^32) (h6 : s.t6 < 2^32) :
    (crcStep bc read i s).t3 = s.t3 ∧ (crcStep bc read i s).t4 = s.t4 ∧
    (crcStep bc read i s).t6 = s.t6 := by
  unfold crcStep
  rw [hd]
  dsimp only
  refine ⟨?_, ?_, ?_⟩
  · simp only [Nat.xor_zero]
    omega
  · rw [if_neg (by omega)]
  · omega

/-- Running the loop over a stretch of zero words keeps `t3`, `t4` and
`t6`. -/
theorem crcLoop_zeros (bc : Nat) (read : Nat → Nat) :
    ∀ (words i : Nat) (s : CrcState),
      (∀ k, k < words → read (i + 4 * k) = 0) → s.t3 < 2^32 → s.t6 < 2^32 →
      (crcLoop bc read words i s).t3 = s.t3 ∧
      (crcLoop bc read words i s).t4 = s.t4 ∧
      (crcLoop bc read words i s).t6 = s.t6 := by
  intro words
  induction words with
  | zero => intro i s _ _ _; exact ⟨rfl, rfl, rfl⟩
  | succ n ih =>
    intro i s h h3 h6
    have hd : read i = 0 := by
      have := h 0 (Nat.succ_pos n)
      simpa using this
    obtain ⟨e3, e4, e6⟩ := crcStep_zero bc read i s hd h3 h6
    have h' : ∀ k, k < n → read ((i + 4) + 4 * k) = 0 := by
      intro k hk
      have heq : (i + 4) + 4 * k = i + 4 * (k + 1) := by ring
      rw [heq]
      exact h (k + 1) (by omega)
    have hunf : crcLoop bc read (n + 1) i s
        = crcLoop bc read n (i + 4) (crcStep bc read i s) := rfl
    obtain ⟨f3, f4, f6⟩ := ih (i + 4) (crcStep bc read i s) h'
      (by rw [e3]; exact h3) (by rw [e6]; exact h6)
    rw [hunf]
    exact ⟨f3.trans e3, f4.trans e4, f6.trans e6⟩

/-- A checksum region holding the single big-endian word `0xE0159E85` at
offset `0x1000` and zeros elsewhere: the value `readUint32` returns at each
offset the loop visits. -/
def c2Read : Nat → Nat := fun i => if i = 0x1000 then 0xE0159E85 else 0

/-- The accumulators `_calculate` produces on that region under CIC 6106
(seed `0x1FEA617A`). -/
def c2State : CrcState :=
  crcLoop 6106 c2Read 0x40000 0x1000
    ⟨n64CrcSeed 6106, n64CrcSeed 6106, n64CrcSeed 6106,
     n64CrcSeed 6106, n64CrcSeed 6106, n64CrcSeed 6106⟩

set_option maxRecDepth 2000 in
/-- C2: the CIC 6106 finalization is NOT exact unsigned 32-bit arithmetic.
On a checksum region whose single nonzero word is `0xE0159E85` at `0x1000`
the loop yields `t3 = 0xFFFFFFFF`, `t4 = 0x1FEA617A`, `t6 = 0xFFFFFFFF`;
the spec's `crc1 = (t6 * t4 + t3) mod 2^32` is `0xE0159E85`, but the code
computes `(t6 * t4) + t3` in JavaScript doubles, whose 53-bit rounding
yields `0xE0159F00`: `recalculate` stores the bytes `E0 15 9F 00` at
offset 0x10, not the spec's `E0 15 9E 85`. -/
theorem crc6106_finalization_code_bug :
    c2State.t3 = 0xFFFFFFFF ∧ c2State.t4 = 0x1FEA617A ∧
    c2State.t6 = 0xFFFFFFFF ∧
    (crcFinalize 6106 c2State).1 % 2^32 = 0xE0159F00 ∧
    crcBytes (crcFinalize 6106 c2State).1 = [0xE0, 0x15, 0x9F, 0x00] ∧
    specCrc1_6106 c2State = 0xE0159E85 ∧
    crcBytes (specCrc1_6106 c2State) = [0xE0, 0x15, 0x9E, 0x85] ∧
    (crcFinalize 6106 c2State).1 % 2^32 ≠ specCrc1_6106 c2State := by
  have hzero : ∀ k, k < 0x3FFFF → c2Read (0x1004 + 4 * k) = 0 := by
    intro k hk
    have h : ¬ (0x1004 + 4 * k = 0x1000) := by omega
    simp only [c2Read, if_neg h]
  have hseed : n64CrcSeed 6106 = 0x1FEA617A := rfl
  have h40000 : (0x40000 : Nat) = 0x3FFFF + 1 := rfl
  have hunf : c2State = crcLoop 6106 c2Read 0x3FFFF 0x1004
      (crcStep 6106 c2Read 0x1000
        ⟨0x1FEA617A, 0x1FEA617A, 0x1FEA617A,
         0x1FEA617A, 0x1FEA617A, 0x1FEA617A⟩) := by
    show crcLoop 6106 c2Read 0x40000 0x1000
        ⟨n64CrcSeed 6106, n64CrcSeed 6106, n64CrcSeed 6106,
         n64CrcSeed 6106, n64CrcSeed 6106, n64CrcSeed 6106⟩ = _
    rw [hseed, h40000, crcLoop]
  obtain ⟨e3, e4, e6⟩ := crcLoop_zeros 6106 c2Read 0x3FFFF 0x1004
    (crcStep 6106 c2Read 0x1000
      ⟨0x1FEA617A, 0x1FEA617A, 0x1FEA617A,
       0x1FEA617A, 0x1FEA617A, 0x1FEA617A⟩)
    hzero (by decide) (by decide)
  have h3 : c2State.t3 = 0xFFFFFFFF := by rw [hunf, e3]; decide
  have h4 : c2State.t4 = 0x1FEA617A := by rw [hunf, e4]; decide
  have h6 : c2State.t6 = 0xFFFFFFFF := by rw [hunf, e6]; decide
  have hfin : (crcFinalize 6106 c2State).1
      = jsAdd (jsMul c2State.t6 c2State.t4) c2State.t3 := by
    simp [crcFinalize]
  have hspec : specCrc1_6106 c2State
      = (c2State.t6 * c2State.t4 + c2State.t3) % 2^32 := specCrc1_6106_eq c2State
  refine ⟨h3, h4, h6, ?_, ?_, ?_, ?_, ?_⟩
  · rw [hfin, h3, h4, h6]; decide
  · rw [hfin, h3, h4, h6]; decide
  · rw [hspec, h3, h4, h6]; decide
  · rw [hspec, h3, h4, h6]; decide
  · rw [hfin, hspec, h3, h4, h6]; decide

/-! ## C1 — Yaz0 encode/decode roundtrip

The 24-bit rolling hash of `_rabinKarp` is the big-endian pack of three
source bytes; for byte values below 256 hash equality is exactly 3-gram
equality, which drives both the counterexample (a source with pairwise
distinct 3-grams is emitted as literals only, overflowing the transient
buffer) and the match-validity argument of the roundtrip. -/

/-- The big-endian 24-bit pack of the three source bytes at `i` — the
value `parse32(src, i) >>> 8`, and the rolling hash the window loop
carries at position `i`. -/
def pack24 (src : List Nat) (i : Nat) : Nat :=
  (src.getD i 0 <<< 16) ||| (src.getD (i+1) 0 <<< 8) ||| src.getD (i+2) 0

/-- All positions of a byte list read below 256 (the default 0
included). -/
theorem getD_lt_256 (src : List Nat) (hb : ∀ x ∈ src, x < 256) (m : Nat) :
    src.getD m 0 < 256 := by
  rcases he : src[m]? with _ | v
  · rw [List.getD_eq_getElem?_getD, he]; norm_num
  · rw [List.getD_eq_getElem?_getD, he]
    exact hb v (List.getElem?_mem he)

/-- Numeric form of `pack24` for byte values below 256. -/
theorem pack24_eq (src : List Nat) (i : Nat) (hb : ∀ x ∈ src, x < 256) :
    pack24 src i = src.getD i 0 * 2^16 + src.getD (i+1) 0 * 2^8 +
      src.getD (i+2) 0 := by
  have ha := getD_lt_256 src hb i
  have hbb := getD_lt_256 src hb (i+1)
  have hc := getD_lt_256 src hb (i+2)
  unfold pack24
  rw [Nat.lor_assoc,
    shiftLeft_or_eq_add _ _ 8 (by omega),
    shiftLeft_or_eq_add _ _ 16 (by omega)]
  ring

/-- `parse32(src, i) >>> 8` is the 24-bit pack at `i`. -/
theorem parse32_shiftRight (src : List Nat) (i : Nat)
    (hb : ∀ x ∈ src, x < 256) :
    parse32 src i >>> 8 = pack24 src i := by
  have ha := getD_lt_256 src hb i
  have hbb := getD_lt_256 src hb (i+1)
  have hc := getD_lt_256 src hb (i+2)
  have hd := getD_lt_256 src hb (i+3)
  unfold parse32
  rw [Nat.lor_assoc, Nat.lor_assoc,
    shiftLeft_or_eq_add _ _ 8 (by omega),
    shiftLeft_or_eq_add _ _ 16 (by omega),
    shiftLeft_or_eq_add _ _ 24 (by omega),
    pack24_eq src i hb, Nat.shiftRight_eq_div_pow]
  omega

/-- The rolling-hash update carries `pack24` one position forward. -/
theorem roll_eq (src : List Nat) (i : Nat) (hb : ∀ x ∈ src, x < 256) :
    ((pack24 src i <<< 8) ||| src.getD (i+3) 0) &&& 0xFFFFFF
      = pack24 src (i+1) := by
  have ha := getD_lt_256 src hb i
  have hbb := getD_lt_256 src hb (i+1)
  have hc := getD_lt_256 src hb (i+2)
  have hd := getD_lt_256 src hb (i+3)
  rw [shiftLeft_or_eq_add _ _ 8 (by omega),
    (by norm_num : (0xFFFFFF : Nat) = 2^24 - 1),
    Nat.and_pow_two_sub_one_eq_mod,
    pack24_eq src i hb, pack24_eq src (i+1) hb]
  have h1 : i + 1 + 1 = i + 2 := by omega
  have h2 : i + 1 + 2 = i + 3 := by omega
  rw [h1, h2]
  omega

/-- When no window position shares the probe's hash, the window loop
returns its incoming best pair unchanged (in particular `(0, 0)`). -/
theorem rkLoop_const (src : List Nat) (pos smp hash : Nat)
    (hb : ∀ x ∈ src, x < 256)
    (hhash : ∀ i, i < pos → pack24 src i ≠ hash) :
    ∀ (steps i bs bp : Nat),
      rkLoop src pos smp hash steps i (pack24 src i) bs bp = (bs, bp) := by
  intro steps
  induction steps with
  | zero => intro i bs bp; rfl
  | succ n ih =>
    intro i bs bp
    rw [rkLoop]
    by_cases hi : i < pos
    · rw [if_pos hi]
      dsimp only
      rw [if_neg (hhash i hi), roll_eq src i hb]
      exact ih (i+1) bs bp
    · rw [if_neg hi]

/-- On a source whose 3-grams are pairwise distinct, `_rabinKarp` never
finds a match: the returned size is 0 at every position. -/
theorem rabinKarp_fst_zero (src : List Nat) (hb : ∀ x ∈ src, x < 256)
    (hdist : ∀ i p, i < p → p + 3 ≤ src.length →
      pack24 src i ≠ pack24 src p) :
    ∀ p, (rabinKarp src p).1 = 0 := by
  intro p
  unfold rabinKarp
  by_cases h3 : src.length - p < 3
  · rw [if_pos h3]
  · rw [if_neg h3]
    dsimp only
    rw [parse32_shiftRight src p hb, parse32_shiftRight src (p - 0x1000) hb,
      rkLoop_const src p _ _ hb (fun i hi => hdist i p hi (by omega)) _ _ 0 0]

/-- A byte pattern with pairwise distinct 3-grams: positions `3k` hold the
marker 255 (which no other position holds for indices below 4800), and the
two following positions hold the base-255 digits of `k`. -/
def badByte (m : Nat) : Nat :=
  if m % 3 = 0 then 255
  else if m % 3 = 1 then m / 3 % 255
  else m / 3 / 255

/-- The 4800-byte incompressible input. -/
def badB : List Nat := (List.range 4800).map badByte

theorem badB_length : badB.length = 4800 := by
  simp [badB]

theorem badB_getD (m : Nat) :
    badB.getD m 0 = if m < 4800 then badByte m else 0 := by
  rcases Nat.lt_or_ge m 4800 with h | h
  · rw [if_pos h, List.getD_eq_getElem?_getD]
    simp [badB, List.getElem?_map, List.getElem?_range, h]
  · rw [if_neg (by omega), List.getD_eq_getElem?_getD]
    have : badB.length ≤ m := by rw [badB_length]; omega
    simp [List.getElem?_eq_none this]

theorem badB_bytes : ∀ x ∈ badB, x < 256 := by
  intro x hx
  simp only [badB, List.mem_map, List.mem_range] at hx
  obtain ⟨m, hm, rfl⟩ := hx
  unfold badByte
  split
  · omega
  · split <;> omega

/-- Distinctness of the 3-grams of `badByte` below position 4798. -/
theorem badByte_triple_ne (i p : Nat) (hip : i < p) (hp : p ≤ 4797) :
    ¬(badByte i = badByte p ∧ badByte (i+1) = badByte (p+1) ∧
      badByte (i+2) = badByte (p+2)) := by
  have bB0 : ∀ m, m % 3 = 0 → badByte m = 255 := by
    intro m hm; unfold badByte; rw [if_pos hm]
  have bB1 : ∀ m, m % 3 = 1 → badByte m = m / 3 % 255 := by
    intro m hm; unfold badByte; rw [if_neg (by omega), if_pos hm]
  have bB2 : ∀ m, m % 3 = 2 → badByte m = m / 3 / 255 := by
    intro m hm; unfold badByte; rw [if_neg (by omega), if_neg (by omega)]
  rintro ⟨h0, h1, h2⟩
  rcases (by omega : i % 3 = 0 ∨ i % 3 = 1 ∨ i % 3 = 2) with hi | hi | hi
  · rcases (by omega : p % 3 = 0 ∨ p % 3 = 1 ∨ p % 3 = 2) with hq | hq | hq
    · rw [bB1 (i+1) (by omega), bB1 (p+1) (by omega)] at h1
      rw [bB2 (i+2) (by omega), bB2 (p+2) (by omega)] at h2
      omega
    · rw [bB0 i hi, bB1 p hq] at h0
      omega
    · rw [bB1 (i+1) (by omega), bB0 (p+1) (by omega)] at h1
      omega
  · rcases (by omega : p % 3 = 0 ∨ p % 3 = 1 ∨ p % 3 = 2) with hq | hq | hq
    · rw [bB1 i hi, bB0 p hq] at h0
      omega
    · rw [bB1 i hi, bB1 p hq] at h0
      rw [bB2 (i+1) (by omega), bB2 (p+1) (by omega)] at h1
      omega
    · rw [bB2 (i+1) (by omega), bB0 (p+1) (by omega)] at h1
      omega
  · rcases (by omega : p % 3 = 0 ∨ p % 3 = 1 ∨ p % 3 = 2) with hq | hq | hq
    · rw [bB2 i hi, bB0 p hq] at h0
      omega
    · rw [bB0 (i+1) (by omega), bB2 (p+1) (by omega)] at h1
      omega
    · rw [bB2 i hi, bB2 p hq] at h0
      rw [bB1 (i+2) (by omega), bB1 (p+2) (by omega)] at h2
      omega

/-- `badB` has pairwise distinct 3-gram hashes. -/
theorem badB_pack24_ne : ∀ i p, i < p → p + 3 ≤ badB.length →
    pack24 badB i ≠ pack24 badB p := by
  intro i p hip hlen heq
  rw [badB_length] at hlen
  have hlt : ∀ m, m < 4800 → badByte m < 256 := by
    intro m hm
    unfold badByte
    split
    · omega
    · split <;> omega
  rw [pack24_eq _ _ badB_bytes, pack24_eq _ _ badB_bytes,
    badB_getD, badB_getD, badB_getD, badB_getD, badB_getD, badB_getD,
    if_pos (by omega : i < 4800), if_pos (by omega : i + 1 < 4800),
    if_pos (by omega : i + 2 < 4800), if_pos (by omega : p < 4800),
    if_pos (by omega : p + 1 < 4800), if_pos (by omega : p + 2 < 4800)] at heq
  have e0 := hlt i (by omega)
  have e1 := hlt (i+1) (by omega)
  have e2 := hlt (i+2) (by omega)
  have e3 := hlt p (by omega)
  have e4 := hlt (p+1) (by omega)
  have e5 := hlt (p+2) (by omega)
  exact badByte_triple_ne i p hip (by omega) ⟨by omega, by omega, by omega⟩

/-- On a match-free source, `_findBest` always answers 0 (the lazy flag
never gets set) and leaves the cursor alone. -/
theorem findBest_zero (src : List Nat) (H0 : ∀ p, (rabinKarp src p).1 = 0)
    (ls : LazyState) (hfl : ls.flag = 0) :
    (findBest src ls).1 = 0 ∧ (findBest src ls).2.flag = 0 ∧
    (findBest src ls).2.srcPos = ls.srcPos := by
  unfold findBest
  rw [if_neg (by simp [hfl])]
  dsimp only
  rcases hr2 : (rabinKarp src ls.srcPos).2 with _ | mp <;>
    simp only [hr2, H0 ls.srcPos] <;>
    norm_num

/-- The group bit mask `0x80 >>> j` empties after one more shift exactly
at the eighth token. -/
theorem mask_shift (j : Nat) (hj : j < 8) :
    (0x80 >>> j) >>> 1 = 0 ↔ j = 7 := by
  interval_cases j <;> decide

/-- Destination-position bookkeeping of an all-literal run: after `k`
source bytes the stream holds `k` literal bytes plus one code-byte slot
per opened group (`min k (n-1) / 8` completed-group slots beyond the
first). -/
def litExtra (k n : Nat) : Nat := min k (n - 1) / 8

/-- One literal-emitting iteration of the encoder loop, with the
successor state spelled out (`length < 3` branch, then the group
bookkeeping). -/
theorem encLoop_step_lit (src : List Nat) (viewLen fuel : Nat)
    (st : EncState) (hlt : st.srcPos < src.length)
    (hfb : (findBest src st.toLazyState).1 < 3) :
    encLoop src viewLen (fuel+1) st =
      encLoop src viewLen fuel
        (if st.bitmask >>> 1 = 0 then
          { srcPos := (findBest src st.toLazyState).2.srcPos + 1,
            matchPosition := (findBest src st.toLazyState).2.matchPosition,
            mtch := (findBest src st.toLazyState).2.mtch,
            size := (findBest src st.toLazyState).2.size,
            flag := (findBest src st.toLazyState).2.flag,
            dstPos := if (findBest src st.toLazyState).2.srcPos + 1 < src.length
                      then st.dstPos + 2 else st.dstPos + 1,
            cbPos := st.dstPos + 1,
            bitmask := 0x80,
            cb := 0,
            dst := writeDst viewLen
              (writeDst viewLen st.dst st.dstPos
                (src.getD (findBest src st.toLazyState).2.srcPos 0))
              st.cbPos (st.cb ||| st.bitmask) }
        else
          { srcPos := (findBest src st.toLazyState).2.srcPos + 1,
            matchPosition := (findBest src st.toLazyState).2.matchPosition,
            mtch := (findBest src st.toLazyState).2.mtch,
            size := (findBest src st.toLazyState).2.size,
            flag := (findBest src st.toLazyState).2.flag,
            dstPos := st.dstPos + 1,
            cbPos := st.cbPos,
            bitmask := st.bitmask >>> 1,
            cb := st.cb ||| st.bitmask,
            dst := writeDst viewLen st.dst st.dstPos
              (src.getD (findBest src st.toLazyState).2.srcPos 0) }) := by
  rw [encLoop, if_pos hlt]
  dsimp only
  rw [if_pos hfb]

/-- On a match-free source every iteration emits one literal, and the
final destination position is `1 + n + litExtra n n`. -/
theorem encLoop_allLit (src : List Nat) (viewLen : Nat)
    (H0 : ∀ p, (rabinKarp src p).1 = 0) :
    ∀ (fuel k : Nat) (st : EncState),
      st.srcPos = k → st.flag = 0 →
      st.bitmask = 0x80 >>> (k % 8) →
      st.dstPos = 1 + k + litExtra k src.length →
      k ≤ src.length → src.length ≤ k + fuel →
      (encLoop src viewLen fuel st).dstPos
        = 1 + src.length + litExtra src.length src.length := by
  intro fuel
  induction fuel with
  | zero =>
    intro k st h1 h2 h3 h4 h5 h6
    have hk : k = src.length := by omega
    rw [encLoop]
    rw [h4, hk]
  | succ m ih =>
    intro k st h1 h2 h3 h4 h5 h6
    by_cases hk : k < src.length
    · obtain ⟨hr1, hrfl, hrs⟩ := findBest_zero src H0 st.toLazyState h2
      rw [encLoop_step_lit src viewLen m st (by rw [h1]; exact hk)
        (by rw [hr1]; norm_num)]
      rw [hrs, h1, h3]
      have hj : k % 8 < 8 := by omega
      by_cases h7 : k % 8 = 7
      · rw [if_pos ((mask_shift _ hj).mpr h7)]
        by_cases hend : k + 1 < src.length
        · rw [if_pos hend]
          refine ih (k+1) _ ?_ ?_ ?_ ?_ (by omega) (by omega)
          · rfl
          · exact hrfl
          · show (0x80 : Nat) = 0x80 >>> ((k+1) % 8)
            have h0 : (k + 1) % 8 = 0 := by omega
            rw [h0, Nat.shiftRight_zero]
          · show st.dstPos + 2 = 1 + (k+1) + litExtra (k+1) src.length
            rw [h4]
            simp only [litExtra]
            omega
        · rw [if_neg hend]
          refine ih (k+1) _ ?_ ?_ ?_ ?_ (by omega) (by omega)
          · rfl
          · exact hrfl
          · show (0x80 : Nat) = 0x80 >>> ((k+1) % 8)
            have h0 : (k + 1) % 8 = 0 := by omega
            rw [h0, Nat.shiftRight_zero]
          · show st.dstPos + 1 = 1 + (k+1) + litExtra (k+1) src.length
            rw [h4]
            simp only [litExtra]
            omega
      · rw [if_neg (fun hc => h7 ((mask_shift _ hj).mp hc))]
        refine ih (k+1) _ ?_ ?_ ?_ ?_ (by omega) (by omega)
        · rfl
        · exact hrfl
        · show (0x80 : Nat) >>> (k % 8) >>> 1 = 0x80 >>> ((k+1) % 8)
          rw [← Nat.shiftRight_add]
          congr 1
          omega
        · show st.dstPos + 1 = 1 + (k+1) + litExtra (k+1) src.length
          rw [h4]
          simp only [litExtra]
          omega
    · rw [encLoop, if_neg (by rw [h1]; exact hk)]
      have hk2 : k = src.length := by omega
      rw [h4, hk2]

/-- The final `if (bitmask !== 0) dst[cbPos] = cb` only touches `dst`. -/
theorem encRun_dstPos (src : List Nat) :
    (encRun src).dstPos
      = (encLoop src (src.length + 0x250 - 16) src.length encInit).dstPos := by
  unfold encRun
  dsimp only
  split <;> rfl

/-- C1 counterexample: the 4800-byte source `badB` (bytes below 256,
pairwise distinct 3-grams) compresses to literals only, landing the
destination position at 5400; the output size `(5400 + 31) & -16 = 5424`
exceeds the transient buffer's `4800 + 0x250 = 5392` bytes, so
`new Uint8Array(dstBuffer, 0, outSize)` throws a RangeError and the
encoder produces no stream at all — the roundtrip does NOT hold for every
byte array, and `srcSize + 0x250` is not enough headroom. -/
theorem yaz0_overflow_counterexample :
    badB.length = 4800 ∧ (∀ x ∈ badB, x < 256) ∧
    (encRun badB).dstPos = 5400 ∧ yaz0Encode badB = none := by
  have H0 := rabinKarp_fst_zero badB badB_bytes badB_pack24_ne
  have hdst : (encRun badB).dstPos = 5400 := by
    rw [encRun_dstPos]
    have hlit := encLoop_allLit badB (badB.length + 0x250 - 16) H0
      badB.length 0 encInit rfl rfl rfl
      (by simp [encInit, litExtra]) (Nat.zero_le _) (by omega)
    rw [hlit, badB_length]
    simp only [litExtra]
    norm_num
  refine ⟨badB_length, badB_bytes, hdst, ?_⟩
  unfold yaz0Encode
  dsimp only
  rw [hdst, badB_length]
  rw [if_neg (by norm_num)]

/-- Hash equality is 3-gram equality: `pack24` is injective in the three
bytes for values below 256. -/
theorem pack24_inj (src : List Nat) (i j : Nat) (hb : ∀ x ∈ src, x < 256)
    (h : pack24 src i = pack24 src j) :
    src.getD i 0 = src.getD j 0 ∧ src.getD (i+1) 0 = src.getD (j+1) 0 ∧
    src.getD (i+2) 0 = src.getD (j+2) 0 := by
  rw [pack24_eq src i hb, pack24_eq src j hb] at h
  have h1 := getD_lt_256 src hb i
  have h2 := getD_lt_256 src hb (i+1)
  have h3 := getD_lt_256 src hb (i+2)
  have h4 := getD_lt_256 src hb j
  have h5 := getD_lt_256 src hb (j+1)
  have h6 := getD_lt_256 src hb (j+2)
  refine ⟨by omega, by omega, by omega⟩

/-- The inner comparison loop returns a length in `[cs, smp]` whose bytes
all match (as typed-array reads, `undefined` included). -/
theorem cmpLen_spec (src : List Nat) (i pos smp : Nat) :
    ∀ (steps cs : Nat), cs ≤ smp →
      cs ≤ cmpLen src i pos smp steps cs ∧
      cmpLen src i pos smp steps cs ≤ smp ∧
      ∀ u, cs ≤ u → u < cmpLen src i pos smp steps cs →
        src[i + u]? = src[pos + u]? := by
  intro steps
  induction steps with
  | zero =>
    intro cs hcs
    exact ⟨Nat.le_refl _, hcs, fun u h1 h2 => absurd (Nat.lt_of_le_of_lt h1 h2)
      (by rw [cmpLen]; omega)⟩
  | succ n ih =>
    intro cs hcs
    rw [cmpLen]
    by_cases hlt : cs < smp
    · rw [if_pos hlt]
      by_cases heq : src[i + cs]? = src[pos + cs]?
      · rw [if_pos heq]
        obtain ⟨ha, hbnd, hall⟩ := ih (cs + 1) (by omega)
        refine ⟨by omega, hbnd, ?_⟩
        intro u h1 h2
        rcases Nat.eq_or_lt_of_le h1 with rfl | h1'
        · exact heq
        · exact hall u h1' h2
      · rw [if_neg heq]
        exact ⟨Nat.le_refl _, hcs, fun u h1 h2 => absurd (Nat.lt_of_le_of_lt h1 h2)
          (lt_irrefl _)⟩
    · rw [if_neg hlt]
      exact ⟨Nat.le_refl _, hcs, fun u h1 h2 => absurd (Nat.lt_of_le_of_lt h1 h2)
        (lt_irrefl _)⟩

/-- What the window loop's best pair means: nothing yet, or a recorded
match of length in `[3, smp]` at a window position whose bytes agree with
the probe position. -/
def RkGood (src : List Nat) (pos smp sp bs bp : Nat) : Prop :=
  bs = 0 ∨ (3 ≤ bs ∧ bs ≤ smp ∧ sp ≤ bp ∧ bp < pos ∧
    ∀ u, u < bs → src.getD (bp + u) 0 = src.getD (pos + u) 0)

/-- The window loop preserves `RkGood` (starting from the rolling hash of
its window start, as `_rabinKarp` does). -/
theorem rkLoop_spec (src : List Nat) (pos smp sp : Nat)
    (hb : ∀ x ∈ src, x < 256) (hsmp3 : 3 ≤ smp) :
    ∀ (steps i bs bp : Nat), sp ≤ i →
      RkGood src pos smp sp bs bp →
      RkGood src pos smp sp
        (rkLoop src pos smp (pack24 src pos) steps i (pack24 src i) bs bp).1
        (rkLoop src pos smp (pack24 src pos) steps i (pack24 src i) bs bp).2 := by
  intro steps
  induction steps with
  | zero => intro i bs bp hsp hg; exact hg
  | succ n ih =>
    intro i bs bp hsp hg
    rw [rkLoop]
    by_cases hi : i < pos
    · rw [if_pos hi]
      dsimp only
      by_cases hch : pack24 src i = pack24 src pos
      · rw [if_pos hch, roll_eq src i hb]
        obtain ⟨hc1, hc2, hc3⟩ := cmpLen_spec src i pos smp smp 3 hsmp3
        obtain ⟨e0, e1, e2⟩ := pack24_inj src i pos hb hch
        have hgood : RkGood src pos smp sp (cmpLen src i pos smp smp 3) i := by
          refine Or.inr ⟨hc1, hc2, hsp, hi, ?_⟩
          intro u hu
          rcases (by omega : u = 0 ∨ u = 1 ∨ u = 2 ∨ 3 ≤ u) with rfl | rfl | rfl | h3u
          · simpa using e0
          · exact e1
          · exact e2
          · have := hc3 u h3u hu
            rw [List.getD_eq_getElem?_getD, List.getD_eq_getElem?_getD, this]
        by_cases hbs : cmpLen src i pos smp smp 3 > bs
        · rw [if_pos hbs]
          by_cases h111 : cmpLen src i pos smp smp 3 = 0x111
          · rw [if_pos h111]
            exact hgood
          · rw [if_neg h111]
            exact ih (i+1) _ _ (by omega) hgood
        · rw [if_neg hbs]
          exact ih (i+1) _ _ (by omega) hg
      · rw [if_neg hch, roll_eq src i hb]
        exact ih (i+1) _ _ (by omega) hg
    · rw [if_neg hi]
      exact hg

/-- `_rabinKarp` validity: the returned size is either 0 or the length of
a genuine match — in `[3, 0x111]`, not running past the end of the source,
at a window position less than `0x1000 + 1` bytes behind the probe. -/
theorem rabinKarp_spec (src : List Nat) (hb : ∀ x ∈ src, x < 256) (p : Nat) :
    (rabinKarp src p).1 = 0 ∨
    (3 ≤ (rabinKarp src p).1 ∧ (rabinKarp src p).1 ≤ 0x111 ∧
     p + (rabinKarp src p).1 ≤ src.length ∧
     ∃ mp, (rabinKarp src p).2 = some mp ∧ mp < p ∧ p - mp ≤ 0x1000 ∧
       ∀ u, u < (rabinKarp src p).1 →
         src.getD (mp + u) 0 = src.getD (p + u) 0) := by
  unfold rabinKarp
  by_cases h3 : src.length - p < 3
  · rw [if_pos h3]
    exact Or.inl rfl
  · rw [if_neg h3]
    dsimp only
    rw [parse32_shiftRight src p hb, parse32_shiftRight src (p - 0x1000) hb]
    have hsmp3 : 3 ≤ (if src.length - p > 0x111 then 0x111 else src.length - p) := by
      split <;> omega
    have hsmpb : (if src.length - p > 0x111 then 0x111 else src.length - p) ≤ 0x111
        ∧ (if src.length - p > 0x111 then 0x111 else src.length - p) ≤ src.length - p := by
      constructor <;> (split <;> omega)
    have hg := rkLoop_spec src p _ (p - 0x1000) hb hsmp3
      (p - (p - 0x1000)) (p - 0x1000) 0 0 (Nat.le_refl _) (Or.inl rfl)
    rcases hg with h0 | ⟨hg1, hg2, hg3, hg4, hg5⟩
    · exact Or.inl h0
    · refine Or.inr ⟨hg1, by omega, by omega, _, rfl, hg4, by omega, hg5⟩

/-- The compressor's lazy invariant: a raised flag stashes a genuine match
for the position one past the current cursor — phrased for the state as it
will be when the deferred match is consumed (cursor already advanced by
the single literal). -/
def LazyOk (src : List Nat) (ls : LazyState) : Prop :=
  ls.flag = 1 → 3 ≤ ls.size ∧ ls.size ≤ 0x111 ∧
    ls.srcPos + ls.size ≤ src.length ∧
    ls.matchPosition + 1 ≤ ls.srcPos ∧
    ls.srcPos - ls.matchPosition ≤ 0x1000 ∧
    ∀ u, u < ls.size →
      src.getD (ls.matchPosition + u) 0 = src.getD (ls.srcPos + u) 0

/-- `_findBest` validity: the cursor is untouched; a sub-3 answer hands
the (advanced) state back with the lazy invariant intact, and an answer
`≥ 3` is a genuine match of that length at `matchPosition`, with the flag
lowered. -/
theorem findBest_spec (src : List Nat) (hb : ∀ x ∈ src, x < 256)
    (ls : LazyState) (hok : LazyOk src ls) :
    (findBest src ls).2.srcPos = ls.srcPos ∧
    ((findBest src ls).1 < 3 →
      LazyOk src { (findBest src ls).2 with
        srcPos := (findBest src ls).2.srcPos + 1 }) ∧
    (3 ≤ (findBest src ls).1 →
      (findBest src ls).2.flag = 0 ∧
      (findBest src ls).1 ≤ 0x111 ∧
      ls.srcPos + (findBest src ls).1 ≤ src.length ∧
      (findBest src ls).2.matchPosition + 1 ≤ ls.srcPos ∧
      ls.srcPos - (findBest src ls).2.matchPosition ≤ 0x1000 ∧
      ∀ u, u < (findBest src ls).1 →
        src.getD ((findBest src ls).2.matchPosition + u) 0
          = src.getD (ls.srcPos + u) 0) := by
  by_cases hfl : ls.flag = 1
  · have heq : findBest src ls = (ls.size, { ls with flag := 0 }) := by
      unfold findBest
      rw [if_pos hfl]
    obtain ⟨hs1, hs2, hs3, hs4, hs5, hs6⟩ := hok hfl
    rw [heq]
    dsimp only
    refine ⟨rfl, ?_, ?_⟩
    · intro _
      intro hcontra
      exact absurd hcontra (by norm_num)
    · intro _
      exact ⟨rfl, hs2, hs3, hs4, hs5, hs6⟩
  · rcases hmp : (rabinKarp src ls.srcPos).2 with _ | mp
    · -- early return: the size is 0 and no match state was written
      have h0 : (rabinKarp src ls.srcPos).1 = 0 := by
        rcases rabinKarp_spec src hb ls.srcPos with h | ⟨_, _, _, mp', hsome, _⟩
        · exact h
        · rw [hmp] at hsome
          exact Option.noConfusion hsome
      have heq : findBest src ls
          = ((rabinKarp src ls.srcPos).1, { ls with flag := 0 }) := by
        unfold findBest
        rw [if_neg hfl]
        dsimp only
        rw [hmp]
        dsimp only
        rw [if_neg (by rw [h0]; omega)]
      rw [heq]
      dsimp only
      refine ⟨rfl, ?_, ?_⟩
      · intro _
        intro hcontra
        exact absurd hcontra (by norm_num)
      · intro hge
        rw [h0] at hge
        omega
    · obtain (h0 | ⟨h31, h111, hlen, mp', hsome, hmplt, hdist, heqs⟩) :=
        rabinKarp_spec src hb ls.srcPos
      · -- size 0: no look-ahead, the state just records the best position
        have heq : findBest src ls
            = ((rabinKarp src ls.srcPos).1,
               { ls with flag := 0, matchPosition := mp }) := by
          unfold findBest
          rw [if_neg hfl]
          dsimp only
          rw [hmp]
          dsimp only
          rw [if_neg (by rw [h0]; omega)]
        rw [heq]
        dsimp only
        refine ⟨rfl, ?_, ?_⟩
        · intro _
          intro hcontra
          exact absurd hcontra (by norm_num)
        · intro hge
          rw [h0] at hge
          omega
      · have hmp' : mp' = mp := by
          rw [hmp] at hsome
          injection hsome with h
          exact h.symm
        rw [hmp'] at hmplt hdist heqs
        have hge : (rabinKarp src ls.srcPos).1 ≥ 3 := h31
        rcases hmp2 : (rabinKarp src (ls.srcPos + 1)).2 with _ | mq
        · -- look-ahead early-returned 0: no deferral
          have h20 : (rabinKarp src (ls.srcPos + 1)).1 = 0 := by
            rcases rabinKarp_spec src hb (ls.srcPos + 1) with h | ⟨_, _, _, mq', hsome2, _⟩
            · exact h
            · rw [hmp2] at hsome2
              exact Option.noConfusion hsome2
          have heq : findBest src ls
              = ((rabinKarp src ls.srcPos).1,
                 { ls with flag := 0, matchPosition := mp, size := (rabinKarp src (ls.srcPos + 1)).1 }) := by
            unfold findBest
            rw [if_neg hfl]
            dsimp only
            rw [hmp]
            dsimp only
            rw [if_pos hge]
            rw [hmp2]
            dsimp only
            rw [if_neg (by rw [h20]; omega)]
          rw [heq]
          dsimp only
          refine ⟨rfl, ?_, ?_⟩
          · intro hlt
            exact absurd hge (by omega)
          · intro _
            exact ⟨rfl, h111, hlen, hmplt, by omega, heqs⟩
        · by_cases hdef : (rabinKarp src (ls.srcPos + 1)).1
              ≥ (rabinKarp src ls.srcPos).1 + 2
          · -- deferral: emit a literal now, stash the look-ahead match
            obtain (h20 | ⟨h31', h111', hlen', mq', hsome2, hmqlt, hdist', heqs'⟩) :=
              rabinKarp_spec src hb (ls.srcPos + 1)
            · exact absurd hdef (by rw [h20]; omega)
            · have hmq' : mq' = mq := by
                rw [hmp2] at hsome2
                injection hsome2 with h
                exact h.symm
              rw [hmq'] at hmqlt hdist' heqs'
              have heq : findBest src ls
                  = (1, { ls with flag := 1, matchPosition := mq, mtch := mq, size := (rabinKarp src (ls.srcPos + 1)).1 }) := by
                unfold findBest
                rw [if_neg hfl]
                dsimp only
                rw [hmp]
                dsimp only
                rw [if_pos hge]
                rw [hmp2]
                dsimp only
                rw [if_pos hdef]
              rw [heq]
              dsimp only
              refine ⟨rfl, ?_, ?_⟩
              · intro _
                intro _
                dsimp only
                refine ⟨h31', h111', hlen', by omega, by omega, heqs'⟩
              · intro hc
                omega
          · -- no deferral: answer the current match
            have heq : findBest src ls
                = ((rabinKarp src ls.srcPos).1,
                   { ls with flag := 0, matchPosition := mp, mtch := mq, size := (rabinKarp src (ls.srcPos + 1)).1 }) := by
              unfold findBest
              rw [if_neg hfl]
              dsimp only
              rw [hmp]
              dsimp only
              rw [if_pos hge]
              rw [hmp2]
              dsimp only
              rw [if_neg hdef]
            rw [heq]
            dsimp only
            refine ⟨rfl, ?_, ?_⟩
            · intro hlt
              exact absurd hge (by omega)
            · intro _
              exact ⟨rfl, h111, hlen, hmplt, by omega, heqs⟩

/-- A Yaz0 token: a literal byte, or a back-reference reaching `dist + 1`
positions behind the cursor for `len` bytes. -/
inductive Tok where
  | lit (b : Nat)
  | ref (dist len : Nat)
  deriving DecidableEq, Repr

/-- The payload bytes one token contributes to the stream (the group's
code byte lives separately): exactly the values the encoder stores. -/
def Tok.bytes : Tok → List Nat
  | .lit b => [b % 256]
  | .ref dist len =>
    if len > 0x11 then
      [(dist >>> 8) % 256, (dist &&& 0xFF) % 256, ((len - 0x12) &&& 0xFF) % 256]
    else
      [(((len - 2) <<< 4) ||| (dist >>> 8)) % 256, (dist &&& 0xFF) % 256]

/-- How many source bytes a token covers. -/
def Tok.span : Tok → Nat
  | .lit _ => 1
  | .ref _ len => len

/-- The token stream the encoder emits, mirroring `_encode`'s loop: one
token per iteration, each branch advancing the cursor as the code does. -/
def tokGen (src : List Nat) : Nat → LazyState → List Tok
  | 0, _ => []
  | fuel+1, ls0 =>
    if ls0.srcPos < src.length then
      let r := findBest src ls0
      if r.1 < 3 then
        .lit (src.getD r.2.srcPos 0)
          :: tokGen src fuel { r.2 with srcPos := r.2.srcPos + 1 }
      else if r.1 > 0x11 then
        .ref (r.2.srcPos - r.2.matchPosition - 1)
            (if r.1 > 0x111 then 0x111 else r.1)
          :: tokGen src fuel
            { r.2 with srcPos := r.2.srcPos + (if r.1 > 0x111 then 0x111 else r.1) }
      else
        .ref (r.2.srcPos - r.2.matchPosition - 1) r.1
          :: tokGen src fuel { r.2 with srcPos := r.2.srcPos + r.1 }
    else []

/-- Well-formedness of a token stream against the source, from position
`p`: literals carry the source byte, references stay in bounds and point
at genuinely matching earlier data, and the stream covers the source to
its end exactly. -/
def TokSeqOk (src : List Nat) : Nat → List Tok → Prop
  | p, [] => p = src.length
  | p, .lit b :: ts => p < src.length ∧ b = src.getD p 0 ∧ TokSeqOk src (p+1) ts
  | p, .ref d l :: ts => 3 ≤ l ∧ l ≤ 0x111 ∧ p + l ≤ src.length ∧ d ≤ 0xFFF ∧
      d + 1 ≤ p ∧
      (∀ u, u < l → src.getD (p - (d+1) + u) 0 = src.getD (p + u) 0) ∧
      TokSeqOk src (p + l) ts

/-- The emitted token stream is well-formed: every literal is the source
byte under the cursor, every reference is a genuine in-window match, and
the stream covers the source exactly. -/
theorem tokGen_ok (src : List Nat) (hb : ∀ x ∈ src, x < 256) :
    ∀ (fuel : Nat) (ls : LazyState), LazyOk src ls →
      ls.srcPos ≤ src.length → src.length ≤ ls.srcPos + fuel →
      TokSeqOk src ls.srcPos (tokGen src fuel ls) := by
  intro fuel
  induction fuel with
  | zero =>
    intro ls hok hle hfu
    rw [tokGen]
    show ls.srcPos = src.length
    omega
  | succ fuel ih =>
    intro ls hok hle hfu
    rw [tokGen]
    by_cases hp : ls.srcPos < src.length
    · rw [if_pos hp]
      dsimp only
      obtain ⟨hsp, hlt3, hge3⟩ := findBest_spec src hb ls hok
      by_cases h3 : (findBest src ls).1 < 3
      · rw [if_pos h3, hsp]
        show _ < _ ∧ _ ∧ TokSeqOk src (ls.srcPos + 1) _
        refine ⟨hp, rfl, ?_⟩
        have hok' := hlt3 h3
        rw [hsp] at hok'
        have h := ih { (findBest src ls).2 with srcPos := ls.srcPos + 1 }
          hok' (by dsimp only; omega) (by dsimp only; omega)
        dsimp only at h
        exact h
      · rw [if_neg h3]
        obtain ⟨hfl0, h111, hlen, hm1, hdist, heqs⟩ := hge3 (by omega)
        have hcl : (if (findBest src ls).1 > 0x111 then 0x111
            else (findBest src ls).1) = (findBest src ls).1 := if_neg (by omega)
        have hA : ls.srcPos -
            (ls.srcPos - (findBest src ls).2.matchPosition - 1 + 1)
            = (findBest src ls).2.matchPosition := by omega
        have hrest : TokSeqOk src (ls.srcPos + (findBest src ls).1)
            (tokGen src fuel { (findBest src ls).2 with
              srcPos := ls.srcPos + (findBest src ls).1 }) := by
          have h := ih { (findBest src ls).2 with
              srcPos := ls.srcPos + (findBest src ls).1 }
            (by intro hc; dsimp only at hc; rw [hfl0] at hc; exact absurd hc (by norm_num))
            (by dsimp only; omega)
            (by dsimp only; omega)
          dsimp only at h
          exact h
        by_cases h11 : (findBest src ls).1 > 0x11
        · rw [if_pos h11, hcl, hsp]
          show 3 ≤ _ ∧ _ ≤ 0x111 ∧ _ ∧ _ ∧ _ ∧ _ ∧
            TokSeqOk src (ls.srcPos + (findBest src ls).1) _
          rw [hA]
          exact ⟨by omega, h111, hlen, by omega, by omega, heqs, hrest⟩
        · rw [if_neg h11, hsp]
          show 3 ≤ _ ∧ _ ≤ 0x111 ∧ _ ∧ _ ∧ _ ∧ _ ∧
            TokSeqOk src (ls.srcPos + (findBest src ls).1) _
          rw [hA]
          exact ⟨by omega, h111, hlen, by omega, by omega, heqs, hrest⟩
    · rw [if_neg hp]
      show ls.srcPos = src.length
      omega

/-- The group code byte, accumulated exactly as the loop accumulates
`cb`: starting from `cb` at bit index `j`, each literal ORs `0x80 >>> j`
in. -/
def cbGo : Nat → Nat → List Tok → Nat
  | cb, _, [] => cb
  | cb, j, .lit _ :: ts => cbGo (cb ||| (0x80 >>> j)) (j+1) ts
  | cb, j, .ref _ _ :: ts => cbGo cb (j+1) ts

/-- Payload bytes of a token list. -/
def payloadOf (ts : List Tok) : List Nat := (ts.map Tok.bytes).flatten

theorem payloadOf_nil : payloadOf [] = [] := rfl

theorem payloadOf_cons (t : Tok) (ts : List Tok) :
    payloadOf (t :: ts) = t.bytes ++ payloadOf ts := by
  simp [payloadOf]

theorem payloadOf_append (g : List Tok) (t : Tok) :
    payloadOf (g ++ [t]) = payloadOf g ++ t.bytes := by
  simp [payloadOf]

theorem cbGo_append_lit : ∀ (g : List Tok) (cb j b : Nat),
    cbGo cb j (g ++ [.lit b]) = cbGo cb j g ||| (0x80 >>> (j + g.length)) := by
  intro g
  induction g with
  | nil => intro cb j b; simp [cbGo]
  | cons t g ih =>
    intro cb j b
    have hj : j + 1 + g.length = j + (t :: g).length := by
      simp [List.length_cons]; omega
    cases t <;> simp only [List.cons_append, cbGo, List.append_eq] <;> rw [ih, hj]

theorem cbGo_append_ref : ∀ (g : List Tok) (cb j d l : Nat),
    cbGo cb j (g ++ [.ref d l]) = cbGo cb j g := by
  intro g
  induction g with
  | nil => intro cb j d l; simp [cbGo]
  | cons t g ih =>
    intro cb j d l
    cases t <;> simp only [List.cons_append, cbGo, List.append_eq] <;> rw [ih]

/-- The byte stream of a token list chunked into groups of eight, each
group preceded by its code byte (explicit fuel, one unit per group:
`ts.length` always suffices). -/
def serFrom : Nat → List Tok → List Nat
  | 0, _ => []
  | _+1, [] => []
  | f+1, t :: ts =>
    cbGo 0 0 (t :: ts.take 7)
      :: (payloadOf (t :: ts.take 7) ++ serFrom f (ts.drop 7))

/-- The stream bytes from the current group's code-byte slot onward, with
tokens `g` already emitted in the current group and `ts` still to come. -/
def serCont (g ts : List Tok) : List Nat :=
  if g = [] ∧ ts = [] then []
  else
    cbGo 0 0 (g ++ ts.take (8 - g.length))
      :: (payloadOf g ++ payloadOf (ts.take (8 - g.length))
          ++ serFrom ts.length (ts.drop (8 - g.length)))

theorem serFrom_congr : ∀ (f f' : Nat) (ts : List Tok),
    ts.length ≤ f → ts.length ≤ f' → serFrom f ts = serFrom f' ts := by
  intro f
  induction f with
  | zero =>
    intro f' ts h h'
    have hts : ts = [] := List.eq_nil_of_length_eq_zero (by omega)
    subst hts
    cases f' <;> rfl
  | succ f ih =>
    intro f' ts h h'
    cases ts with
    | nil => cases f' <;> rfl
    | cons t ts =>
      cases f' with
      | zero => simp at h'
      | succ f'' =>
        rw [serFrom, serFrom]
        congr 2
        exact ih f'' (ts.drop 7)
          (by rw [List.length_drop]; simp at h; omega)
          (by rw [List.length_drop]; simp at h'; omega)

theorem serFrom_eq_serCont : ∀ (f : Nat) (ts : List Tok), ts.length ≤ f →
    serFrom f ts = serCont [] ts := by
  intro f ts h
  cases ts with
  | nil =>
    cases f <;> simp [serFrom, serCont]
  | cons t ts =>
    cases f with
    | zero => simp at h
    | succ f =>
      rw [serFrom, serCont, if_neg (by simp)]
      simp only [List.nil_append, List.length_nil, Nat.sub_zero, payloadOf_nil]
      rw [(by rfl : (8 : Nat) = 7 + 1), List.take_succ_cons, List.drop_succ_cons]
      congr 2
      exact serFrom_congr f (t :: ts).length (ts.drop 7)
        (by rw [List.length_drop]; simp at h; omega)
        (by rw [List.length_drop]; simp; omega)

theorem serCont_append_small (g : List Tok) (t : Tok) (ts : List Tok)
    (hg : g.length < 7) :
    serCont g (t :: ts) = serCont (g ++ [t]) ts := by
  rw [serCont, serCont, if_neg (by simp), if_neg (by simp)]
  have h8 : 8 - g.length = (7 - g.length) + 1 := by omega
  have h8' : 8 - (g ++ [t]).length = 7 - g.length := by
    simp only [List.length_append, List.length_cons, List.length_nil]
    omega
  rw [h8, h8', List.take_succ_cons, List.drop_succ_cons]
  congr 1
  · rw [← List.append_cons]
  · rw [serFrom_congr (t :: ts).length ts.length (ts.drop (7 - g.length))
        (by rw [List.length_drop]; simp; omega)
        (by rw [List.length_drop]; omega),
      payloadOf_append, payloadOf_cons]
    simp [List.append_assoc]

theorem serCont_append_flush (g : List Tok) (t : Tok) (ts : List Tok)
    (hg : g.length = 7) :
    serCont g (t :: ts)
      = (cbGo 0 0 (g ++ [t]) :: payloadOf (g ++ [t])) ++ serCont [] ts := by
  rw [serCont, if_neg (by simp)]
  have h8 : 8 - g.length = 0 + 1 := by omega
  rw [h8, List.take_succ_cons, List.drop_succ_cons]
  simp only [List.take_zero, List.drop_zero]
  rw [← serFrom_eq_serCont (t :: ts).length ts (by simp)]
  rw [List.cons_append]
  congr 1
  rw [payloadOf_append, payloadOf_cons, payloadOf_nil, List.append_nil]

theorem serCont_nil_right (g : List Tok) (hg : g ≠ []) :
    serCont g [] = cbGo 0 0 g :: payloadOf g := by
  rw [serCont, if_neg (by simp [hg])]
  simp [serFrom, payloadOf_nil]

theorem serCont_length_ge (g ts : List Tok) (hg : g ≠ []) :
    1 + (payloadOf g).length ≤ (serCont g ts).length := by
  rw [serCont, if_neg (by simp [hg])]
  simp only [List.length_cons, List.length_append]
  omega

/-- One 3-byte-reference iteration of the encoder loop (`length > 0x11`),
successor state spelled out; `l` abbreviates the clamped length. -/
theorem encLoop_step_ref3 (src : List Nat) (viewLen fuel : Nat)
    (st : EncState) (l : Nat) (hlt : st.srcPos < src.length)
    (hfb : ¬ (findBest src st.toLazyState).1 < 3)
    (hfb2 : (findBest src st.toLazyState).1 > 0x11)
    (hl : (if (findBest src st.toLazyState).1 > 0x111 then 0x111
           else (findBest src st.toLazyState).1) = l) :
    encLoop src viewLen (fuel+1) st =
      encLoop src viewLen fuel
        (if st.bitmask >>> 1 = 0 then
          { srcPos := (findBest src st.toLazyState).2.srcPos + l,
            matchPosition := (findBest src st.toLazyState).2.matchPosition,
            mtch := (findBest src st.toLazyState).2.mtch,
            size := (findBest src st.toLazyState).2.size,
            flag := (findBest src st.toLazyState).2.flag,
            dstPos := if (findBest src st.toLazyState).2.srcPos + l < src.length
                      then st.dstPos + 4 else st.dstPos + 3,
            cbPos := st.dstPos + 3,
            bitmask := 0x80,
            cb := 0,
            dst := writeDst viewLen
              (writeDst viewLen
                (writeDst viewLen
                  (writeDst viewLen st.dst st.dstPos
                    (((findBest src st.toLazyState).2.srcPos -
                      (findBest src st.toLazyState).2.matchPosition - 1) >>> 8))
                  (st.dstPos + 1)
                  (((findBest src st.toLazyState).2.srcPos -
                    (findBest src st.toLazyState).2.matchPosition - 1) &&& 0xFF))
                (st.dstPos + 2) ((l - 0x12) &&& 0xFF))
              st.cbPos st.cb }
        else
          { srcPos := (findBest src st.toLazyState).2.srcPos + l,
            matchPosition := (findBest src st.toLazyState).2.matchPosition,
            mtch := (findBest src st.toLazyState).2.mtch,
            size := (findBest src st.toLazyState).2.size,
            flag := (findBest src st.toLazyState).2.flag,
            dstPos := st.dstPos + 3,
            cbPos := st.cbPos,
            bitmask := st.bitmask >>> 1,
            cb := st.cb,
            dst := writeDst viewLen
              (writeDst viewLen
                (writeDst viewLen st.dst st.dstPos
                  (((findBest src st.toLazyState).2.srcPos -
                    (findBest src st.toLazyState).2.matchPosition - 1) >>> 8))
                (st.dstPos + 1)
                (((findBest src st.toLazyState).2.srcPos -
                  (findBest src st.toLazyState).2.matchPosition - 1) &&& 0xFF))
              (st.dstPos + 2) ((l - 0x12) &&& 0xFF) }) := by
  rw [encLoop, if_pos hlt]
  dsimp only
  rw [if_neg hfb, if_pos hfb2, hl]

/-- One 2-byte-reference iteration of the encoder loop (`3 ≤ length ≤
0x11`), successor state spelled out. -/
theorem encLoop_step_ref2 (src : List Nat) (viewLen fuel : Nat)
    (st : EncState) (hlt : st.srcPos < src.length)
    (hfb : ¬ (findBest src st.toLazyState).1 < 3)
    (hfb2 : ¬ (findBest src st.toLazyState).1 > 0x11) :
    encLoop src viewLen (fuel+1) st =
      encLoop src viewLen fuel
        (if st.bitmask >>> 1 = 0 then
          { srcPos := (findBest src st.toLazyState).2.srcPos
              + (findBest src st.toLazyState).1,
            matchPosition := (findBest src st.toLazyState).2.matchPosition,
            mtch := (findBest src st.toLazyState).2.mtch,
            size := (findBest src st.toLazyState).2.size,
            flag := (findBest src st.toLazyState).2.flag,
            dstPos := if (findBest src st.toLazyState).2.srcPos
                + (findBest src st.toLazyState).1 < src.length
                      then st.dstPos + 3 else st.dstPos + 2,
            cbPos := st.dstPos + 2,
            bitmask := 0x80,
            cb := 0,
            dst := writeDst viewLen
              (writeDst viewLen
                (writeDst viewLen st.dst st.dstPos
                  ((((findBest src st.toLazyState).1 - 2) <<< 4) |||
                    (((findBest src st.toLazyState).2.srcPos -
                      (findBest src st.toLazyState).2.matchPosition - 1) >>> 8)))
                (st.dstPos + 1)
                (((findBest src st.toLazyState).2.srcPos -
                  (findBest src st.toLazyState).2.matchPosition - 1) &&& 0xFF))
              st.cbPos st.cb }
        else
          { srcPos := (findBest src st.toLazyState).2.srcPos
              + (findBest src st.toLazyState).1,
            matchPosition := (findBest src st.toLazyState).2.matchPosition,
            mtch := (findBest src st.toLazyState).2.mtch,
            size := (findBest src st.toLazyState).2.size,
            flag := (findBest src st.toLazyState).2.flag,
            dstPos := st.dstPos + 2,
            cbPos := st.cbPos,
            bitmask := st.bitmask >>> 1,
            cb := st.cb,
            dst := writeDst viewLen
              (writeDst viewLen st.dst st.dstPos
                ((((findBest src st.toLazyState).1 - 2) <<< 4) |||
                  (((findBest src st.toLazyState).2.srcPos -
                    (findBest src st.toLazyState).2.matchPosition - 1) >>> 8)))
              (st.dstPos + 1)
              (((findBest src st.toLazyState).2.srcPos -
                (findBest src st.toLazyState).2.matchPosition - 1) &&& 0xFF) }) := by
  rw [encLoop, if_pos hlt]
  dsimp only
  rw [if_neg hfb, if_neg hfb2]

/-- A run that starts at (or past) the end of the source does nothing. -/
theorem encLoop_exit (src : List Nat) (viewLen fuel : Nat) (st : EncState)
    (h : src.length ≤ st.srcPos) :
    encLoop src viewLen fuel st = st := by
  cases fuel <;> · rw [encLoop]; try rw [if_neg (by omega)]

/-- Token generation stops at (or past) the end of the source. -/
theorem tokGen_exit (src : List Nat) (fuel : Nat) (ls : LazyState)
    (h : src.length ≤ ls.srcPos) :
    tokGen src fuel ls = [] := by
  cases fuel <;> · rw [tokGen]; try rw [if_neg (by omega)]

/-- Agreement of a byte function with a byte list from a base offset. -/
def AgreeFrom (dst : Nat → Nat) (base : Nat) (bytes : List Nat) : Prop :=
  ∀ i, i < bytes.length → dst (base + i) = bytes.getD i 0

theorem agree_nil (dst : Nat → Nat) (base : Nat) : AgreeFrom dst base [] := by
  intro i hi
  simp at hi

theorem agree_updF_outside (dst : Nat → Nat) (base : Nat) (bytes : List Nat)
    (j v : Nat) (hj : ∀ i, i < bytes.length → base + i ≠ j)
    (h : AgreeFrom dst base bytes) : AgreeFrom (updF dst j v) base bytes := by
  intro i hi
  rw [updF_other _ _ _ _ (hj i hi)]
  exact h i hi

theorem agree_push (dst : Nat → Nat) (base : Nat) (bytes : List Nat) (v : Nat)
    (h : AgreeFrom dst base bytes) :
    AgreeFrom (updF dst (base + bytes.length) v) base (bytes ++ [v]) := by
  intro i hi
  rw [List.length_append, List.length_cons, List.length_nil] at hi
  rcases Nat.lt_or_ge i bytes.length with h1 | h1
  · rw [List.getD_append _ _ _ _ h1, updF_other _ _ _ _ (by omega)]
    exact h i h1
  · have h2 : i = bytes.length := by omega
    subst h2
    rw [List.getD_append_right _ _ _ _ (Nat.le_refl _), Nat.sub_self, updF_same]
    rfl

/-- Merging a finished group into the completed-stream prefix. -/
theorem agree_mergeC (dst : Nat → Nat) (C P : List Nat) (cbv : Nat)
    (hC : ∀ i, i < C.length → dst i = C.getD i 0)
    (hcb : dst C.length = cbv)
    (hP : AgreeFrom dst (C.length + 1) P) :
    ∀ i, i < (C ++ cbv :: P).length → dst i = (C ++ cbv :: P).getD i 0 := by
  intro i hi
  rw [List.length_append, List.length_cons] at hi
  rcases Nat.lt_trichotomy i C.length with h | h | h
  · rw [List.getD_append _ _ _ _ h]
    exact hC i h
  · subst h
    rw [List.getD_append_right _ _ _ _ (Nat.le_refl _), Nat.sub_self]
    exact hcb
  · rw [List.getD_append_right _ _ _ _ (by omega)]
    have h2 : i - C.length = (i - C.length - 1) + 1 := by omega
    rw [h2, List.getD_cons_succ]
    have h3 := hP (i - C.length - 1) (by omega)
    rw [(by omega : C.length + 1 + (i - C.length - 1) = i)] at h3
    exact h3

/-- Group code bytes stay below 256. -/
theorem cbGo_lt_256 : ∀ (g : List Tok) (cb j : Nat), cb < 256 →
    cbGo cb j g < 256 := by
  intro g
  induction g with
  | nil => intro cb j h; exact h
  | cons t g ih =>
    intro cb j h
    cases t with
    | lit b =>
      rw [cbGo]
      have hcb8 : cb < 2^8 := by omega
      have hm8 : (0x80 : Nat) >>> j < 2^8 := by
        rw [Nat.shiftRight_eq_div_pow]
        have : (0x80 : Nat) / 2^j ≤ 0x80 := Nat.div_le_self _ _
        omega
      have hor := Nat.or_lt_two_pow hcb8 hm8
      exact ih _ _ (by omega)
    | ref d l =>
      rw [cbGo]
      exact ih _ _ h

/-- A live bit mask (`0x80 >>> j`, `j < 8`) is never zero. -/
theorem mask_ne_zero (j : Nat) (hj : j < 8) : (0x80 : Nat) >>> j ≠ 0 := by
  interval_cases j <;> decide

/-- A store under the view length is a plain pointwise update. -/
theorem writeDst_lt (viewLen : Nat) (dst : Nat → Nat) (i v : Nat)
    (h : i < viewLen) : writeDst viewLen dst i v = updF dst i (v % 256) := by
  rw [writeDst, if_pos h]

theorem encSim_stop (src : List Nat) (viewLen : Nat) (st : EncState)
    (g : List Tok) (C : List Nat)
    (hgne : g ≠ [])
    (h8 : g.length < 8)
    (hbm : st.bitmask = 0x80 >>> g.length)
    (hcb : st.cb = cbGo 0 0 g)
    (hcbp : st.cbPos = C.length)
    (hdp : st.dstPos = C.length + 1 + (payloadOf g).length)
    (hC : ∀ i, i < C.length → st.dst i = C.getD i 0)
    (hP : AgreeFrom st.dst (C.length + 1) (payloadOf g)) :
    st.dstPos = C.length + (serCont g []).length ∧
    st.bitmask ≠ 0 ∧
    C.length ≤ st.cbPos ∧
    (∀ i, i < C.length + (serCont g []).length → i ≠ st.cbPos →
      st.dst i = (C ++ serCont g []).getD i 0) ∧
    (st.cbPos < C.length + (serCont g []).length →
      (C ++ serCont g []).getD st.cbPos 0 = st.cb % 256) := by
  rw [serCont_nil_right g hgne]
  refine ⟨?_, ?_, ?_, ?_, ?_⟩
  · rw [hdp, List.length_cons]
    omega
  · rw [hbm]
    exact mask_ne_zero _ h8
  · rw [hcbp]
  · intro i hi hne
    rw [List.length_cons] at hi
    rcases Nat.lt_trichotomy i C.length with h | h | h
    · rw [List.getD_append _ _ _ _ h]
      exact hC i h
    · exact absurd (by omega : i = st.cbPos) hne
    · rw [List.getD_append_right _ _ _ _ (by omega)]
      have h2 : i - C.length = (i - C.length - 1) + 1 := by omega
      rw [h2, List.getD_cons_succ]
      have h3 := hP (i - C.length - 1) (by omega)
      rw [(by omega : C.length + 1 + (i - C.length - 1) = i)] at h3
      exact h3
  · intro _
    rw [hcbp, List.getD_append_right _ _ _ _ (Nat.le_refl _), Nat.sub_self,
      List.getD_cons_zero, hcb, Nat.mod_eq_of_lt (cbGo_lt_256 g 0 0 (by norm_num))]

/-- Two consecutive stores extend an agreement region by two bytes. -/
theorem agree_push2 (dst : Nat → Nat) (base : Nat) (X : List Nat) (a b : Nat)
    (h : AgreeFrom dst base X) :
    AgreeFrom (updF (updF dst (base + X.length) a) (base + X.length + 1) b)
      base (X ++ [a, b]) := by
  intro i hi
  rw [List.length_append] at hi
  simp only [List.length_cons, List.length_nil] at hi
  rcases Nat.lt_trichotomy i X.length with h1 | h1 | h1
  · rw [List.getD_append _ _ _ _ h1, updF_other _ _ _ _ (by omega),
      updF_other _ _ _ _ (by omega)]
    exact h i h1
  · subst h1
    rw [List.getD_append_right _ _ _ _ (Nat.le_refl _), Nat.sub_self,
      updF_other _ _ _ _ (by omega), updF_same]
    rfl
  · have h2 : i = X.length + 1 := by omega
    subst h2
    rw [List.getD_append_right _ _ _ _ (by omega),
      (by omega : X.length + 1 - X.length = 1)]
    rw [(by omega : base + (X.length + 1) = base + X.length + 1), updF_same]
    rfl

/-- Three consecutive stores extend an agreement region by three bytes. -/
theorem agree_push3 (dst : Nat → Nat) (base : Nat) (X : List Nat) (a b c : Nat)
    (h : AgreeFrom dst base X) :
    AgreeFrom (updF (updF (updF dst (base + X.length) a)
        (base + X.length + 1) b) (base + X.length + 2) c)
      base (X ++ [a, b, c]) := by
  intro i hi
  rw [List.length_append] at hi
  simp only [List.length_cons, List.length_nil] at hi
  rcases Nat.lt_trichotomy i X.length with h1 | h1 | h1
  · rw [List.getD_append _ _ _ _ h1, updF_other _ _ _ _ (by omega),
      updF_other _ _ _ _ (by omega), updF_other _ _ _ _ (by omega)]
    exact h i h1
  · subst h1
    rw [List.getD_append_right _ _ _ _ (Nat.le_refl _), Nat.sub_self,
      updF_other _ _ _ _ (by omega), updF_other _ _ _ _ (by omega), updF_same]
    rfl
  · rcases Nat.lt_or_ge i (X.length + 2) with h2 | h2
    · have h3 : i = X.length + 1 := by omega
      subst h3
      rw [List.getD_append_right _ _ _ _ (by omega),
        (by omega : X.length + 1 - X.length = 1)]
      rw [(by omega : base + (X.length + 1) = base + X.length + 1),
        updF_other _ _ _ _ (by omega), updF_same]
      rfl
    · have h3 : i = X.length + 2 := by omega
      subst h3
      rw [List.getD_append_right _ _ _ _ (by omega),
        (by omega : X.length + 2 - X.length = 2)]
      rw [(by omega : base + (X.length + 2) = base + X.length + 2), updF_same]
      rfl

/-- Reassociating the completed-group prefix into the stream. -/
theorem encSim_glue (fin : EncState) (C pre ser : List Nat)
    (h1 : fin.dstPos = (C ++ pre).length + ser.length)
    (h2 : fin.bitmask ≠ 0)
    (h3 : (C ++ pre).length ≤ fin.cbPos)
    (h4 : ∀ i, i < (C ++ pre).length + ser.length → i ≠ fin.cbPos →
      fin.dst i = ((C ++ pre) ++ ser).getD i 0)
    (h5 : fin.cbPos < (C ++ pre).length + ser.length →
      ((C ++ pre) ++ ser).getD fin.cbPos 0 = fin.cb % 256) :
    fin.dstPos = C.length + (pre ++ ser).length ∧ fin.bitmask ≠ 0 ∧
    C.length ≤ fin.cbPos ∧
    (∀ i, i < C.length + (pre ++ ser).length → i ≠ fin.cbPos →
      fin.dst i = (C ++ (pre ++ ser)).getD i 0) ∧
    (fin.cbPos < C.length + (pre ++ ser).length →
      (C ++ (pre ++ ser)).getD fin.cbPos 0 = fin.cb % 256) := by
  have hl : (C ++ pre).length = C.length + pre.length := List.length_append _ _
  have hl2 : (pre ++ ser).length = pre.length + ser.length := List.length_append _ _
  rw [← List.append_assoc]
  refine ⟨by omega, h2, by omega, ?_, ?_⟩
  · intro i hi hne
    exact h4 i (by omega) hne
  · intro hlt
    exact h5 (by omega)

theorem serCont_nil_nil : serCont [] [] = [] := rfl

/-- The reserved-slot end state: the loop is already past the source with a
freshly flushed group, the stream is complete, and the pending code-byte
slot sits exactly at the stream's end. -/
theorem encSim_end (src : List Nat) (viewLen fuel : Nat) (st : EncState)
    (C pre : List Nat)
    (hsp : src.length ≤ st.srcPos)
    (hbm : st.bitmask = 0x80)
    (hdp : st.dstPos = C.length + pre.length)
    (hcbp : st.cbPos = C.length + pre.length)
    (hagree : ∀ i, i < (C ++ pre).length → st.dst i = (C ++ pre).getD i 0) :
    (encLoop src viewLen fuel st).dstPos = C.length + pre.length ∧
    (encLoop src viewLen fuel st).bitmask ≠ 0 ∧
    C.length ≤ (encLoop src viewLen fuel st).cbPos ∧
    (∀ i, i < C.length + pre.length → i ≠ (encLoop src viewLen fuel st).cbPos →
      (encLoop src viewLen fuel st).dst i = (C ++ pre).getD i 0) ∧
    ((encLoop src viewLen fuel st).cbPos < C.length + pre.length →
      (C ++ pre).getD (encLoop src viewLen fuel st).cbPos 0
        = (encLoop src viewLen fuel st).cb % 256) := by
  rw [encLoop_exit src viewLen fuel st hsp]
  have hl : (C ++ pre).length = C.length + pre.length := List.length_append _ _
  refine ⟨hdp, by rw [hbm]; norm_num, by omega, ?_, ?_⟩
  · intro i hi _
    exact hagree i (by omega)
  · intro hcl
    exact absurd hcl (by omega)

set_option maxHeartbeats 1000000 in
theorem encLoop_sim (src : List Nat) (viewLen : Nat)
    (hb : ∀ x ∈ src, x < 256) :
    ∀ (fuel : Nat) (st : EncState) (g : List Tok) (C : List Nat),
      LazyOk src st.toLazyState →
      st.srcPos ≤ src.length →
      src.length ≤ st.srcPos + fuel →
      (st.srcPos < src.length ∨ g ≠ []) →
      g.length < 8 →
      st.bitmask = 0x80 >>> g.length →
      st.cb = cbGo 0 0 g →
      st.cbPos = C.length →
      st.dstPos = C.length + 1 + (payloadOf g).length →
      (∀ i, i < C.length → st.dst i = C.getD i 0) →
      AgreeFrom st.dst (C.length + 1) (payloadOf g) →
      C.length + (serCont g (tokGen src fuel st.toLazyState)).length ≤ viewLen →
      (encLoop src viewLen fuel st).dstPos
          = C.length + (serCont g (tokGen src fuel st.toLazyState)).length ∧
      (encLoop src viewLen fuel st).bitmask ≠ 0 ∧
      C.length ≤ (encLoop src viewLen fuel st).cbPos ∧
      (∀ i, i < C.length + (serCont g (tokGen src fuel st.toLazyState)).length →
        i ≠ (encLoop src viewLen fuel st).cbPos →
        (encLoop src viewLen fuel st).dst i
          = (C ++ serCont g (tokGen src fuel st.toLazyState)).getD i 0) ∧
      ((encLoop src viewLen fuel st).cbPos
          < C.length + (serCont g (tokGen src fuel st.toLazyState)).length →
        (C ++ serCont g (tokGen src fuel st.toLazyState)).getD
            (encLoop src viewLen fuel st).cbPos 0
          = (encLoop src viewLen fuel st).cb % 256) := by
  intro fuel
  induction fuel with
  | zero =>
    intro st g C hok hle hfu hne h8 hbm hcb hcbp hdp hC hP hfit
    rw [encLoop_exit src viewLen 0 st (by omega), tokGen]
    exact encSim_stop src viewLen st g C
      (hne.resolve_left (by omega))
      h8 hbm hcb hcbp hdp hC hP
  | succ fuel ih =>
    intro st g C hok hle hfu hne h8 hbm hcb hcbp hdp hC hP hfit
    by_cases hp : st.srcPos < src.length
    · obtain ⟨hsp, hlt3, hge3⟩ := findBest_spec src hb st.toLazyState hok
      rw [tokGen, if_pos hp] at hfit ⊢
      dsimp only at hfit ⊢
      by_cases h3 : (findBest src st.toLazyState).1 < 3
      · rw [if_pos h3] at hfit ⊢
        rw [encLoop_step_lit src viewLen fuel st hp h3]
        rw [hsp] at hlt3 hfit ⊢
        rw [hdp, hcbp, hbm, hcb]
        have hplist : payloadOf (g ++ [Tok.lit (src.getD st.toLazyState.srcPos 0)])
            = payloadOf g ++ [src.getD st.toLazyState.srcPos 0 % 256] := by
          rw [payloadOf_append]
          rfl
        have hpl : (payloadOf (g ++ [Tok.lit (src.getD st.toLazyState.srcPos 0)])).length
            = (payloadOf g).length + 1 := by
          rw [hplist]; simp
        by_cases h7 : g.length = 7
        · rw [if_pos ((mask_shift _ h8).mpr h7)]
          rw [serCont_append_flush g _ _ h7] at hfit ⊢
          have hfit2 := hfit
          rw [List.length_append, List.length_cons, hpl] at hfit2
          rw [writeDst_lt viewLen st.dst (C.length + 1 + (payloadOf g).length) _ (by omega),
            writeDst_lt viewLen _ C.length _ (by omega)]
          have hcbv : (cbGo 0 0 g ||| 0x80 >>> g.length) % 256
              = cbGo 0 0 (g ++ [Tok.lit (src.getD st.toLazyState.srcPos 0)]) := by
            rw [cbGo_append_lit g 0 0, Nat.zero_add]
            refine Nat.mod_eq_of_lt ?_
            have h1 := cbGo_lt_256 (g ++ [Tok.lit (src.getD st.toLazyState.srcPos 0)]) 0 0 (by norm_num)
            rw [cbGo_append_lit g 0 0, Nat.zero_add] at h1
            exact h1
          rw [hcbv]
          have hC2 : ∀ i, i < (C ++ (cbGo 0 0 (g ++ [Tok.lit (src.getD st.toLazyState.srcPos 0)])
                :: payloadOf (g ++ [Tok.lit (src.getD st.toLazyState.srcPos 0)]))).length →
              updF (updF st.dst (C.length + 1 + (payloadOf g).length) (src.getD st.toLazyState.srcPos 0 % 256)) C.length
                  (cbGo 0 0 (g ++ [Tok.lit (src.getD st.toLazyState.srcPos 0)])) i
                = (C ++ (cbGo 0 0 (g ++ [Tok.lit (src.getD st.toLazyState.srcPos 0)])
                    :: payloadOf (g ++ [Tok.lit (src.getD st.toLazyState.srcPos 0)]))).getD i 0 := by
            apply agree_mergeC
            · intro i hi
              rw [updF_other _ _ _ _ (by omega), updF_other _ _ _ _ (by omega)]
              exact hC i hi
            · rw [updF_same]
            · rw [hplist]
              apply agree_updF_outside
              · intro i hi
                omega
              · exact agree_push st.dst (C.length + 1) (payloadOf g) _ hP
          by_cases hend : st.toLazyState.srcPos + 1 < src.length
          · rw [if_pos hend]
            obtain ⟨i1, i2, i3, i4, i5⟩ := ih
              ⟨{ srcPos := st.toLazyState.srcPos + 1, matchPosition := (findBest src st.toLazyState).2.matchPosition, mtch := (findBest src st.toLazyState).2.mtch, size := (findBest src st.toLazyState).2.size, flag := (findBest src st.toLazyState).2.flag },
               C.length + 1 + (payloadOf g).length + 2,
               C.length + 1 + (payloadOf g).length + 1,
               0x80, 0,
               updF (updF st.dst (C.length + 1 + (payloadOf g).length) (src.getD st.toLazyState.srcPos 0 % 256)) C.length
                 (cbGo 0 0 (g ++ [Tok.lit (src.getD st.toLazyState.srcPos 0)]))⟩
              []
              (C ++ (cbGo 0 0 (g ++ [Tok.lit (src.getD st.toLazyState.srcPos 0)]) :: payloadOf (g ++ [Tok.lit (src.getD st.toLazyState.srcPos 0)])))
              (hlt3 h3)
              (by dsimp only; omega)
              (by dsimp only; omega)
              (Or.inl (by dsimp only; exact hend))
              (by decide)
              rfl
              rfl
              (by dsimp only; rw [List.length_append, List.length_cons]; omega)
              (by dsimp only; rw [List.length_append, List.length_cons,
                payloadOf_nil, List.length_nil]; omega)
              hC2
              (by rw [payloadOf_nil]; exact agree_nil _ _)
              (by dsimp only; rw [List.length_append, List.length_cons]; omega)
            exact encSim_glue _ C _ _ i1 i2 i3 i4 i5
          · rw [if_neg hend]
            rw [tokGen_exit src fuel { srcPos := st.toLazyState.srcPos + 1, matchPosition := (findBest src st.toLazyState).2.matchPosition, mtch := (findBest src st.toLazyState).2.mtch, size := (findBest src st.toLazyState).2.size, flag := (findBest src st.toLazyState).2.flag } (by dsimp only; omega)] at hfit ⊢
            rw [serCont_nil_nil, List.append_nil] at hfit ⊢
            refine encSim_end src viewLen fuel _ C _ ?_ rfl ?_ ?_ ?_
            · dsimp only
              omega
            · dsimp only
              rw [List.length_cons]
              omega
            · dsimp only
              rw [List.length_cons]
              omega
            · intro i hi
              dsimp only
              exact hC2 i hi
        · rw [if_neg (fun hc => h7 ((mask_shift _ h8).mp hc))]
          rw [serCont_append_small g _ _ (by omega)] at hfit ⊢
          have hfit2 := serCont_length_ge (g ++ [Tok.lit (src.getD st.toLazyState.srcPos 0)])
            (tokGen src fuel { srcPos := st.toLazyState.srcPos + 1, matchPosition := (findBest src st.toLazyState).2.matchPosition, mtch := (findBest src st.toLazyState).2.mtch, size := (findBest src st.toLazyState).2.size, flag := (findBest src st.toLazyState).2.flag }) (by simp)
          rw [writeDst_lt viewLen st.dst (C.length + 1 + (payloadOf g).length) _ (by omega)]
          exact ih
            ⟨{ srcPos := st.toLazyState.srcPos + 1, matchPosition := (findBest src st.toLazyState).2.matchPosition, mtch := (findBest src st.toLazyState).2.mtch, size := (findBest src st.toLazyState).2.size, flag := (findBest src st.toLazyState).2.flag },
             C.length + 1 + (payloadOf g).length + 1,
             C.length,
             0x80 >>> g.length >>> 1,
             cbGo 0 0 g ||| 0x80 >>> g.length,
             updF st.dst (C.length + 1 + (payloadOf g).length) (src.getD st.toLazyState.srcPos 0 % 256)⟩
            (g ++ [Tok.lit (src.getD st.toLazyState.srcPos 0)])
            C
            (hlt3 h3)
            (by dsimp only; omega)
            (by dsimp only; omega)
            (Or.inr (by simp))
            (by rw [List.length_append, List.length_cons, List.length_nil]; omega)
            (by dsimp only; rw [← Nat.shiftRight_add]; congr 1; simp)
            (by dsimp only; rw [cbGo_append_lit g 0 0, Nat.zero_add])
            rfl
            (by dsimp only; omega)
            (by intro i hi
                dsimp only
                rw [updF_other _ _ _ _ (by omega)]
                exact hC i hi)
            (by dsimp only
                rw [hplist]
                exact agree_push st.dst (C.length + 1) (payloadOf g) _ hP)
            (by dsimp only; exact hfit)
      · rw [if_neg h3] at hfit ⊢
        obtain ⟨hfl0, h111, hlen, hm1, hdist, heqs⟩ := hge3 (by omega)
        by_cases h11 : (findBest src st.toLazyState).1 > 0x11
        · rw [if_pos h11] at hfit ⊢
          rw [encLoop_step_ref3 src viewLen fuel st (findBest src st.toLazyState).1
            hp h3 h11 (if_neg (by omega))]
          have hnc : ¬(findBest src st.toLazyState).1 > 0x111 := by omega
          rw [if_neg hnc] at hfit ⊢
          rw [hsp] at hfit ⊢
          rw [hdp, hcbp, hbm, hcb]
          have hplist3 : payloadOf (g ++ [Tok.ref (st.toLazyState.srcPos - (findBest src st.toLazyState).2.matchPosition - 1) (findBest src st.toLazyState).1])
              = payloadOf g ++ [((st.toLazyState.srcPos - (findBest src st.toLazyState).2.matchPosition - 1) >>> 8) % 256, ((st.toLazyState.srcPos - (findBest src st.toLazyState).2.matchPosition - 1) &&& 0xFF) % 256,
                  (((findBest src st.toLazyState).1 - 0x12) &&& 0xFF) % 256] := by
            rw [payloadOf_append, Tok.bytes, if_pos h11]
          have hpl3 : (payloadOf (g ++ [Tok.ref (st.toLazyState.srcPos - (findBest src st.toLazyState).2.matchPosition - 1) (findBest src st.toLazyState).1])).length
              = (payloadOf g).length + 3 := by
            rw [hplist3]; simp
          by_cases h7 : g.length = 7
          · rw [if_pos ((mask_shift _ h8).mpr h7)]
            rw [serCont_append_flush g _ _ h7] at hfit ⊢
            have hfit2 := hfit
            rw [List.length_append, List.length_cons, hpl3] at hfit2
            rw [writeDst_lt viewLen st.dst (C.length + 1 + (payloadOf g).length) _ (by omega),
              writeDst_lt viewLen _ (C.length + 1 + (payloadOf g).length + 1) _ (by omega),
              writeDst_lt viewLen _ (C.length + 1 + (payloadOf g).length + 2) _ (by omega),
              writeDst_lt viewLen _ C.length _ (by omega)]
            have hcbv3 : cbGo 0 0 g % 256 = cbGo 0 0 (g ++ [Tok.ref (st.toLazyState.srcPos - (findBest src st.toLazyState).2.matchPosition - 1) (findBest src st.toLazyState).1]) := by
              rw [cbGo_append_ref]
              exact Nat.mod_eq_of_lt (cbGo_lt_256 g 0 0 (by norm_num))
            rw [hcbv3]
            have hC2 : ∀ i, i < (C ++ (cbGo 0 0 (g ++ [Tok.ref (st.toLazyState.srcPos - (findBest src st.toLazyState).2.matchPosition - 1) (findBest src st.toLazyState).1])
                  :: payloadOf (g ++ [Tok.ref (st.toLazyState.srcPos - (findBest src st.toLazyState).2.matchPosition - 1) (findBest src st.toLazyState).1]))).length →
                updF (updF (updF (updF st.dst (C.length + 1 + (payloadOf g).length) (((st.toLazyState.srcPos - (findBest src st.toLazyState).2.matchPosition - 1) >>> 8) % 256))
                    (C.length + 1 + (payloadOf g).length + 1) (((st.toLazyState.srcPos - (findBest src st.toLazyState).2.matchPosition - 1) &&& 0xFF) % 256))
                    (C.length + 1 + (payloadOf g).length + 2) ((((findBest src st.toLazyState).1 - 0x12) &&& 0xFF) % 256))
                  C.length (cbGo 0 0 (g ++ [Tok.ref (st.toLazyState.srcPos - (findBest src st.toLazyState).2.matchPosition - 1) (findBest src st.toLazyState).1])) i
                  = (C ++ (cbGo 0 0 (g ++ [Tok.ref (st.toLazyState.srcPos - (findBest src st.toLazyState).2.matchPosition - 1) (findBest src st.toLazyState).1])
                      :: payloadOf (g ++ [Tok.ref (st.toLazyState.srcPos - (findBest src st.toLazyState).2.matchPosition - 1) (findBest src st.toLazyState).1]))).getD i 0 := by
              apply agree_mergeC
              · intro i hi
                rw [updF_other _ _ _ _ (by omega), updF_other _ _ _ _ (by omega),
                  updF_other _ _ _ _ (by omega), updF_other _ _ _ _ (by omega)]
                exact hC i hi
              · rw [updF_same]
              · rw [hplist3]
                apply agree_updF_outside
                · intro i hi
                  omega
                · exact agree_push3 st.dst (C.length + 1) (payloadOf g) _ _ _ hP
            by_cases hend : st.toLazyState.srcPos
                + (findBest src st.toLazyState).1 < src.length
            · rw [if_pos hend]
              obtain ⟨i1, i2, i3, i4, i5⟩ := ih
                ⟨{ srcPos := st.toLazyState.srcPos + (findBest src st.toLazyState).1, matchPosition := (findBest src st.toLazyState).2.matchPosition, mtch := (findBest src st.toLazyState).2.mtch, size := (findBest src st.toLazyState).2.size, flag := (findBest src st.toLazyState).2.flag },
                 C.length + 1 + (payloadOf g).length + 4,
                 C.length + 1 + (payloadOf g).length + 3,
                 0x80, 0,
                 updF (updF (updF (updF st.dst (C.length + 1 + (payloadOf g).length) (((st.toLazyState.srcPos - (findBest src st.toLazyState).2.matchPosition - 1) >>> 8) % 256))
                     (C.length + 1 + (payloadOf g).length + 1) (((st.toLazyState.srcPos - (findBest src st.toLazyState).2.matchPosition - 1) &&& 0xFF) % 256))
                     (C.length + 1 + (payloadOf g).length + 2) ((((findBest src st.toLazyState).1 - 0x12) &&& 0xFF) % 256))
                   C.length (cbGo 0 0 (g ++ [Tok.ref (st.toLazyState.srcPos - (findBest src st.toLazyState).2.matchPosition - 1) (findBest src st.toLazyState).1]))⟩
                []
                (C ++ (cbGo 0 0 (g ++ [Tok.ref (st.toLazyState.srcPos - (findBest src st.toLazyState).2.matchPosition - 1) (findBest src st.toLazyState).1]) :: payloadOf (g ++ [Tok.ref (st.toLazyState.srcPos - (findBest src st.toLazyState).2.matchPosition - 1) (findBest src st.toLazyState).1])))
                (by intro hc
                    dsimp only at hc
                    rw [hfl0] at hc
                    exact absurd hc (by norm_num))
                (by dsimp only; omega)
                (by dsimp only; omega)
                (Or.inl (by dsimp only; exact hend))
                (by decide)
                rfl
                rfl
                (by dsimp only; rw [List.length_append, List.length_cons]; omega)
                (by dsimp only; rw [List.length_append, List.length_cons,
                  payloadOf_nil, List.length_nil]; omega)
                hC2
                (by rw [payloadOf_nil]; exact agree_nil _ _)
                (by dsimp only; rw [List.length_append, List.length_cons]; omega)
              exact encSim_glue _ C _ _ i1 i2 i3 i4 i5
            · rw [if_neg hend]
              rw [tokGen_exit src fuel { srcPos := st.toLazyState.srcPos + (findBest src st.toLazyState).1, matchPosition := (findBest src st.toLazyState).2.matchPosition, mtch := (findBest src st.toLazyState).2.mtch, size := (findBest src st.toLazyState).2.size, flag := (findBest src st.toLazyState).2.flag }
                (by dsimp only; omega)] at hfit ⊢
              rw [serCont_nil_nil, List.append_nil] at hfit ⊢
              refine encSim_end src viewLen fuel _ C _ ?_ rfl ?_ ?_ ?_
              · dsimp only
                omega
              · dsimp only
                rw [List.length_cons]
                omega
              · dsimp only
                rw [List.length_cons]
                omega
              · intro i hi
                dsimp only
                exact hC2 i hi
          · rw [if_neg (fun hc => h7 ((mask_shift _ h8).mp hc))]
            rw [serCont_append_small g _ _ (by omega)] at hfit ⊢
            have hfit2 := serCont_length_ge (g ++ [Tok.ref (st.toLazyState.srcPos - (findBest src st.toLazyState).2.matchPosition - 1) (findBest src st.toLazyState).1])
              (tokGen src fuel { srcPos := st.toLazyState.srcPos + (findBest src st.toLazyState).1, matchPosition := (findBest src st.toLazyState).2.matchPosition, mtch := (findBest src st.toLazyState).2.mtch, size := (findBest src st.toLazyState).2.size, flag := (findBest src st.toLazyState).2.flag })
              (by simp)
            rw [writeDst_lt viewLen st.dst (C.length + 1 + (payloadOf g).length) _ (by omega),
              writeDst_lt viewLen _ (C.length + 1 + (payloadOf g).length + 1) _ (by omega),
              writeDst_lt viewLen _ (C.length + 1 + (payloadOf g).length + 2) _ (by omega)]
            exact ih
              ⟨{ srcPos := st.toLazyState.srcPos + (findBest src st.toLazyState).1, matchPosition := (findBest src st.toLazyState).2.matchPosition, mtch := (findBest src st.toLazyState).2.mtch, size := (findBest src st.toLazyState).2.size, flag := (findBest src st.toLazyState).2.flag },
               C.length + 1 + (payloadOf g).length + 3,
               C.length,
               0x80 >>> g.length >>> 1,
               cbGo 0 0 g,
               updF (updF (updF st.dst (C.length + 1 + (payloadOf g).length) (((st.toLazyState.srcPos - (findBest src st.toLazyState).2.matchPosition - 1) >>> 8) % 256))
                 (C.length + 1 + (payloadOf g).length + 1) (((st.toLazyState.srcPos - (findBest src st.toLazyState).2.matchPosition - 1) &&& 0xFF) % 256))
                 (C.length + 1 + (payloadOf g).length + 2) ((((findBest src st.toLazyState).1 - 0x12) &&& 0xFF) % 256)⟩
              (g ++ [Tok.ref (st.toLazyState.srcPos - (findBest src st.toLazyState).2.matchPosition - 1) (findBest src st.toLazyState).1])
              C
              (by intro hc
                  dsimp only at hc
                  rw [hfl0] at hc
                  exact absurd hc (by norm_num))
              (by dsimp only; omega)
              (by dsimp only; omega)
              (Or.inr (by simp))
              (by rw [List.length_append, List.length_cons, List.length_nil]; omega)
              (by dsimp only; rw [← Nat.shiftRight_add]; congr 1; simp)
              (by dsimp only; rw [cbGo_append_ref])
              rfl
              (by dsimp only; omega)
              (by intro i hi
                  dsimp only
                  rw [updF_other _ _ _ _ (by omega), updF_other _ _ _ _ (by omega),
                    updF_other _ _ _ _ (by omega)]
                  exact hC i hi)
              (by dsimp only
                  rw [hplist3]
                  exact agree_push3 st.dst (C.length + 1) (payloadOf g) _ _ _ hP)
              (by dsimp only; exact hfit)
        · rw [if_neg h11] at hfit ⊢
          rw [encLoop_step_ref2 src viewLen fuel st hp h3 h11]
          rw [hsp] at hfit ⊢
          rw [hdp, hcbp, hbm, hcb]
          have hplist2 : payloadOf (g ++ [Tok.ref (st.toLazyState.srcPos - (findBest src st.toLazyState).2.matchPosition - 1) (findBest src st.toLazyState).1])
              = payloadOf g ++ [((((findBest src st.toLazyState).1 - 2) <<< 4) ||| ((st.toLazyState.srcPos - (findBest src st.toLazyState).2.matchPosition - 1) >>> 8)) % 256,
                  ((st.toLazyState.srcPos - (findBest src st.toLazyState).2.matchPosition - 1) &&& 0xFF) % 256] := by
            rw [payloadOf_append, Tok.bytes, if_neg h11]
          have hpl2 : (payloadOf (g ++ [Tok.ref (st.toLazyState.srcPos - (findBest src st.toLazyState).2.matchPosition - 1) (findBest src st.toLazyState).1])).length
              = (payloadOf g).length + 2 := by
            rw [hplist2]; simp
          by_cases h7 : g.length = 7
          · rw [if_pos ((mask_shift _ h8).mpr h7)]
            rw [serCont_append_flush g _ _ h7] at hfit ⊢
            have hfit2 := hfit
            rw [List.length_append, List.length_cons, hpl2] at hfit2
            rw [writeDst_lt viewLen st.dst (C.length + 1 + (payloadOf g).length) _ (by omega),
              writeDst_lt viewLen _ (C.length + 1 + (payloadOf g).length + 1) _ (by omega),
              writeDst_lt viewLen _ C.length _ (by omega)]
            have hcbv2 : cbGo 0 0 g % 256 = cbGo 0 0 (g ++ [Tok.ref (st.toLazyState.srcPos - (findBest src st.toLazyState).2.matchPosition - 1) (findBest src st.toLazyState).1]) := by
              rw [cbGo_append_ref]
              exact Nat.mod_eq_of_lt (cbGo_lt_256 g 0 0 (by norm_num))
            rw [hcbv2]
            have hC2 : ∀ i, i < (C ++ (cbGo 0 0 (g ++ [Tok.ref (st.toLazyState.srcPos - (findBest src st.toLazyState).2.matchPosition - 1) (findBest src st.toLazyState).1])
                  :: payloadOf (g ++ [Tok.ref (st.toLazyState.srcPos - (findBest src st.toLazyState).2.matchPosition - 1) (findBest src st.toLazyState).1]))).length →
                updF (updF (updF st.dst (C.length + 1 + (payloadOf g).length)
                      (((((findBest src st.toLazyState).1 - 2) <<< 4) ||| ((st.toLazyState.srcPos - (findBest src st.toLazyState).2.matchPosition - 1) >>> 8)) % 256))
                    (C.length + 1 + (payloadOf g).length + 1) (((st.toLazyState.srcPos - (findBest src st.toLazyState).2.matchPosition - 1) &&& 0xFF) % 256))
                  C.length (cbGo 0 0 (g ++ [Tok.ref (st.toLazyState.srcPos - (findBest src st.toLazyState).2.matchPosition - 1) (findBest src st.toLazyState).1])) i
                  = (C ++ (cbGo 0 0 (g ++ [Tok.ref (st.toLazyState.srcPos - (findBest src st.toLazyState).2.matchPosition - 1) (findBest src st.toLazyState).1])
                      :: payloadOf (g ++ [Tok.ref (st.toLazyState.srcPos - (findBest src st.toLazyState).2.matchPosition - 1) (findBest src st.toLazyState).1]))).getD i 0 := by
              apply agree_mergeC
              · intro i hi
                rw [updF_other _ _ _ _ (by omega), updF_other _ _ _ _ (by omega),
                  updF_other _ _ _ _ (by omega)]
                exact hC i hi
              · rw [updF_same]
              · rw [hplist2]
                apply agree_updF_outside
                · intro i hi
                  omega
                · exact agree_push2 st.dst (C.length + 1) (payloadOf g) _ _ hP
            by_cases hend : st.toLazyState.srcPos
                + (findBest src st.toLazyState).1 < src.length
            · rw [if_pos hend]
              obtain ⟨i1, i2, i3, i4, i5⟩ := ih
                ⟨{ srcPos := st.toLazyState.srcPos + (findBest src st.toLazyState).1, matchPosition := (findBest src st.toLazyState).2.matchPosition, mtch := (findBest src st.toLazyState).2.mtch, size := (findBest src st.toLazyState).2.size, flag := (findBest src st.toLazyState).2.flag },
                 C.length + 1 + (payloadOf g).length + 3,
                 C.length + 1 + (payloadOf g).length + 2,
                 0x80, 0,
                 updF (updF (updF st.dst (C.length + 1 + (payloadOf g).length)
                       (((((findBest src st.toLazyState).1 - 2) <<< 4) ||| ((st.toLazyState.srcPos - (findBest src st.toLazyState).2.matchPosition - 1) >>> 8)) % 256))
                     (C.length + 1 + (payloadOf g).length + 1) (((st.toLazyState.srcPos - (findBest src st.toLazyState).2.matchPosition - 1) &&& 0xFF) % 256))
                   C.length (cbGo 0 0 (g ++ [Tok.ref (st.toLazyState.srcPos - (findBest src st.toLazyState).2.matchPosition - 1) (findBest src st.toLazyState).1]))⟩
                []
                (C ++ (cbGo 0 0 (g ++ [Tok.ref (st.toLazyState.srcPos - (findBest src st.toLazyState).2.matchPosition - 1) (findBest src st.toLazyState).1]) :: payloadOf (g ++ [Tok.ref (st.toLazyState.srcPos - (findBest src st.toLazyState).2.matchPosition - 1) (findBest src st.toLazyState).1])))
                (by intro hc
                    dsimp only at hc
                    rw [hfl0] at hc
                    exact absurd hc (by norm_num))
                (by dsimp only; omega)
                (by dsimp only; omega)
                (Or.inl (by dsimp only; exact hend))
                (by decide)
                rfl
                rfl
                (by dsimp only; rw [List.length_append, List.length_cons]; omega)
                (by dsimp only; rw [List.length_append, List.length_cons,
                  payloadOf_nil, List.length_nil]; omega)
                hC2
                (by rw [payloadOf_nil]; exact agree_nil _ _)
                (by dsimp only; rw [List.length_append, List.length_cons]; omega)
              exact encSim_glue _ C _ _ i1 i2 i3 i4 i5
            · rw [if_neg hend]
              rw [tokGen_exit src fuel { srcPos := st.toLazyState.srcPos + (findBest src st.toLazyState).1, matchPosition := (findBest src st.toLazyState).2.matchPosition, mtch := (findBest src st.toLazyState).2.mtch, size := (findBest src st.toLazyState).2.size, flag := (findBest src st.toLazyState).2.flag }
                (by dsimp only; omega)] at hfit ⊢
              rw [serCont_nil_nil, List.append_nil] at hfit ⊢
              refine encSim_end src viewLen fuel _ C _ ?_ rfl ?_ ?_ ?_
              · dsimp only
                omega
              · dsimp only
                rw [List.length_cons]
                omega
              · dsimp only
                rw [List.length_cons]
                omega
              · intro i hi
                dsimp only
                exact hC2 i hi
          · rw [if_neg (fun hc => h7 ((mask_shift _ h8).mp hc))]
            rw [serCont_append_small g _ _ (by omega)] at hfit ⊢
            have hfit2 := serCont_length_ge (g ++ [Tok.ref (st.toLazyState.srcPos - (findBest src st.toLazyState).2.matchPosition - 1) (findBest src st.toLazyState).1])
              (tokGen src fuel { srcPos := st.toLazyState.srcPos + (findBest src st.toLazyState).1, matchPosition := (findBest src st.toLazyState).2.matchPosition, mtch := (findBest src st.toLazyState).2.mtch, size := (findBest src st.toLazyState).2.size, flag := (findBest src st.toLazyState).2.flag })
              (by simp)
            rw [writeDst_lt viewLen st.dst (C.length + 1 + (payloadOf g).length) _ (by omega),
              writeDst_lt viewLen _ (C.length + 1 + (payloadOf g).length + 1) _ (by omega)]
            exact ih
              ⟨{ srcPos := st.toLazyState.srcPos + (findBest src st.toLazyState).1, matchPosition := (findBest src st.toLazyState).2.matchPosition, mtch := (findBest src st.toLazyState).2.mtch, size := (findBest src st.toLazyState).2.size, flag := (findBest src st.toLazyState).2.flag },
               C.length + 1 + (payloadOf g).length + 2,
               C.length,
               0x80 >>> g.length >>> 1,
               cbGo 0 0 g,
               updF (updF st.dst (C.length + 1 + (payloadOf g).length)
                   (((((findBest src st.toLazyState).1 - 2) <<< 4) ||| ((st.toLazyState.srcPos - (findBest src st.toLazyState).2.matchPosition - 1) >>> 8)) % 256))
                 (C.length + 1 + (payloadOf g).length + 1) (((st.toLazyState.srcPos - (findBest src st.toLazyState).2.matchPosition - 1) &&& 0xFF) % 256)⟩
              (g ++ [Tok.ref (st.toLazyState.srcPos - (findBest src st.toLazyState).2.matchPosition - 1) (findBest src st.toLazyState).1])
              C
              (by intro hc
                  dsimp only at hc
                  rw [hfl0] at hc
                  exact absurd hc (by norm_num))
              (by dsimp only; omega)
              (by dsimp only; omega)
              (Or.inr (by simp))
              (by rw [List.length_append, List.length_cons, List.length_nil]; omega)
              (by dsimp only; rw [← Nat.shiftRight_add]; congr 1; simp)
              (by dsimp only; rw [cbGo_append_ref])
              rfl
              (by dsimp only; omega)
              (by intro i hi
                  dsimp only
                  rw [updF_other _ _ _ _ (by omega), updF_other _ _ _ _ (by omega)]
                  exact hC i hi)
              (by dsimp only
                  rw [hplist2]
                  exact agree_push2 st.dst (C.length + 1) (payloadOf g) _ _ hP)
              (by dsimp only; exact hfit)
    · rw [encLoop_exit src viewLen (fuel+1) st (by omega),
        tokGen_exit src (fuel+1) st.toLazyState (by omega)]
      exact encSim_stop src viewLen st g C
        (hne.resolve_left (by omega))
        h8 hbm hcb hcbp hdp hC hP

/-- Position bookkeeping of the encoder loop, independent of the view
length: the final `dstPos` is the length of the serialized token stream
(plus the already-completed prefix), whether or not the stores landed. -/
theorem encLoop_pos (src : List Nat) (viewLen : Nat)
    (hb : ∀ x ∈ src, x < 256) :
    ∀ (fuel : Nat) (st : EncState) (g : List Tok) (B : Nat),
      LazyOk src st.toLazyState →
      st.srcPos ≤ src.length →
      src.length ≤ st.srcPos + fuel →
      (st.srcPos < src.length ∨ g ≠ []) →
      g.length < 8 →
      st.bitmask = 0x80 >>> g.length →
      st.dstPos = B + 1 + (payloadOf g).length →
      (encLoop src viewLen fuel st).dstPos
        = B + (serCont g (tokGen src fuel st.toLazyState)).length := by
  intro fuel
  induction fuel with
  | zero =>
    intro st g B hok hle hfu hne h8 hbm hdp
    rw [encLoop_exit src viewLen 0 st (by omega), tokGen,
      serCont_nil_right g (hne.resolve_left (by omega)), List.length_cons]
    omega
  | succ fuel ih =>
    intro st g B hok hle hfu hne h8 hbm hdp
    by_cases hp : st.srcPos < src.length
    · obtain ⟨hsp, hlt3, hge3⟩ := findBest_spec src hb st.toLazyState hok
      rw [tokGen, if_pos hp]
      dsimp only
      by_cases h3 : (findBest src st.toLazyState).1 < 3
      · rw [if_pos h3]
        rw [encLoop_step_lit src viewLen fuel st hp h3]
        rw [hsp] at hlt3 ⊢
        rw [hdp, hbm]
        have hpl : (payloadOf (g ++ [Tok.lit (src.getD st.toLazyState.srcPos 0)])).length
            = (payloadOf g).length + 1 := by
          rw [payloadOf_append]
          simp [Tok.bytes]
        by_cases h7 : g.length = 7
        · rw [if_pos ((mask_shift _ h8).mpr h7)]
          rw [serCont_append_flush g _ _ h7, List.length_append, List.length_cons, hpl]
          by_cases hend : st.toLazyState.srcPos + 1 < src.length
          · rw [if_pos hend]
            rw [ih ⟨{ srcPos := st.toLazyState.srcPos + 1, matchPosition := (findBest src st.toLazyState).2.matchPosition, mtch := (findBest src st.toLazyState).2.mtch, size := (findBest src st.toLazyState).2.size, flag := (findBest src st.toLazyState).2.flag },
                B + 1 + (payloadOf g).length + 2, B + 1 + (payloadOf g).length + 1, 0x80, 0, _⟩
              [] (B + (payloadOf g).length + 2)
              (hlt3 h3) (by dsimp only; omega) (by dsimp only; omega)
              (Or.inl (by dsimp only; exact hend))
              (by decide) rfl
              (by dsimp only; rw [payloadOf_nil, List.length_nil]; omega)]
            dsimp only
            omega
          · rw [if_neg hend]
            rw [tokGen_exit src fuel { srcPos := st.toLazyState.srcPos + 1, matchPosition := (findBest src st.toLazyState).2.matchPosition, mtch := (findBest src st.toLazyState).2.mtch, size := (findBest src st.toLazyState).2.size, flag := (findBest src st.toLazyState).2.flag } (by dsimp only; omega),
              serCont_nil_nil, List.length_nil]
            rw [encLoop_exit src viewLen fuel _ (by dsimp only; omega)]
            dsimp only
            omega
        · rw [if_neg (fun hc => h7 ((mask_shift _ h8).mp hc))]
          rw [serCont_append_small g _ _ (by omega)]
          rw [ih ⟨{ srcPos := st.toLazyState.srcPos + 1, matchPosition := (findBest src st.toLazyState).2.matchPosition, mtch := (findBest src st.toLazyState).2.mtch, size := (findBest src st.toLazyState).2.size, flag := (findBest src st.toLazyState).2.flag },
              B + 1 + (payloadOf g).length + 1, st.cbPos, 0x80 >>> g.length >>> 1,
              st.cb ||| (0x80 >>> g.length), _⟩
            (g ++ [Tok.lit (src.getD st.toLazyState.srcPos 0)]) B
            (hlt3 h3) (by dsimp only; omega) (by dsimp only; omega)
            (Or.inr (by simp))
            (by rw [List.length_append, List.length_cons, List.length_nil]; omega)
            (by dsimp only; rw [← Nat.shiftRight_add]; congr 1; simp)
            (by dsimp only; omega)]
      · rw [if_neg h3]
        obtain ⟨hfl0, h111, hlen, hm1, hdist, heqs⟩ := hge3 (by omega)
        by_cases h11 : (findBest src st.toLazyState).1 > 0x11
        · rw [if_pos h11]
          rw [encLoop_step_ref3 src viewLen fuel st (findBest src st.toLazyState).1
            hp h3 h11 (if_neg (by omega))]
          have hnc : ¬(findBest src st.toLazyState).1 > 0x111 := by omega
          rw [if_neg hnc]
          rw [hsp, hdp, hbm]
          have hpl3 : (payloadOf (g ++ [Tok.ref
              (st.toLazyState.srcPos - (findBest src st.toLazyState).2.matchPosition - 1)
              (findBest src st.toLazyState).1])).length
              = (payloadOf g).length + 3 := by
            rw [payloadOf_append, Tok.bytes, if_pos h11]
            simp
          by_cases h7 : g.length = 7
          · rw [if_pos ((mask_shift _ h8).mpr h7)]
            rw [serCont_append_flush g _ _ h7, List.length_append, List.length_cons, hpl3]
            by_cases hend : st.toLazyState.srcPos
                + (findBest src st.toLazyState).1 < src.length
            · rw [if_pos hend]
              rw [ih ⟨{ srcPos := st.toLazyState.srcPos + (findBest src st.toLazyState).1, matchPosition := (findBest src st.toLazyState).2.matchPosition, mtch := (findBest src st.toLazyState).2.mtch, size := (findBest src st.toLazyState).2.size, flag := (findBest src st.toLazyState).2.flag },
                  B + 1 + (payloadOf g).length + 4, B + 1 + (payloadOf g).length + 3, 0x80, 0, _⟩
                [] (B + (payloadOf g).length + 4)
                (by intro hc
                    dsimp only at hc
                    rw [hfl0] at hc
                    exact absurd hc (by norm_num))
                (by dsimp only; omega) (by dsimp only; omega)
                (Or.inl (by dsimp only; exact hend))
                (by decide) rfl
                (by dsimp only; rw [payloadOf_nil, List.length_nil]; omega)]
              dsimp only
              omega
            · rw [if_neg hend]
              rw [tokGen_exit src fuel { srcPos := st.toLazyState.srcPos + (findBest src st.toLazyState).1, matchPosition := (findBest src st.toLazyState).2.matchPosition, mtch := (findBest src st.toLazyState).2.mtch, size := (findBest src st.toLazyState).2.size, flag := (findBest src st.toLazyState).2.flag } (by dsimp only; omega),
                serCont_nil_nil, List.length_nil]
              rw [encLoop_exit src viewLen fuel _ (by dsimp only; omega)]
              dsimp only
              omega
          · rw [if_neg (fun hc => h7 ((mask_shift _ h8).mp hc))]
            rw [serCont_append_small g _ _ (by omega)]
            rw [ih ⟨{ srcPos := st.toLazyState.srcPos + (findBest src st.toLazyState).1, matchPosition := (findBest src st.toLazyState).2.matchPosition, mtch := (findBest src st.toLazyState).2.mtch, size := (findBest src st.toLazyState).2.size, flag := (findBest src st.toLazyState).2.flag },
                B + 1 + (payloadOf g).length + 3, st.cbPos, 0x80 >>> g.length >>> 1, st.cb, _⟩
              (g ++ [Tok.ref
                (st.toLazyState.srcPos - (findBest src st.toLazyState).2.matchPosition - 1)
                (findBest src st.toLazyState).1]) B
              (by intro hc
                  dsimp only at hc
                  rw [hfl0] at hc
                  exact absurd hc (by norm_num))
              (by dsimp only; omega) (by dsimp only; omega)
              (Or.inr (by simp))
              (by rw [List.length_append, List.length_cons, List.length_nil]; omega)
              (by dsimp only; rw [← Nat.shiftRight_add]; congr 1; simp)
              (by dsimp only; omega)]
        · rw [if_neg h11]
          rw [encLoop_step_ref2 src viewLen fuel st hp h3 h11]
          rw [hsp, hdp, hbm]
          have hpl2 : (payloadOf (g ++ [Tok.ref
              (st.toLazyState.srcPos - (findBest src st.toLazyState).2.matchPosition - 1)
              (findBest src st.toLazyState).1])).length
              = (payloadOf g).length + 2 := by
            rw [payloadOf_append, Tok.bytes, if_neg h11]
            simp
          by_cases h7 : g.length = 7
          · rw [if_pos ((mask_shift _ h8).mpr h7)]
            rw [serCont_append_flush g _ _ h7, List.length_append, List.length_cons, hpl2]
            by_cases hend : st.toLazyState.srcPos
                + (findBest src st.toLazyState).1 < src.length
            · rw [if_pos hend]
              rw [ih ⟨{ srcPos := st.toLazyState.srcPos + (findBest src st.toLazyState).1, matchPosition := (findBest src st.toLazyState).2.matchPosition, mtch := (findBest src st.toLazyState).2.mtch, size := (findBest src st.toLazyState).2.size, flag := (findBest src st.toLazyState).2.flag },
                  B + 1 + (payloadOf g).length + 3, B + 1 + (payloadOf g).length + 2, 0x80, 0, _⟩
                [] (B + (payloadOf g).length + 3)
                (by intro hc
                    dsimp only at hc
                    rw [hfl0] at hc
                    exact absurd hc (by norm_num))
                (by dsimp only; omega) (by dsimp only; omega)
                (Or.inl (by dsimp only; exact hend))
                (by decide) rfl
                (by dsimp only; rw [payloadOf_nil, List.length_nil]; omega)]
              dsimp only
              omega
            · rw [if_neg hend]
              rw [tokGen_exit src fuel { srcPos := st.toLazyState.srcPos + (findBest src st.toLazyState).1, matchPosition := (findBest src st.toLazyState).2.matchPosition, mtch := (findBest src st.toLazyState).2.mtch, size := (findBest src st.toLazyState).2.size, flag := (findBest src st.toLazyState).2.flag } (by dsimp only; omega),
                serCont_nil_nil, List.length_nil]
              rw [encLoop_exit src viewLen fuel _ (by dsimp only; omega)]
              dsimp only
              omega
          · rw [if_neg (fun hc => h7 ((mask_shift _ h8).mp hc))]
            rw [serCont_append_small g _ _ (by omega)]
            rw [ih ⟨{ srcPos := st.toLazyState.srcPos + (findBest src st.toLazyState).1, matchPosition := (findBest src st.toLazyState).2.matchPosition, mtch := (findBest src st.toLazyState).2.mtch, size := (findBest src st.toLazyState).2.size, flag := (findBest src st.toLazyState).2.flag },
                B + 1 + (payloadOf g).length + 2, st.cbPos, 0x80 >>> g.length >>> 1, st.cb, _⟩
              (g ++ [Tok.ref
                (st.toLazyState.srcPos - (findBest src st.toLazyState).2.matchPosition - 1)
                (findBest src st.toLazyState).1]) B
              (by intro hc
                  dsimp only at hc
                  rw [hfl0] at hc
                  exact absurd hc (by norm_num))
              (by dsimp only; omega) (by dsimp only; omega)
              (Or.inr (by simp))
              (by rw [List.length_append, List.length_cons, List.length_nil]; omega)
              (by dsimp only; rw [← Nat.shiftRight_add]; congr 1; simp)
              (by dsimp only; omega)]
    · rw [encLoop_exit src viewLen (fuel+1) st (by omega),
        tokGen_exit src (fuel+1) st.toLazyState (by omega),
        serCont_nil_right g (hne.resolve_left (by omega)), List.length_cons]
      omega

/-- A state already at (or past) the destination size returns at once. -/
theorem decLoop_stop (src : Nat → Option Nat) (size fuel : Nat) (st : DecState)
    (h : size ≤ st.dstPos) : decLoop src size fuel st = some st := by
  cases fuel <;> · unfold decLoop; rw [if_neg (by omega)]

/-- Whether a token is a literal (the group bit the encoder sets). -/
def Tok.isLit : Tok → Bool
  | .lit _ => true
  | .ref _ _ => false

theorem h80pow (j : Nat) (hj : j ≤ 7) : (0x80 : Nat) >>> j = 2 ^ (7 - j) := by
  interval_cases j <;> rfl

/-- `cbGo` only sets bits at the positions of its own tokens. -/
theorem cbGo_testBit_out : ∀ (G : List Tok) (cb j k : Nat), j + G.length ≤ 8 →
    (∀ i, i < G.length → k ≠ 7 - (j + i)) →
    (cbGo cb j G).testBit k = cb.testBit k := by
  intro G
  induction G with
  | nil => intro cb j k _ _; rfl
  | cons t G ih =>
    intro cb j k hle hk
    cases t with
    | lit b =>
      rw [cbGo]
      rw [ih (cb ||| 0x80 >>> j) (j+1) k
        (by simp only [List.length_cons] at hle; omega)
        (by intro i hi
            have := hk (i+1) (by simp only [List.length_cons]; omega)
            omega)]
      rw [Nat.testBit_or, h80pow j (by simp only [List.length_cons] at hle; omega),
        Nat.testBit_two_pow_of_ne
          (by have := hk 0 (by simp only [List.length_cons]; omega); omega)]
      simp
    | ref d l =>
      rw [cbGo]
      exact ih cb (j+1) k (by simp only [List.length_cons] at hle; omega)
        (by intro i hi
            have := hk (i+1) (by simp only [List.length_cons]; omega)
            omega)

/-- The group-word bit at a token's position records whether that token is
a literal. -/
theorem cbGo_testBit_split : ∀ (D : List Tok) (t : Tok) (R : List Tok) (cb j : Nat),
    j + D.length + R.length < 8 →
    cb.testBit (7 - (j + D.length)) = false →
    (cbGo cb j (D ++ t :: R)).testBit (7 - (j + D.length)) = t.isLit := by
  intro D
  induction D with
  | nil =>
    intro t R cb j hle hcb
    simp only [List.nil_append, List.length_nil, Nat.add_zero] at hle hcb ⊢
    cases t with
    | lit b =>
      rw [cbGo]
      rw [cbGo_testBit_out R _ (j+1) (7-j) (by omega) (by intro i hi; omega)]
      rw [Nat.testBit_or, h80pow j (by omega), hcb]
      simp [Tok.isLit]
    | ref d l =>
      rw [cbGo]
      rw [cbGo_testBit_out R cb (j+1) (7-j) (by omega) (by intro i hi; omega)]
      rw [hcb]
      rfl
  | cons d0 D ih =>
    intro t R cb j hle hcb
    have hidx : 7 - (j + (d0 :: D).length) = 7 - ((j + 1) + D.length) := by
      simp only [List.length_cons]
      omega
    rw [hidx] at hcb ⊢
    cases d0 with
    | lit b =>
      rw [List.cons_append, cbGo]
      refine ih t R (cb ||| 0x80 >>> j) (j+1)
        (by simp only [List.length_cons] at hle; omega) ?_
      rw [Nat.testBit_or, h80pow j (by simp only [List.length_cons] at hle; omega),
        Nat.testBit_two_pow_of_ne
          (by simp only [List.length_cons] at hle; omega), hcb]
      rfl
    | ref dd ll =>
      rw [List.cons_append, cbGo]
      exact ih t R cb (j+1) (by simp only [List.length_cons] at hle; omega) hcb

theorem and80_testBit (x : Nat) : (x &&& 0x80 ≠ 0) ↔ x.testBit 7 := by
  rw [(by norm_num : (0x80 : Nat) = 2^7), Nat.and_two_pow]
  cases h : x.testBit 7 <;> simp

theorem shl_testBit7 (x j : Nat) (hj : j ≤ 7) :
    (x <<< j).testBit 7 = x.testBit (7 - j) := by
  rw [Nat.testBit_shiftLeft]
  simp [hj]

/-- The stream bytes still ahead of the decoder inside the current group:
the group's remaining payload, then the serialized later groups. -/
def serMid (g ts : List Tok) : List Nat :=
  payloadOf (ts.take (8 - g.length)) ++ serFrom ts.length (ts.drop (8 - g.length))

theorem serMid_nil (g : List Tok) : serMid g [] = [] := by
  rw [serMid]
  simp [payloadOf_nil, serFrom]

theorem serCont_nil_eq (ts : List Tok) (h : ts ≠ []) :
    serCont [] ts = cbGo 0 0 (ts.take 8) :: serMid [] ts := by
  rw [serCont, if_neg (by simp [h])]
  simp [serMid, payloadOf_nil]

theorem serMid_cons (g : List Tok) (t : Tok) (ts : List Tok) (hg : g.length < 7) :
    serMid g (t :: ts) = t.bytes ++ serMid (g ++ [t]) ts := by
  rw [serMid, serMid]
  have h8 : 8 - g.length = (7 - g.length) + 1 := by omega
  have h8a : 8 - (g ++ [t]).length = 7 - g.length := by
    simp only [List.length_append, List.length_cons, List.length_nil]
    omega
  rw [h8, h8a, List.take_succ_cons, List.drop_succ_cons, payloadOf_cons]
  rw [serFrom_congr (t :: ts).length ts.length (ts.drop (7 - g.length))
    (by rw [List.length_drop]; simp; omega)
    (by rw [List.length_drop]; omega)]
  rw [List.append_assoc]

theorem serMid_last (g : List Tok) (t : Tok) (ts : List Tok) (hg : g.length = 7) :
    serMid g (t :: ts) = t.bytes ++ serCont [] ts := by
  rw [serMid, hg, (by norm_num : (8:Nat) - 7 = 0 + 1), List.take_succ_cons,
    List.drop_succ_cons]
  simp only [List.take_zero, List.drop_zero]
  rw [← serFrom_eq_serCont (t :: ts).length ts (by simp), payloadOf_cons,
    payloadOf_nil, List.append_nil]

/-- The sequential back-reference copy reproduces the source bytes, the
self-referential overlap included. -/
theorem copyRun_agree (srcB : List Nat) (hb : ∀ x ∈ srcB, x < 256) :
    ∀ (n : Nat) (dst : Nat → Nat) (p c : Nat),
      c < p →
      (∀ j, j < p → dst j = srcB.getD j 0) →
      (∀ u, u < n → srcB.getD (c + u) 0 = srcB.getD (p + u) 0) →
      ∀ j, j < p + n → (copyRun dst p ((c : Nat) : Int) n).1 j = srcB.getD j 0 := by
  intro n
  induction n with
  | zero =>
    intro dst p c hcp hag hmatch j hj
    exact hag j (by omega)
  | succ m ih =>
    intro dst p c hcp hag hmatch j hj
    rw [copyRun]
    rw [if_neg (by omega : ¬((c : Int) < 0)), Int.toNat_natCast,
      (by push_cast; ring : (c : Int) + 1 = ((c + 1 : Nat) : Int))]
    rw [hag c (by omega),
      Nat.mod_eq_of_lt (getD_lt_256 srcB hb c)]
    refine ih (updF dst p (srcB.getD c 0)) (p+1) (c+1) (by omega) ?_ ?_ j (by omega)
    · intro j2 hj2
      rcases Nat.lt_or_ge j2 p with h2 | h2
      · rw [updF_other _ _ _ _ (by omega)]
        exact hag j2 h2
      · have hj2p : j2 = p := by omega
        subst hj2p
        rw [updF_same]
        have hm0 := hmatch 0 (by omega)
        rw [Nat.add_zero, Nat.add_zero] at hm0
        exact hm0
    · intro u hu
      have hmu := hmatch (u+1) (by omega)
      rw [(by omega : c + (u+1) = c + 1 + u),
        (by omega : p + (u+1) = p + 1 + u)] at hmu
      exact hmu

/-- Arithmetic facts about a two-byte (short) back-reference record. -/
theorem refShort_facts (d l : Nat) (hd : d ≤ 0xFFF) (hl3 : 3 ≤ l) (hl : l ≤ 0x11) :
    (((l - 2) <<< 4) ||| (d >>> 8)) % 256 = ((l - 2) <<< 4) ||| (d >>> 8) ∧
    ((((l - 2) <<< 4) ||| (d >>> 8)) >>> 4) = l - 2 ∧
    (d &&& 0xFF) % 256 = d &&& 0xFF ∧
    ((((((l - 2) <<< 4) ||| (d >>> 8)) &&& 0xF) <<< 8) ||| (d &&& 0xFF)) = d := by
  have hh : d >>> 8 = d / 256 := by
    rw [Nat.shiftRight_eq_div_pow]
  have hlo : d &&& 0xFF = d % 256 := by
    have h0 := Nat.and_pow_two_sub_one_eq_mod d 8
    norm_num at h0
    exact h0
  have hsh : ((l - 2) <<< 4) ||| (d >>> 8) = (l - 2) * 16 + d / 256 := by
    rw [shiftLeft_or_eq_add _ _ 4 (by rw [hh]; norm_num; omega), hh]
    norm_num
  have hand : ((l - 2) * 16 + d / 256) &&& 0xF = d / 256 := by
    have h0 := Nat.and_pow_two_sub_one_eq_mod ((l - 2) * 16 + d / 256) 4
    norm_num at h0
    rw [h0]
    omega
  refine ⟨?_, ?_, ?_, ?_⟩
  · rw [hsh]
    exact Nat.mod_eq_of_lt (by omega)
  · rw [hsh, Nat.shiftRight_eq_div_pow]
    norm_num
    omega
  · rw [hlo]
    exact Nat.mod_eq_of_lt (by omega)
  · rw [hsh, hand, hlo, shiftLeft_or_eq_add _ _ 8 (by omega)]
    norm_num
    omega

/-- Arithmetic facts about a three-byte (long) back-reference record. -/
theorem refLong_facts (d l : Nat) (hd : d ≤ 0xFFF) (hl : 0x11 < l) (hl2 : l ≤ 0x111) :
    (d >>> 8) % 256 = d >>> 8 ∧
    (d >>> 8) >>> 4 = 0 ∧
    (d &&& 0xFF) % 256 = d &&& 0xFF ∧
    ((((d >>> 8) &&& 0xF) <<< 8) ||| (d &&& 0xFF)) = d ∧
    ((l - 0x12) &&& 0xFF) % 256 = l - 0x12 := by
  have hh : d >>> 8 = d / 256 := by
    rw [Nat.shiftRight_eq_div_pow]
  have hlo : d &&& 0xFF = d % 256 := by
    have h0 := Nat.and_pow_two_sub_one_eq_mod d 8
    norm_num at h0
    exact h0
  have hand : (d / 256) &&& 0xF = d / 256 := by
    have h0 := Nat.and_pow_two_sub_one_eq_mod (d / 256) 4
    norm_num at h0
    rw [h0]
    omega
  have hl255 : (l - 0x12) &&& 0xFF = l - 0x12 := by
    have h0 := Nat.and_pow_two_sub_one_eq_mod (l - 0x12) 8
    norm_num at h0
    rw [h0]
    omega
  refine ⟨?_, ?_, ?_, ?_, ?_⟩
  · rw [hh]
    exact Nat.mod_eq_of_lt (by omega)
  · rw [hh, Nat.shiftRight_eq_div_pow]
    norm_num
    omega
  · rw [hlo]
    exact Nat.mod_eq_of_lt (by omega)
  · rw [hh, hand, hlo, shiftLeft_or_eq_add _ _ 8 (by omega)]
    norm_num
    omega
  · rw [hl255]
    exact Nat.mod_eq_of_lt (by omega)

theorem getD_cons2 (a b : Nat) (l : List Nat) (i : Nat) :
    (a :: b :: l).getD (i + 2) 0 = l.getD i 0 := by
  rw [(by omega : i + 2 = (i + 1) + 1), List.getD_cons_succ, List.getD_cons_succ]

theorem getD_cons3 (a b c : Nat) (l : List Nat) (i : Nat) :
    (a :: b :: c :: l).getD (i + 3) 0 = l.getD i 0 := by
  rw [(by omega : i + 3 = ((i + 1) + 1) + 1), List.getD_cons_succ,
    List.getD_cons_succ, List.getD_cons_succ]

set_option maxHeartbeats 1000000 in
/-- Decoding a well-formed serialized token stream reproduces the source:
fed bytes that agree with the serialization, the decoder runs to
completion and writes exactly the source bytes. -/
theorem decSim (srcB : List Nat) (hb : ∀ x ∈ srcB, x < 256)
    (dsrc : Nat → Option Nat) :
    ∀ (fuel : Nat) (ts g : List Tok) (st : DecState),
      TokSeqOk srcB st.dstPos ts →
      ts.length ≤ fuel →
      g.length < 8 →
      (g = [] → st.bitCount = 0 ∧
        (∀ i, i < (serCont [] ts).length →
          dsrc (st.srcPos + i) = some ((serCont [] ts).getD i 0))) →
      (g ≠ [] → st.bitCount = 8 - g.length ∧
        st.cb = cbGo 0 0 (g ++ ts.take (8 - g.length)) <<< g.length ∧
        (∀ i, i < (serMid g ts).length →
          dsrc (st.srcPos + i) = some ((serMid g ts).getD i 0))) →
      (∀ j, j < st.dstPos → st.dst j = srcB.getD j 0) →
      ∃ st', decLoop dsrc srcB.length fuel st = some st' ∧
        st'.dstPos = srcB.length ∧
        ∀ j, j < srcB.length → st'.dst j = srcB.getD j 0 := by
  intro fuel
  induction fuel with
  | zero =>
    intro ts g st hts hfl h8 hemp hgrp hag
    have hts0 : ts = [] := List.eq_nil_of_length_eq_zero (by omega)
    subst hts0
    have hp : st.dstPos = srcB.length := hts
    exact ⟨st, decLoop_stop _ _ _ _ (by omega), hp, fun j hj => hag j (by omega)⟩
  | succ fuel ih =>
    intro ts g st hts hfl h8 hemp hgrp hag
    cases ts with
    | nil =>
      have hp : st.dstPos = srcB.length := hts
      exact ⟨st, decLoop_stop _ _ _ _ (by omega), hp, fun j hj => hag j (by omega)⟩
    | cons t ts2 =>
      have hplt : st.dstPos < srcB.length := by
        cases t with
        | lit b => exact hts.1
        | ref d l =>
          obtain ⟨h1, h2, h3, h4, h5, h6, h7⟩ := hts
          omega
      obtain ⟨spP, hread, hstream⟩ :
          ∃ sp, (if st.bitCount = 0
                then (dsrc st.srcPos).map fun c => (c, 8, st.srcPos + 1)
                else some (st.cb, st.bitCount, st.srcPos) : Option (Nat × Nat × Nat))
              = some (cbGo 0 0 (g ++ (t :: ts2).take (8 - g.length)) <<< g.length,
                  8 - g.length, sp) ∧
            (∀ i, i < (serMid g (t :: ts2)).length →
              dsrc (sp + i) = some ((serMid g (t :: ts2)).getD i 0)) := by
        by_cases hge : g = []
        · subst hge
          obtain ⟨hbc, hagS⟩ := hemp rfl
          simp only [List.length_nil, List.nil_append, Nat.sub_zero,
            Nat.shiftLeft_zero]
          refine ⟨st.srcPos + 1, ?_, ?_⟩
          · rw [if_pos hbc]
            have h0 := hagS 0 (by rw [serCont_nil_eq _ (by simp)]; simp)
            rw [Nat.add_zero, serCont_nil_eq _ (by simp), List.getD_cons_zero] at h0
            rw [h0]
            rfl
          · intro i hi
            have h1 := hagS (i + 1)
              (by rw [serCont_nil_eq _ (by simp)]
                  simp only [List.length_cons]
                  omega)
            rw [serCont_nil_eq _ (by simp), List.getD_cons_succ,
              (by omega : st.srcPos + (i + 1) = st.srcPos + 1 + i)] at h1
            exact h1
        · obtain ⟨hbc, hcbv, hagS⟩ := hgrp hge
          have hgl : 0 < g.length := List.length_pos.mpr hge
          refine ⟨st.srcPos, ?_, hagS⟩
          rw [if_neg (by omega), hbc, hcbv]
      rw [decLoop, if_pos hplt, hread]
      dsimp only
      have htake : (t :: ts2).take (8 - g.length) = t :: ts2.take (7 - g.length) := by
        rw [(by omega : 8 - g.length = (7 - g.length) + 1), List.take_succ_cons]
      have hsplit := cbGo_testBit_split g t (ts2.take (7 - g.length)) 0 0
        (by rw [List.length_take]; omega)
        (by rw [Nat.zero_testBit])
      rw [Nat.zero_add] at hsplit
      have hbit : ((cbGo 0 0 (g ++ (t :: ts2).take (8 - g.length)) <<< g.length)
          &&& 0x80 ≠ 0) ↔ t.isLit = true := by
        rw [and80_testBit, shl_testBit7 _ _ (by omega), htake, hsplit]
      cases t with
      | lit b =>
        obtain ⟨hplt2, hbv, hrest⟩ := hts
        rw [if_pos (hbit.mpr rfl)]
        obtain ⟨X, hX, hXcase⟩ : ∃ X, serMid g (Tok.lit b :: ts2)
            = (Tok.lit b).bytes ++ X ∧ ((g.length = 7 ∧ X = serCont [] ts2)
              ∨ (g.length < 7 ∧ X = serMid (g ++ [Tok.lit b]) ts2)) := by
          by_cases h7 : g.length = 7
          · exact ⟨_, serMid_last g _ ts2 h7, Or.inl ⟨h7, rfl⟩⟩
          · exact ⟨_, serMid_cons g _ ts2 (by omega), Or.inr ⟨by omega, rfl⟩⟩
        have hbytes : (Tok.lit b).bytes = [b % 256] := rfl
        have hr0 : dsrc spP = some (b % 256) := by
          have h0 := hstream 0 (by rw [hX, hbytes]; simp)
          rw [Nat.add_zero, hX, hbytes, List.singleton_append,
            List.getD_cons_zero] at h0
          exact h0
        rw [hr0]
        dsimp only
        have hblt : b < 256 := by
          rw [hbv]
          exact getD_lt_256 srcB hb st.dstPos
        have hagN : ∀ j, j < st.dstPos + 1 →
            updF st.dst st.dstPos (b % 256 % 256) j = srcB.getD j 0 := by
          intro j hj
          rcases Nat.lt_or_ge j st.dstPos with h2 | h2
          · rw [updF_other _ _ _ _ (by omega)]
            exact hag j h2
          · have hj2 : j = st.dstPos := by omega
            subst hj2
            rw [updF_same, Nat.mod_eq_of_lt (by omega), Nat.mod_eq_of_lt hblt, hbv]
        have hstrN : ∀ i, i < X.length → dsrc (spP + 1 + i) = some (X.getD i 0) := by
          intro i hi
          have h1 := hstream (i + 1)
            (by rw [hX, hbytes]
                simp only [List.singleton_append, List.length_cons]
                omega)
          rw [hX, hbytes, List.singleton_append, List.getD_cons_succ,
            (by omega : spP + (i + 1) = spP + 1 + i)] at h1
          exact h1
        rcases hXcase with ⟨h7, hXv⟩ | ⟨h7, hXv⟩
        · refine ih ts2 [] _ ?_ ?_ ?_ ?_ ?_ ?_
          · exact hrest
          · simp only [List.length_cons] at hfl
            omega
          · decide
          · intro _
            refine ⟨by dsimp only; omega, ?_⟩
            intro i hi
            dsimp only
            rw [← hXv]
            exact hstrN i (by rw [hXv]; exact hi)
          · intro hc
            exact absurd rfl hc
          · intro j hj
            dsimp only at hj ⊢
            exact hagN j hj
        · refine ih ts2 (g ++ [Tok.lit b]) _ ?_ ?_ ?_ ?_ ?_ ?_
          · exact hrest
          · simp only [List.length_cons] at hfl
            omega
          · simp only [List.length_append, List.length_cons, List.length_nil]
            omega
          · intro hc
            exact absurd hc (by simp)
          · intro _
            have hreg : g ++ (Tok.lit b :: ts2).take (8 - g.length)
                = (g ++ [Tok.lit b]) ++ ts2.take (8 - (g ++ [Tok.lit b]).length) := by
              rw [htake, (show 8 - (g ++ [Tok.lit b]).length = 7 - g.length by
                simp only [List.length_append, List.length_cons, List.length_nil]
                omega)]
              rw [List.append_cons]
            refine ⟨?_, ?_, ?_⟩
            · dsimp only
              simp only [List.length_append, List.length_cons, List.length_nil]
              omega
            · dsimp only
              rw [hreg, (show (g ++ [Tok.lit b]).length = g.length + 1 by simp),
                Nat.shiftLeft_add]
            · intro i hi
              dsimp only
              rw [← hXv]
              exact hstrN i (by rw [hXv]; exact hi)
          · intro j hj
            dsimp only at hj ⊢
            exact hagN j hj
      | ref d l =>
        obtain ⟨hl3, hl111, hlen, hd, hdp1, hmatch, hrest⟩ := hts
        rw [if_neg (fun hc => absurd (hbit.mp hc) (by simp [Tok.isLit]))]
        have hcast : (st.dstPos : Int) - ((d : Int) + 1)
            = ((st.dstPos - (d + 1) : Nat) : Int) := by omega
        have hagC : ∀ j, j < st.dstPos + l →
            (copyRun st.dst st.dstPos ((st.dstPos - (d + 1) : Nat) : Int) l).1 j
              = srcB.getD j 0 := by
          intro j hj
          exact copyRun_agree srcB hb l st.dst st.dstPos (st.dstPos - (d + 1))
            (by omega) hag hmatch j hj
        by_cases hll : 0x11 < l
        · obtain ⟨hf1, hf2, hf3, hf4, hf5⟩ := refLong_facts d l hd hll hl111
          have hbytes : (Tok.ref d l).bytes
              = [(d >>> 8) % 256, (d &&& 0xFF) % 256, ((l - 0x12) &&& 0xFF) % 256] := by
            rw [Tok.bytes, if_pos hll]
          obtain ⟨X, hX, hXcase⟩ : ∃ X, serMid g (Tok.ref d l :: ts2)
              = (Tok.ref d l).bytes ++ X ∧ ((g.length = 7 ∧ X = serCont [] ts2)
                ∨ (g.length < 7 ∧ X = serMid (g ++ [Tok.ref d l]) ts2)) := by
            by_cases h7 : g.length = 7
            · exact ⟨_, serMid_last g _ ts2 h7, Or.inl ⟨h7, rfl⟩⟩
            · exact ⟨_, serMid_cons g _ ts2 (by omega), Or.inr ⟨by omega, rfl⟩⟩
          have hr0 : dsrc spP = some ((d >>> 8) % 256) := by
            have h0 := hstream 0 (by rw [hX, hbytes]; simp)
            rw [Nat.add_zero, hX, hbytes, List.getD_append _ _ _ _ (by simp),
              List.getD_cons_zero] at h0
            exact h0
          have hr1 : dsrc (spP + 1) = some ((d &&& 0xFF) % 256) := by
            have h0 := hstream 1 (by rw [hX, hbytes]; simp)
            rw [hX, hbytes, List.getD_append _ _ _ _ (by simp)] at h0
            rw [(show [(d >>> 8) % 256, (d &&& 0xFF) % 256,
                ((l - 0x12) &&& 0xFF) % 256].getD 1 0 = (d &&& 0xFF) % 256 from rfl)] at h0
            exact h0
          have hr2 : dsrc (spP + 2) = some (((l - 0x12) &&& 0xFF) % 256) := by
            have h0 := hstream 2 (by rw [hX, hbytes]; simp)
            rw [hX, hbytes, List.getD_append _ _ _ _ (by simp)] at h0
            rw [(show [(d >>> 8) % 256, (d &&& 0xFF) % 256,
                ((l - 0x12) &&& 0xFF) % 256].getD 2 0
                = ((l - 0x12) &&& 0xFF) % 256 from rfl)] at h0
            exact h0
          rw [hr0, hr1]
          dsimp only
          rw [hf1, if_pos hf2, hr2]
          simp only [Option.map]
          rw [hf5, (by omega : l - 0x12 + 0x12 = l), hf3, hf4, hcast, copyRun_snd]
          have hstrN : ∀ i, i < X.length → dsrc (spP + 3 + i) = some (X.getD i 0) := by
            intro i hi
            have h1 := hstream (i + 3)
              (by rw [hX, hbytes]
                  simp only [List.cons_append, List.nil_append, List.length_cons]
                  omega)
            rw [hX, hbytes, List.cons_append, List.cons_append, List.cons_append,
              List.nil_append, getD_cons3,
              (by omega : spP + (i + 3) = spP + 3 + i)] at h1
            exact h1
          rcases hXcase with ⟨h7, hXv⟩ | ⟨h7, hXv⟩
          · refine ih ts2 [] _ ?_ ?_ ?_ ?_ ?_ ?_
            · exact hrest
            · simp only [List.length_cons] at hfl
              omega
            · decide
            · intro _
              refine ⟨by dsimp only; omega, ?_⟩
              intro i hi
              dsimp only
              rw [← hXv]
              exact hstrN i (by rw [hXv]; exact hi)
            · intro hc
              exact absurd rfl hc
            · intro j hj
              dsimp only at hj ⊢
              exact hagC j hj
          · refine ih ts2 (g ++ [Tok.ref d l]) _ ?_ ?_ ?_ ?_ ?_ ?_
            · exact hrest
            · simp only [List.length_cons] at hfl
              omega
            · simp only [List.length_append, List.length_cons, List.length_nil]
              omega
            · intro hc
              exact absurd hc (by simp)
            · intro _
              have hreg : g ++ (Tok.ref d l :: ts2).take (8 - g.length)
                  = (g ++ [Tok.ref d l]) ++ ts2.take (8 - (g ++ [Tok.ref d l]).length) := by
                rw [htake, (show 8 - (g ++ [Tok.ref d l]).length = 7 - g.length by
                  simp only [List.length_append, List.length_cons, List.length_nil]
                  omega)]
                rw [List.append_cons]
              refine ⟨?_, ?_, ?_⟩
              · dsimp only
                simp only [List.length_append, List.length_cons, List.length_nil]
                omega
              · dsimp only
                rw [hreg, (show (g ++ [Tok.ref d l]).length = g.length + 1 by simp),
                  Nat.shiftLeft_add]
              · intro i hi
                dsimp only
                rw [← hXv]
                exact hstrN i (by rw [hXv]; exact hi)
            · intro j hj
              dsimp only at hj ⊢
              exact hagC j hj
        · obtain ⟨hf1, hf2, hf3, hf4⟩ := refShort_facts d l hd hl3 (by omega)
          have hbytes : (Tok.ref d l).bytes
              = [(((l - 2) <<< 4) ||| (d >>> 8)) % 256, (d &&& 0xFF) % 256] := by
            rw [Tok.bytes, if_neg hll]
          obtain ⟨X, hX, hXcase⟩ : ∃ X, serMid g (Tok.ref d l :: ts2)
              = (Tok.ref d l).bytes ++ X ∧ ((g.length = 7 ∧ X = serCont [] ts2)
                ∨ (g.length < 7 ∧ X = serMid (g ++ [Tok.ref d l]) ts2)) := by
            by_cases h7 : g.length = 7
            · exact ⟨_, serMid_last g _ ts2 h7, Or.inl ⟨h7, rfl⟩⟩
            · exact ⟨_, serMid_cons g _ ts2 (by omega), Or.inr ⟨by omega, rfl⟩⟩
          have hr0 : dsrc spP = some ((((l - 2) <<< 4) ||| (d >>> 8)) % 256) := by
            have h0 := hstream 0 (by rw [hX, hbytes]; simp)
            rw [Nat.add_zero, hX, hbytes, List.getD_append _ _ _ _ (by simp),
              List.getD_cons_zero] at h0
            exact h0
          have hr1 : dsrc (spP + 1) = some ((d &&& 0xFF) % 256) := by
            have h0 := hstream 1 (by rw [hX, hbytes]; simp)
            rw [hX, hbytes, List.getD_append _ _ _ _ (by simp)] at h0
            rw [(show [(((l - 2) <<< 4) ||| (d >>> 8)) % 256,
                (d &&& 0xFF) % 256].getD 1 0 = (d &&& 0xFF) % 256 from rfl)] at h0
            exact h0
          rw [hr0, hr1]
          dsimp only
          rw [hf1, if_neg (by rw [hf2]; omega)]
          dsimp only
          rw [hf2, (by omega : l - 2 + 2 = l), hf3, hf4, hcast, copyRun_snd]
          have hstrN : ∀ i, i < X.length → dsrc (spP + 2 + i) = some (X.getD i 0) := by
            intro i hi
            have h1 := hstream (i + 2)
              (by rw [hX, hbytes]
                  simp only [List.cons_append, List.nil_append, List.length_cons]
                  omega)
            rw [hX, hbytes, List.cons_append, List.cons_append,
              List.nil_append, getD_cons2,
              (by omega : spP + (i + 2) = spP + 2 + i)] at h1
            exact h1
          rcases hXcase with ⟨h7, hXv⟩ | ⟨h7, hXv⟩
          · refine ih ts2 [] _ ?_ ?_ ?_ ?_ ?_ ?_
            · exact hrest
            · simp only [List.length_cons] at hfl
              omega
            · decide
            · intro _
              refine ⟨by dsimp only; omega, ?_⟩
              intro i hi
              dsimp only
              rw [← hXv]
              exact hstrN i (by rw [hXv]; exact hi)
            · intro hc
              exact absurd rfl hc
            · intro j hj
              dsimp only at hj ⊢
              exact hagC j hj
          · refine ih ts2 (g ++ [Tok.ref d l]) _ ?_ ?_ ?_ ?_ ?_ ?_
            · exact hrest
            · simp only [List.length_cons] at hfl
              omega
            · simp only [List.length_append, List.length_cons, List.length_nil]
              omega
            · intro hc
              exact absurd hc (by simp)
            · intro _
              have hreg : g ++ (Tok.ref d l :: ts2).take (8 - g.length)
                  = (g ++ [Tok.ref d l]) ++ ts2.take (8 - (g ++ [Tok.ref d l]).length) := by
                rw [htake, (show 8 - (g ++ [Tok.ref d l]).length = 7 - g.length by
                  simp only [List.length_append, List.length_cons, List.length_nil]
                  omega)]
                rw [List.append_cons]
              refine ⟨?_, ?_, ?_⟩
              · dsimp only
                simp only [List.length_append, List.length_cons, List.length_nil]
                omega
              · dsimp only
                rw [hreg, (show (g ++ [Tok.ref d l]).length = g.length + 1 by simp),
                  Nat.shiftLeft_add]
              · intro i hi
                dsimp only
                rw [← hXv]
                exact hstrN i (by rw [hXv]; exact hi)
            · intro j hj
              dsimp only at hj ⊢
              exact hagC j hj

/-- A well-formed token stream has no more tokens than source bytes. -/
theorem tokSeq_length_le (srcB : List Nat) :
    ∀ (ts : List Tok) (p : Nat), TokSeqOk srcB p ts →
      p + ts.length ≤ srcB.length := by
  intro ts
  induction ts with
  | nil =>
    intro p h
    have hp : p = srcB.length := h
    simp [hp]
  | cons t ts ih =>
    intro p h
    cases t with
    | lit b =>
      obtain ⟨h1, h2, h3⟩ := h
      have := ih (p + 1) h3
      simp only [List.length_cons]
      omega
    | ref d l =>
      obtain ⟨h1, h2, h3, h4, h5, h6, h7⟩ := h
      have := ih (p + l) h7
      simp only [List.length_cons]
      omega

/-- A successful encoder run delivers exactly the serialized token stream:
the final pending code byte lands in its reserved slot. -/
theorem encode_agree (src : List Nat) (hb : ∀ x ∈ src, x < 256)
    (hpos : 0 < src.length)
    (hfitM : (serCont [] (tokGen src src.length encInit.toLazyState)).length
      ≤ src.length + 0x250 - 16) :
    ∀ i, i < (serCont [] (tokGen src src.length encInit.toLazyState)).length →
      (encRun src).dst i
        = (serCont [] (tokGen src src.length encInit.toLazyState)).getD i 0 := by
  obtain ⟨c1, c2, c3, c4, c5⟩ := encLoop_sim src (src.length + 0x250 - 16) hb
    src.length encInit [] []
    (fun hc => absurd hc (by simp [encInit]))
    (by simp [encInit]) (by simp [encInit]) (Or.inl (by simpa [encInit] using hpos))
    (by decide) rfl rfl rfl rfl
    (by intro i hi; simp at hi)
    (by rw [payloadOf_nil]; exact agree_nil _ _)
    (by simpa using hfitM)
  simp only [List.length_nil, Nat.zero_add, List.nil_append] at c1 c3 c4 c5
  intro i hi
  show (encRun src).dst i = _
  unfold encRun
  dsimp only
  rw [if_pos c2]
  dsimp only
  rcases Nat.lt_or_ge (encLoop src (src.length + 0x250 - 16) src.length encInit).cbPos
      (src.length + 0x250 - 16) with hcv | hcv
  · rw [writeDst_lt _ _ _ _ hcv]
    rcases eq_or_ne i
        (encLoop src (src.length + 0x250 - 16) src.length encInit).cbPos with he | he
    · rw [he, updF_same]
      exact (c5 (by omega)).symm
    · rw [updF_other _ _ _ _ he]
      exact c4 i hi he
  · rw [writeDst, if_neg (by omega)]
    exact c4 i hi (by omega)

/-- The destination position of a full run is the serialized length. -/
theorem encRun_dstPos_stream (src : List Nat) (hb : ∀ x ∈ src, x < 256)
    (hpos : 0 < src.length) :
    (encRun src).dstPos
      = (serCont [] (tokGen src src.length encInit.toLazyState)).length := by
  rw [encRun_dstPos]
  have h := encLoop_pos src (src.length + 0x250 - 16) hb src.length encInit [] 0
    (fun hc => absurd hc (by simp [encInit]))
    (by simp [encInit]) (by simp [encInit]) (Or.inl (by simpa [encInit] using hpos))
    (by decide) rfl rfl
  simpa using h

/-- C1 amended: the Yaz0 roundtrip holds exactly when the encoder
succeeds — whenever `yaz0Encode` returns a frame (the transient buffer
fit), decoding the stream after the 16-byte header onto a destination of
the source's size reproduces the source byte-for-byte; and the 17-byte
run of 0x41 encodes as one literal plus a distance-0 length-0x10
back-reference and decodes back, as claimed.  (The unconditional claim
fails: see the overflow counterexample.) -/
theorem yaz0_roundtrip_amended :
    (∀ (src out : List Nat), (∀ x ∈ src, x < 256) →
      yaz0Encode src = some out →
      ∃ st', decLoop (fun i => out[i + 16]?) src.length src.length decInit
          = some st' ∧
        st'.dstPos = src.length ∧
        ∀ j, j < src.length → st'.dst j = src.getD j 0) ∧
    yaz0Encode (List.replicate 17 0x41) = some [0x59, 0x61, 0x7A, 0x30,
      0, 0, 0, 0x11, 0, 0, 0, 0, 0, 0, 0, 0,
      0x80, 0x41, 0xE0, 0x00, 0, 0, 0, 0, 0, 0, 0, 0, 0, 0, 0, 0] ∧
    tokGen (List.replicate 17 0x41) 17 ⟨0, 0, 0, 0, 0⟩
      = [Tok.lit 0x41, Tok.ref 0 0x10] ∧
    ((decLoop (fun i => ([0x59, 0x61, 0x7A, 0x30, 0, 0, 0, 0x11,
          0, 0, 0, 0, 0, 0, 0, 0, 0x80, 0x41, 0xE0, 0x00,
          0, 0, 0, 0, 0, 0, 0, 0, 0, 0, 0, 0] : List Nat)[i + 16]?) 17 17
        decInit).map
        fun st => List.ofFn fun j : Fin 17 => st.dst j)
      = some (List.replicate 17 0x41) := by
  refine ⟨?_, by decide, by decide, by decide⟩
  intro src out hb henc
  rcases Nat.eq_zero_or_pos src.length with hz | hpos
  · refine ⟨decInit, decLoop_stop _ _ _ _ (by omega), by simp [decInit, hz], ?_⟩
    intro j hj
    omega
  · have hcond : ((encRun src).dstPos + 31) / 16 * 16 ≤ src.length + 0x250 ∧
        out = List.ofFn (fun i : Fin (((encRun src).dstPos + 31) / 16 * 16) =>
          if (i : Nat) < 4 then [0x59, 0x61, 0x7A, 0x30].getD i 0
          else if (i : Nat) < 8 then src.length % 2^32 / 2^(8 * (7 - (i : Nat))) % 256
          else if (i : Nat) < 16 then 0
          else (encRun src).dst ((i : Nat) - 16)) := by
      unfold yaz0Encode at henc
      dsimp only at henc
      split at henc
      · rename_i h
        exact ⟨h, (Option.some.inj henc).symm⟩
      · exact Option.noConfusion henc
    have hdst := encRun_dstPos_stream src hb hpos
    have hfitM : (serCont [] (tokGen src src.length encInit.toLazyState)).length
        ≤ src.length + 0x250 - 16 := by
      have h16 : (encRun src).dstPos + 16 ≤ ((encRun src).dstPos + 31) / 16 * 16 := by
        omega
      omega
    have hagE := encode_agree src hb hpos hfitM
    have hout : ∀ i, i < (serCont [] (tokGen src src.length encInit.toLazyState)).length →
        out[i + 16]? = some ((serCont [] (tokGen src src.length
          encInit.toLazyState)).getD i 0) := by
      intro i hi
      rw [hcond.2, List.getElem?_ofFn, List.ofFnNthVal]
      rw [dif_pos (by omega)]
      dsimp only
      rw [if_neg (by omega), if_neg (by omega), if_neg (by omega),
        (by omega : i + 16 - 16 = i), hagE i hi]
    have hts := tokGen_ok src hb src.length encInit.toLazyState
      (fun hc => absurd hc (by simp [encInit]))
      (by simp [encInit]) (by simp [encInit])
    have hfuel := tokSeq_length_le src (tokGen src src.length encInit.toLazyState)
      encInit.toLazyState.srcPos hts
    refine decSim src hb (fun i => out[i + 16]?) src.length
      (tokGen src src.length encInit.toLazyState) [] decInit ?_ ?_ ?_ ?_ ?_ ?_
    · exact hts
    · simpa [encInit] using hfuel
    · decide
    · intro _
      refine ⟨rfl, ?_⟩
      intro i hi
      show out[decInit.srcPos + i + 16]? = _
      rw [(show decInit.srcPos = 0 from rfl), Nat.zero_add]
      exact hout i hi
    · intro hc
      exact absurd rfl hc
    · intro j hj
      rw [(show decInit.dstPos = 0 from rfl)] at hj
      omega

end Zelda64
